import Mathlib

/-!
# Verification of the cron scheduler (`pkg/cron/service.go`)

Shallow embedding of the schedule evaluator (`computeNextRun`, `nextCronTime`,
`parseCronField`) and of the execution coordinator (`checkJobs`, `executeJob`,
`removeJobUnsafe`), followed by theorems about them.

## Modelling conventions

* Go `int` and `int64` are 64-bit; values are `Int` and arithmetic that can
  leave the 64-bit range is wrapped explicitly with `wrap64`.
* Go strings are lists of characters.
* A `time.Time` is an instant, an `Int` counting the nanoseconds since
  1970-01-01T00:00:00 UTC, read in a `Location`. A `Location` is the UTC offset
  in force before its first transition together with its list of transitions,
  so daylight-saving gaps and repeated hours are in the model; `Location.lookup`
  and `date` follow `Location.lookup` and `time.Date` of the `time` package.
  The calendar fields of an instant are those of its wall-clock reading `wall`.
* The search loop of `nextCronTime` runs on fuel, `searchFuel` rounds. A result
  `some r` says the call returns `r`; `none` says the loop has not returned
  after that many rounds. In a location with a fixed offset of whole minutes
  the loop returns within the fuel (`cronLoop_terminates`); where a theorem
  says that the search never ends, it proves `none` for every amount of fuel.
* `time.Now()` is an explicit argument wherever the code reads the clock.
* A call that may fail to return has a result of type `Option α`: `none` says the
  call does not return, `some r` that it returns `r`. A Go `nil` result is an
  inner `none`.
* A `*CronJob` is a backing array together with an index, so that a pointer
  taken before `store.Jobs` is replaced keeps pointing into the old array.
-/

namespace Cron

/-! ## The `time` package: proleptic Gregorian calendar -/

/-- The `daysBefore` table of the `time` package: days in a non-leap year before
month `m + 1` (so `daysBefore 0 = 0`, `daysBefore 12 = 365`). -/
def daysBefore (m : Int) : Int :=
  if m ≤ 0 then 0
  else if m = 1 then 31
  else if m = 2 then 59
  else if m = 3 then 90
  else if m = 4 then 120
  else if m = 5 then 151
  else if m = 6 then 181
  else if m = 7 then 212
  else if m = 8 then 243
  else if m = 9 then 273
  else if m = 10 then 304
  else if m = 11 then 334
  else 365

/-- Leap-year test of the `time` package. -/
def isLeap (year : Int) : Bool :=
  decide (year % 4 = 0) && (decide (year % 100 ≠ 0) || decide (year % 400 = 0))

/-- Days from 0001-01-01 to January 1 of `year`, computed as `time` does: by
400-, 100-, 4- and 1-year cycles. -/
def daysSinceEpoch (year : Int) : Int :=
  let y := year - 1
  let n400 := y / 400
  let y1 := y - 400 * n400
  let n100 := y1 / 100
  let y2 := y1 - 100 * n100
  let n4 := y2 / 4
  let y3 := y2 - 4 * n4
  146097 * n400 + 36524 * n100 + 1461 * n4 + 365 * y3

/-- Year and zero-based day of the year of day number `d` (days since
0001-01-01): the cycle-cutting computation of `absDate`. -/
def yearAndYday (d : Int) : Int × Int :=
  let n400 := d / 146097
  let d1 := d - 146097 * n400
  let c := d1 / 36524
  let n100 := c - c / 4
  let d2 := d1 - 36524 * n100
  let n4 := d2 / 1461
  let d3 := d2 - 1461 * n4
  let q := d3 / 365
  let n1 := q - q / 4
  (400 * n400 + 100 * n100 + 4 * n4 + n1 + 1, d3 - 365 * n1)

/-- Month (1..12) and day of the month (1..31) of the zero-based day `yday` of a
year, as in `absDate`: the leap day is handled first, then the month is
estimated as `day / 31` and corrected with `daysBefore`. -/
def monthAndDay (leap : Bool) (yday : Int) : Int × Int :=
  if leap && decide (yday = 59) then (2, 29)
  else
    let day := if leap && decide (yday > 59) then yday - 1 else yday
    let m := day / 31
    let e := daysBefore (m + 1)
    if day ≥ e then (m + 2, day - e + 1) else (m + 1, day - daysBefore m + 1)

/-- Day number (days since 0001-01-01) of the day containing `t`. -/
def absDay (t : Int) : Int := t / 86400000000000 + 719162

/-- The method `t.Year()`. -/
def year (t : Int) : Int := (yearAndYday (absDay t)).1

/-- The method `t.Month()` as an integer, January = 1. -/
def month (t : Int) : Int :=
  (monthAndDay (isLeap (year t)) (yearAndYday (absDay t)).2).1

/-- The method `t.Day()`. -/
def day (t : Int) : Int :=
  (monthAndDay (isLeap (year t)) (yearAndYday (absDay t)).2).2

/-- The method `t.Weekday()` as an integer, Sunday = 0; 0001-01-01 is a Monday. -/
def weekday (t : Int) : Int := (absDay t + 1) % 7

/-- The method `t.Hour()`. -/
def hour (t : Int) : Int := t / 3600000000000 % 24

/-- The method `t.Minute()`. -/
def minute (t : Int) : Int := t / 60000000000 % 60

/-- The first half of `time.Date(year, month, day, hour, min, 0, 0, loc)`, up to
the variable `unix` before the zone adjustment, in nanoseconds: the month is
normalised into 1..12 carrying into the year; day, hour and minute overflow is
carried by adding them to the day count linearly, as `Date` does. The result
is the wall-clock reading asked for, counted from 1970-01-01T00:00:00 on that
clock. -/
def dateWall (y mo d h mi : Int) : Int :=
  let m0 := mo - 1
  let y1 := y + m0 / 12
  let m1 := m0 % 12 + 1
  let leapAdj : Int := if isLeap y1 && decide (m1 ≥ 3) then 1 else 0
  let days := daysSinceEpoch y1 + daysBefore (m1 - 1) + leapAdj + (d - 1)
  (days - 719162) * 86400000000000 + h * 3600000000000 + mi * 60000000000

/-- The call `t.Truncate(time.Minute)`: round down to a whole minute. -/
def truncateMinute (t : Int) : Int := t / 60000000000 * 60000000000

/-- First zero-based day of the year of month `m` (1..13; 13 is the end of the year). -/
def monthStart (leap : Bool) (m : Int) : Int :=
  daysBefore (m - 1) + (if leap && decide (m ≥ 3) then 1 else 0)

/-! ## The `time` package: locations -/

/-- A `*time.Location`: the UTC offset in seconds in force before the first
transition (`first`), and the transitions in increasing order of time (`tx`),
each the Unix second at which it happens with the UTC offset in seconds in
force from then on. A location without transitions has a fixed offset. -/
structure Location where
  first : Int
  tx : List (Int × Int)
  deriving DecidableEq, Repr

/-- The constant `alpha` of the `time` package: the start of the first period. -/
def alphaSec : Int := -9223372036854775808

/-- The constant `omega` of the `time` package: the end of the last period. -/
def omegaSec : Int := 9223372036854775807

/-- The search of `Location.lookup` through the transitions, from the period
that has offset `offset` and starts at `start`: the period that contains the
Unix second `sec`, as (offset, start, end). -/
def lookupFrom (offset start : Int) : List (Int × Int) → Int → Int × Int × Int
  | [], _ => (offset, start, omegaSec)
  | (w, o) :: rest, sec =>
    if sec < w then (offset, start, w) else lookupFrom o w rest sec

/-- The method `Location.lookup`: offset, start and end of the period in force
at the Unix second `sec`. -/
def Location.lookup (l : Location) (sec : Int) : Int × Int × Int :=
  lookupFrom l.first alphaSec l.tx sec

/-- The wall-clock reading of the instant `t` in `loc` (the method `t.abs()`):
`t` moved by the offset in force at `t`. The methods `Year`, `Month`, `Day`,
`Weekday`, `Hour` and `Minute` of a `time.Time` are `year`, `month`, `day`,
`weekday`, `hour` and `minute` of this reading. -/
def wall (loc : Location) (t : Int) : Int :=
  t + (loc.lookup (t / 1000000000)).1 * 1000000000

/-- The function `time.Date(year, month, day, hour, min, 0, 0, loc)`: the instant
for a wall-clock reading. The reading is first looked up as if it were UTC; when
the offset found is not zero and the instant it gives lies outside the period
found, the offset in force at that instant is taken instead. In a gap or a
repeated hour the result is right in one of the two zones of the transition. -/
def date (loc : Location) (y mo d h mi : Int) : Int :=
  let unix := dateWall y mo d h mi / 1000000000
  let z := loc.lookup unix
  let offset : Int :=
    if z.1 ≠ 0 then
      (if unix - z.1 < z.2.1 ∨ unix - z.1 ≥ z.2.2 then (loc.lookup (unix - z.1)).1 else z.1)
    else 0
  (unix - offset) * 1000000000

/-! ## 64-bit integers and the `strings` / `strconv` helpers -/

/-- Two's-complement wrap of an integer into the `int64` range. -/
def wrap64 (x : Int) : Int :=
  (x + 9223372036854775808) % 18446744073709551616 - 9223372036854775808

/-- The predicate `unicode.IsSpace`, used by `strings.Fields` and
`strings.TrimSpace`. -/
def isSpace (c : Char) : Bool :=
  let n := c.toNat
  (decide (9 ≤ n) && decide (n ≤ 13)) || n == 32 || n == 133 || n == 160 || n == 5760 ||
    (decide (8192 ≤ n) && decide (n ≤ 8202)) || n == 8232 || n == 8233 || n == 8239 ||
    n == 8287 || n == 12288

/-- Worker of `fields`: `cur` is the field being read. -/
def fieldsGo : List Char → List Char → List (List Char)
  | cur, [] => if cur.isEmpty then [] else [cur]
  | cur, c :: cs =>
    if isSpace c then
      (if cur.isEmpty then fieldsGo [] cs else cur :: fieldsGo [] cs)
    else fieldsGo (cur ++ [c]) cs

/-- The function `strings.Fields`: the maximal runs of non-space characters. -/
def fields (s : List Char) : List (List Char) := fieldsGo [] s

/-- Worker of `splitComma`: `cur` is the part being read. -/
def splitCommaGo : List Char → List Char → List (List Char)
  | cur, [] => [cur]
  | cur, c :: cs =>
    if c = ',' then cur :: splitCommaGo [] cs else splitCommaGo (cur ++ [c]) cs

/-- The call `strings.Split(s, ",")`: always at least one part. -/
def splitComma (s : List Char) : List (List Char) := splitCommaGo [] s

/-- The function `strings.TrimSpace`. -/
def trimSpace (s : List Char) : List Char :=
  ((s.dropWhile isSpace).reverse.dropWhile isSpace).reverse

/-- Decimal digits to a number, `none` on a character that is not a digit. -/
def parseDigits : List Char → Nat → Option Nat
  | [], acc => some acc
  | c :: cs, acc =>
    if 48 ≤ c.toNat ∧ c.toNat ≤ 57 then parseDigits cs (acc * 10 + (c.toNat - 48)) else none

/-- The function `strconv.Atoi` on a 64-bit platform: an optional sign, at least
one decimal digit, and a value in the `int64` range; `none` is an error. -/
def atoi (s : List Char) : Option Int :=
  match s with
  | [] => none
  | c :: rest =>
    let neg := decide (c = '-')
    let ds := if c = '-' ∨ c = '+' then rest else s
    if ds.isEmpty then none
    else
      match parseDigits ds 0 with
      | none => none
      | some n =>
        if neg then (if n ≤ 9223372036854775808 then some (-(n : Int)) else none)
        else (if n < 9223372036854775808 then some (n : Int) else none)

/-! ## `parseCronField` -/

/-- The loop `for i := a; i <= b; i += step { result[i] = true }` on `int`,
started at `i`: the values stored, in order. The counter wraps at 64 bits. A run
that ends visits no counter value twice, so it needs at most `2^64 + 1` units of
fuel; `none` with that much fuel means the loop never ends. -/
def countLoop (b step : Int) : Nat → Int → Option (List Int)
  | 0, _ => none
  | fuel + 1, i =>
    if i ≤ b then (countLoop b step fuel (wrap64 (i + step))).map (fun r => i :: r)
    else some []

/-- Fuel that lets every ending `countLoop` run end. -/
def loopFuel : Nat := 18446744073709551617

/-- One comma-separated part of a cron field, already trimmed. Outer `none`: the
code does not return. Inner `none`: the part is invalid (`parseCronField`
returns `nil`). Otherwise the values the part adds to the result map. -/
def parsePart (part : List Char) (min max : Int) : Option (Option (List Int)) :=
  match part with
  | '*' :: '/' :: rest =>
    match atoi rest with
    | none => some none
    | some step =>
      if step ≤ 0 then some none
      else (countLoop max step loopFuel min).map some
  | _ =>
    if part = ['*'] then (countLoop max 1 loopFuel min).map some
    else if '-' ∈ part then
      match atoi (part.takeWhile (fun c => c != '-')),
            atoi ((part.dropWhile (fun c => c != '-')).drop 1) with
      | some lo, some hi =>
        if lo > hi then some none else (countLoop hi 1 loopFuel lo).map some
      | _, _ => some none
    else
      match atoi part with
      | none => some none
      | some val => some (some [val])

/-- The loop of `parseCronField` over the parts; `acc` is the result map so far,
as the list of its keys. An invalid part returns `nil` at once. -/
def parseParts (min max : Int) : List (List Char) → List Int → Option (Option (List Int))
  | [], acc => some (if acc.isEmpty then none else some acc)
  | p :: ps, acc =>
    match parsePart (trimSpace p) min max with
    | none => none
    | some none => some none
    | some (some vs) => parseParts min max ps (acc ++ vs)

/-- The function `parseCronField`. Outer `none`: the call does not return.
`some none`: the result is `nil`. `some (some s)`: the result map, as the list
of its keys (`m[v]` is `v ∈ s`). -/
def parseCronField (field : List Char) (min max : Int) : Option (Option (List Int)) :=
  parseParts min max (splitComma field) []

/-! ## `nextCronTime` -/

/-- The five parsed field sets of a cron expression. -/
structure CronSets where
  minuteSet : List Int
  hourSet : List Int
  domSet : List Int
  monthSet : List Int
  dowSet : List Int
  deriving DecidableEq, Repr

/-- The match test of the search loop: all five fields of the instant `t`, read
in `loc`, are in their sets. -/
def cronMatch (loc : Location) (s : CronSets) (t : Int) : Bool :=
  decide (month (wall loc t) ∈ s.monthSet) && decide (day (wall loc t) ∈ s.domSet) &&
    decide (weekday (wall loc t) ∈ s.dowSet) && decide (hour (wall loc t) ∈ s.hourSet) &&
    decide (minute (wall loc t) ∈ s.minuteSet)

/-- The block `Advance smartly` of the search loop: the next candidate after a
candidate `t` that does not match. -/
def cronNext (loc : Location) (s : CronSets) (t : Int) : Int :=
  if month (wall loc t) ∉ s.monthSet then
    date loc (year (wall loc t)) (month (wall loc t) + 1) 1 0 0
  else if day (wall loc t) ∉ s.domSet ∨ weekday (wall loc t) ∉ s.dowSet then
    date loc (year (wall loc t)) (month (wall loc t)) (day (wall loc t) + 1) 0 0
  else if hour (wall loc t) ∉ s.hourSet then
    date loc (year (wall loc t)) (month (wall loc t)) (day (wall loc t))
      (hour (wall loc t) + 1) 0
  else t + 60000000000

/-- The search loop `for t.Before(limit) { ... }` of `nextCronTime`. Outer `none`:
the fuel ran out. `some none`: the loop ended at the limit. `some (some t)`: the
loop returned `t`. -/
def cronLoop (loc : Location) (s : CronSets) (limit : Int) : Nat → Int → Option (Option Int)
  | 0, _ => none
  | fuel + 1, t =>
    if t < limit then
      if cronMatch loc s t then some (some t)
      else cronLoop loc s limit fuel (cronNext loc s t)
    else some none

/-- Fuel for the search: the minutes in 366 days, plus one. In a location with a
fixed offset of whole minutes the loop ends within this fuel. -/
def searchFuel : Nat := 527041

/-- The parsing half of `nextCronTime`. Outer `none`: a `parseCronField` call
does not return. `some none`: not five fields, or a field is `nil`. -/
def parseCronExpr (expr : List Char) : Option (Option CronSets) :=
  match fields expr with
  | [f0, f1, f2, f3, f4] =>
    match parseCronField f0 0 59 with
    | none => none
    | some mi =>
    match parseCronField f1 0 23 with
    | none => none
    | some ho =>
    match parseCronField f2 1 31 with
    | none => none
    | some dom =>
    match parseCronField f3 1 12 with
    | none => none
    | some mo =>
    match parseCronField f4 0 6 with
    | none => none
    | some dow =>
      match mi, ho, dom, mo, dow with
      | some a, some b, some c, some d, some e => some (some ⟨a, b, c, d, e⟩)
      | _, _, _, _, _ => some none
  | _ => some none

/-- The function `nextCronTime` for a start time `after` that is read in `loc`.
Outer `none`: the call does not return. `some none`: the result is `nil`. -/
def nextCronTime (loc : Location) (expr : List Char) (after : Int) : Option (Option Int) :=
  match parseCronExpr expr with
  | none => none
  | some none => some none
  | some (some s) =>
    cronLoop loc s (after + 31622400000000000) searchFuel (truncateMinute after + 60000000000)

/-! ## Data model -/

/-- The struct `CronSchedule`. -/
structure CronSchedule where
  kind : String
  atMS : Option Int
  everyMS : Option Int
  expr : String
  tz : String
  deriving DecidableEq, Repr

/-- The struct `CronPayload`. -/
structure CronPayload where
  kind : String
  message : String
  deliver : Bool
  channel : String
  to_ : String
  deriving DecidableEq, Repr

/-- The struct `CronJobState`. -/
structure CronJobState where
  nextRunAtMS : Option Int
  lastRunAtMS : Option Int
  lastStatus : String
  lastError : String
  deriving DecidableEq, Repr

/-- The struct `CronJob`. -/
structure CronJob where
  id : String
  name : String
  enabled : Bool
  schedule : CronSchedule
  payload : CronPayload
  state : CronJobState
  createdAtMS : Int
  updatedAtMS : Int
  deleteAfterRun : Bool
  deriving DecidableEq, Repr

/-- The time zones the process can see: the location `time.Local` and the
result of `time.LoadLocation` (`none`: the name does not resolve). -/
structure Zones where
  localLoc : Location
  load : String → Option Location

/-! ## `computeNextRun` -/

/-- The method `computeNextRun`. Outer `none`: the call does not return (only
through `nextCronTime`). `some none`: the result is `nil`. -/
def computeNextRun (z : Zones) (schedule : CronSchedule) (nowMS : Int) : Option (Option Int) :=
  if schedule.kind = "at" then
    match schedule.atMS with
    | some a => if a > nowMS then some (some a) else some none
    | none => some none
  else if schedule.kind = "every" then
    match schedule.everyMS with
    | none => some none
    | some e => if e ≤ 0 then some none else some (some (wrap64 (nowMS + e)))
  else if schedule.kind = "cron" ∧ schedule.expr ≠ "" then
    let loc : Location :=
      if schedule.tz ≠ "" then
        (match z.load schedule.tz with
         | some l => l
         | none => z.localLoc)
      else z.localLoc
    match nextCronTime loc schedule.expr.data (nowMS * 1000000) with
    | none => none
    | some none => some none
    | some (some t) => some (some (wrap64 (t / 1000000)))
  else some none

/-! ## The service: store, backing arrays and job pointers -/

/-- The part of `CronService` the scheduler works on. `heap` holds every backing
array that was allocated for `store.Jobs`; `cur` is the one `store.Jobs` refers
to now; `disk` is the job list last written to the backing file. -/
structure CronService where
  heap : List (List CronJob)
  cur : Nat
  disk : List CronJob
  running : Bool
  deriving DecidableEq, Repr

/-- A `*CronJob` obtained as `&cs.store.Jobs[i]`: a backing array and an index. -/
structure JobPtr where
  arr : Nat
  idx : Nat
  deriving DecidableEq, Repr

/-- Apply `f` to element `n` of a list, if there is one. -/
def modifyAt {α : Type} (f : α → α) : Nat → List α → List α
  | _, [] => []
  | 0, a :: l => f a :: l
  | n + 1, a :: l => a :: modifyAt f n l

/-- The slice `cs.store.Jobs`. -/
def CronService.jobs (cs : CronService) : List CronJob := cs.heap.getD cs.cur []

/-- Read through a job pointer. -/
def CronService.deref (cs : CronService) (p : JobPtr) : Option CronJob :=
  (cs.heap.getD p.arr [])[p.idx]?

/-- Write through a job pointer. -/
def CronService.update (cs : CronService) (p : JobPtr) (f : CronJob → CronJob) : CronService :=
  { cs with heap := modifyAt (modifyAt f p.idx) p.arr cs.heap }

/-- The method `saveStore`; `writeOk` says whether creating the directory,
encoding and writing all succeed. Returns the service and whether an error is
returned. -/
def saveStore (cs : CronService) (writeOk : Bool) : CronService × Bool :=
  if writeOk then ({ cs with disk := cs.jobs }, false) else (cs, true)

/-- The method `removeJobUnsafe`: the kept jobs are copied to a fresh backing
array, which becomes `store.Jobs`; the old array stays as it is. -/
def removeJobUnsafe (cs : CronService) (jobID : String) (writeOk : Bool) : CronService × Bool :=
  let before := cs.jobs.length
  let kept := cs.jobs.filter (fun job => job.id != jobID)
  let cs1 : CronService := { cs with heap := cs.heap ++ [kept], cur := cs.heap.length }
  let removed := decide (cs1.jobs.length < before)
  if removed then ((saveStore cs1 writeOk).1, removed) else (cs1, removed)

/-- What one `executeJob` call gets from outside: the three readings of
`time.Now().UnixMilli()` in program order and whether a write to the backing
file succeeds. -/
structure ExecEnv where
  start : Int
  upd : Int
  now : Int
  writeOk : Bool

/-- The call of the handler in `executeJob`: the message of the error it
returns, if any; a nil handler is not called. -/
def handlerError (onJob : Option (CronJob → Option String)) (job : CronJob) : Option String :=
  match onJob with
  | none => none
  | some h => h job

/-- The first writes of `executeJob` under the lock: `LastRunAtMS`, `UpdatedAtMS`,
`LastStatus` and `LastError`. -/
def recordRun (e : ExecEnv) (err : Option String) (job : CronJob) : CronJob :=
  { job with
    state :=
      { job.state with
        lastRunAtMS := some e.start
        lastStatus := (match err with
          | some _ => "error"
          | none => "ok")
        lastError := (match err with
          | some m => m
          | none => "") }
    updatedAtMS := e.upd }

/-- The writes of the `at` branch that keeps the job: disable it and clear
`NextRunAtMS`. -/
def disableJob (job : CronJob) : CronJob :=
  { job with enabled := false, state := { job.state with nextRunAtMS := none } }

/-- The write of the other branch: store the recomputed `NextRunAtMS`. -/
def setNextRun (nextRun : Option Int) (job : CronJob) : CronJob :=
  { job with state := { job.state with nextRunAtMS := nextRun } }

/-- The method `executeJob` on the job `p` points to. The handler `onJob` (`none`
for a nil handler) returns the message of its error, if any. `none`: the call
does not return. -/
def executeJob (z : Zones) (onJob : Option (CronJob → Option String)) (e : ExecEnv)
    (cs : CronService) (p : JobPtr) : Option CronService :=
  match cs.deref p with
  | none => some cs
  | some job0 =>
    let err := handlerError onJob job0
    let cs1 := cs.update p (recordRun e err)
    if job0.schedule.kind = "at" then
      if job0.deleteAfterRun then some (removeJobUnsafe cs1 job0.id e.writeOk).1
      else some (cs1.update p disableJob)
    else
      match computeNextRun z job0.schedule e.now with
      | none => none
      | some nextRun => some (cs1.update p (setNextRun nextRun))

/-- The loop of `recomputeNextRuns` over a job list. `none`: a `computeNextRun`
call does not return. -/
def recomputeJobs (z : Zones) (now : Int) : List CronJob → Option (List CronJob)
  | [] => some []
  | job :: rest =>
    if job.enabled then
      match computeNextRun z job.schedule now with
      | none => none
      | some r =>
        (recomputeJobs z now rest).map (fun l => setNextRun r job :: l)
    else (recomputeJobs z now rest).map (fun l => job :: l)

/-- The method `recomputeNextRuns`, in place on the current backing array. -/
def recomputeNextRuns (z : Zones) (now : Int) (cs : CronService) : Option CronService :=
  (recomputeJobs z now cs.jobs).map
    (fun js => { cs with heap := modifyAt (fun _ => js) cs.cur cs.heap })

/-- The method `loadStore`, given the job list the call leaves in the fresh
store (empty when the file is missing). -/
def loadStore (cs : CronService) (loaded : List CronJob) : CronService :=
  { cs with heap := cs.heap ++ [loaded], cur := cs.heap.length }

/-- The job is collected as due at `now`. -/
def isDue (now : Int) (job : CronJob) : Bool :=
  job.enabled &&
    (match job.state.nextRunAtMS with
     | some n => decide (n ≤ now)
     | none => false)

/-- Worker of `dueJobs`: `i` is the index of the head of the list. -/
def dueFrom (arr : Nat) (now : Int) : Nat → List CronJob → List JobPtr
  | _, [] => []
  | i, job :: rest =>
    if isDue now job then ⟨arr, i⟩ :: dueFrom arr now (i + 1) rest
    else dueFrom arr now (i + 1) rest

/-- The collection loop of `checkJobs`: pointers to the due jobs, in store order. -/
def dueJobs (cs : CronService) (now : Int) : List JobPtr := dueFrom cs.cur now 0 cs.jobs

/-- The execution loop of `checkJobs`: `executeJob` on each collected pointer in
turn; `k` counts the calls and selects the surroundings of each. -/
def executeAll (z : Zones) (onJob : Option (CronJob → Option String)) (envs : Nat → ExecEnv) :
    Nat → List JobPtr → CronService → Option CronService
  | _, [], cs => some cs
  | k, p :: ps, cs =>
    match executeJob z onJob (envs k) cs p with
    | none => none
    | some cs1 => executeAll z onJob envs (k + 1) ps cs1

/-- What one tick gets from outside: `reload` is `some (jobs, t)` when the
backing file looks changed, with the job list `loadStore` leaves and the clock
reading of `recomputeNextRuns`; `now` is the clock reading of the due scan;
`exec k` belongs to the `k`-th `executeJob` call. -/
structure TickEnv where
  reload : Option (List CronJob × Int)
  now : Int
  exec : Nat → ExecEnv

/-- The method `checkJobs`: one tick of the scheduling loop. `none`: the tick
does not return. -/
def checkJobs (z : Zones) (onJob : Option (CronJob → Option String)) (env : TickEnv)
    (cs : CronService) : Option CronService :=
  if !cs.running then some cs
  else
    let reloaded : Option CronService :=
      match env.reload with
      | none => some cs
      | some (loaded, t) => recomputeNextRuns z t (loadStore cs loaded)
    match reloaded with
    | none => none
    | some cs1 => executeAll z onJob env.exec 0 (dueJobs cs1 env.now) cs1

/-- What decides whether and when a job runs again: its id (membership in the
store), its enabled flag and its `nextRunAt`. -/
def scheduleView (job : CronJob) : String × Bool × Option Int :=
  (job.id, job.enabled, job.state.nextRunAtMS)

/-! ## Concrete inputs for the examples -/

/-- The location `time.UTC`. -/
def utcLoc : Location := ⟨0, []⟩

/-- The location `America/New_York` around 2026: EST (UTC-5) until
2026-03-08T07:00:00Z, then EDT (UTC-4) until 2026-11-01T06:00:00Z, then EST. On
2026-03-08 the local clock goes from 01:59 to 03:00. -/
def newYork : Location := ⟨-18000, [(1772953200, -14400), (1793512800, -18000)]⟩

/-- The location `Europe/Berlin` around 2026: CET (UTC+1) until
2026-03-29T01:00:00Z, then CEST (UTC+2) until 2026-10-25T01:00:00Z, then CET. On
2026-10-25 the local hour from 02:00 to 03:00 happens twice. -/
def berlin : Location := ⟨3600, [(1774746000, 7200), (1792890000, 3600)]⟩

/-- The location `Pacific/Apia` around the end of 2011: UTC-10 until
2011-12-30T10:00:00Z, then UTC+14. The local clock goes from the end of
2011-12-29 to the start of 2011-12-31. -/
def apia : Location := ⟨-36000, [(1325239200, 50400)]⟩

/-- The zone environment of a process running in UTC that resolves no zone name. -/
def utc : Zones := ⟨utcLoc, fun _ => none⟩

/-- The zone environment of a process running in UTC that resolves the name
`America/New_York`. -/
def withNewYork : Zones :=
  ⟨utcLoc, fun name => if name = "America/New_York" then some newYork else none⟩

/-- An enabled `at` job for time 0, due since then. -/
def atJob (id : String) (deleteAfterRun : Bool) : CronJob :=
  { id := id, name := id, enabled := true,
    schedule := ⟨"at", some 0, none, "", ""⟩,
    payload := ⟨"agent_turn", "", false, "", ""⟩,
    state := ⟨some 0, none, "", ""⟩,
    createdAtMS := 0, updatedAtMS := 0, deleteAfterRun := deleteAfterRun }

/-- An enabled `every` job with the given interval, due at time 0. -/
def everyJob (id : String) (everyMS : Int) : CronJob :=
  { id := id, name := id, enabled := true,
    schedule := ⟨"every", none, some everyMS, "", ""⟩,
    payload := ⟨"agent_turn", "", false, "", ""⟩,
    state := ⟨some 0, none, "", ""⟩,
    createdAtMS := 0, updatedAtMS := 0, deleteAfterRun := false }

/-- A running service whose store holds the `at` jobs `A` (deleted after its
run) and `B` (kept after its run), in this order. -/
def twoAtJobs : CronService :=
  ⟨[[atJob "A" true, atJob "B" false]], 0, [], true⟩

/-- A running service whose store holds one job. -/
def oneJob (job : CronJob) : CronService := ⟨[[job]], 0, [], true⟩

/-- A tick at time 10 without a reload; every `executeJob` call reads the clock
as 10, 11 and 12 and its writes succeed. -/
def quietTick : TickEnv := ⟨none, 10, fun _ => ⟨10, 11, 12, true⟩⟩

/-! ## The administrative operations and the status query -/

/-- The method `AddJob`. `now` is its clock reading and `id` the result of
`generateID`. The `append` moves `store.Jobs` to a fresh backing array (the
case of a full slice; no job pointer is held across the call). Outer `none`:
the call does not return. Otherwise the service after the call and the
returned job, `none` when the call returns `nil` and the error of `saveStore`. -/
def AddJob (z : Zones) (now : Int) (id : String) (writeOk : Bool) (cs : CronService)
    (name : String) (schedule : CronSchedule) (message : String) (deliver : Bool)
    (channel to_ : String) : Option (CronService × Option CronJob) :=
  match computeNextRun z schedule now with
  | none => none
  | some next =>
    let job : CronJob :=
      { id := id, name := name, enabled := true, schedule := schedule,
        payload := ⟨"agent_turn", message, deliver, channel, to_⟩,
        state := ⟨next, none, "", ""⟩,
        createdAtMS := now, updatedAtMS := now, deleteAfterRun := false }
    let cs1 : CronService :=
      { cs with heap := cs.heap ++ [cs.jobs ++ [job]], cur := cs.heap.length }
    let r := saveStore cs1 writeOk
    some (r.1, if r.2 then none else some job)

/-- The method `RemoveJob`: the service after the call and the returned flag. -/
def RemoveJob (cs : CronService) (jobID : String) (writeOk : Bool) : CronService × Bool :=
  removeJobUnsafe cs jobID writeOk

/-- The writes of `EnableJob` to the job it finds. -/
def setEnabled (enabled : Bool) (upd : Int) (next : Option Int) (job : CronJob) : CronJob :=
  { job with enabled := enabled, updatedAtMS := upd,
             state := { job.state with nextRunAtMS := next } }

/-- The loop of `EnableJob` over `store.Jobs`: the first job with the id is
rewritten. Outer `none`: `computeNextRun` does not return. `some none`: no job
has the id. Otherwise the job list after the writes and the job returned. -/
def enableLoop (z : Zones) (upd now : Int) (jobID : String) (enabled : Bool) :
    List CronJob → Option (Option (List CronJob × CronJob))
  | [] => some none
  | job :: rest =>
    if job.id = jobID then
      (if enabled then computeNextRun z job.schedule now else some none).map
        (fun next => some (setEnabled enabled upd next job :: rest,
          setEnabled enabled upd next job))
    else
      (enableLoop z upd now jobID enabled rest).map
        (fun r => r.map (fun x => (job :: x.1, x.2)))

/-- The method `EnableJob`; `upd` and `now` are its two clock readings. The
result of `saveStore` is dropped, as in the code. Outer `none`: the call does
not return. Otherwise the service after the call and the returned job (`none`
for `nil`). -/
def EnableJob (z : Zones) (upd now : Int) (writeOk : Bool) (cs : CronService)
    (jobID : String) (enabled : Bool) : Option (CronService × Option CronJob) :=
  (enableLoop z upd now jobID enabled cs.jobs).map (fun r =>
    match r with
    | none => (cs, none)
    | some x =>
      ((saveStore { cs with heap := modifyAt (fun _ => x.1) cs.cur cs.heap } writeOk).1,
        some x.2))

/-- One round of the loop of `getNextWakeMS`. -/
def wakeStep (nextWake : Option Int) (job : CronJob) : Option Int :=
  if job.enabled then
    match job.state.nextRunAtMS with
    | some n =>
      (match nextWake with
       | none => some n
       | some w => if n < w then some n else some w)
    | none => nextWake
  else nextWake

/-- The method `getNextWakeMS`. -/
def getNextWakeMS (cs : CronService) : Option Int := cs.jobs.foldl wakeStep none

/-- The map returned by `Status`, with its three keys. -/
structure StatusInfo where
  enabled : Bool
  jobs : Nat
  nextWakeAtMS : Option Int
  deriving DecidableEq, Repr

/-- The method `Status`. -/
def Status (cs : CronService) : StatusInfo :=
  ⟨cs.running, cs.jobs.length, getNextWakeMS cs⟩

/-- The store invariant of the data model: a disabled job has no `nextRunAt`. -/
def disabledHaveNoNextRun (jobs : List CronJob) : Bool :=
  jobs.all (fun job => job.enabled || job.state.nextRunAtMS.isNone)

/-- What a run writes to a job. -/
structure RunView where
  lastRunAtMS : Option Int
  lastStatus : String
  updatedAtMS : Int
  enabled : Bool
  nextRunAtMS : Option Int
  deriving DecidableEq, Repr

/-- The fields of a job that a run writes. -/
def runView (job : CronJob) : RunView :=
  ⟨job.state.lastRunAtMS, job.state.lastStatus, job.updatedAtMS, job.enabled,
    job.state.nextRunAtMS⟩

/-- The loop of `parseCronField` without its final test for an empty map: the
keys collected from the parts, after those in `acc`. A proof device for
`parseParts`. -/
def collectParts (min max : Int) : List (List Char) → List Int → Option (Option (List Int))
  | [], acc => some (some acc)
  | p :: ps, acc =>
    match parsePart (trimSpace p) min max with
    | none => none
    | some none => some none
    | some (some vs) => collectParts min max ps (acc ++ vs)

/-- A disabled `every` job that still carries a `nextRunAt`, as a backing file
edited by hand can hold it. -/
def staleDisabledJob : CronJob :=
  { id := "D", name := "D", enabled := false,
    schedule := ⟨"every", none, some 60000, "", ""⟩,
    payload := ⟨"agent_turn", "", false, "", ""⟩,
    state := ⟨some 5, none, "", ""⟩,
    createdAtMS := 0, updatedAtMS := 0, deleteAfterRun := false }

/-- A running service whose store and backing file both hold the one job. -/
def syncedJob (job : CronJob) : CronService := ⟨[[job]], 0, [job], true⟩

/-! ## Calendar lemmas -/

theorem daysSinceEpoch_parts (a b c e : Int) (hb : 0 ≤ b ∧ b ≤ 3) (hc : 0 ≤ c ∧ c ≤ 24)
    (he : 0 ≤ e ∧ e ≤ 3) :
    daysSinceEpoch (400 * a + 100 * b + 4 * c + e + 1) =
      146097 * a + 36524 * b + 1461 * c + 365 * e := by
  have h1 : (400 * a + 100 * b + 4 * c + e + 1 - 1) / 400 = a := by omega
  have h2 : (100 * b + 4 * c + e) / 100 = b := by omega
  have h3 : (4 * c + e) / 4 = c := by omega
  simp only [daysSinceEpoch, h1]
  have e1 : 400 * a + 100 * b + 4 * c + e + 1 - 1 - 400 * a = 100 * b + 4 * c + e := by ring
  rw [e1, h2]
  have e2 : 100 * b + 4 * c + e - 100 * b = 4 * c + e := by ring
  rw [e2, h3]
  ring

theorem isLeap_parts (a b c e : Int) (hb : 0 ≤ b ∧ b ≤ 3) (hc : 0 ≤ c ∧ c ≤ 24)
    (he : 0 ≤ e ∧ e ≤ 3) :
    isLeap (400 * a + 100 * b + 4 * c + e + 1) = true ↔ (e = 3 ∧ (c ≠ 24 ∨ b = 3)) := by
  simp only [isLeap, Bool.and_eq_true, Bool.or_eq_true, decide_eq_true_eq]
  omega

theorem yearAndYday_parts (d : Int) :
    ∃ a b c e yd : Int, (0 ≤ b ∧ b ≤ 3) ∧ (0 ≤ c ∧ c ≤ 24) ∧ (0 ≤ e ∧ e ≤ 3) ∧
      yearAndYday d = (400 * a + 100 * b + 4 * c + e + 1, yd) ∧
      d = 146097 * a + 36524 * b + 1461 * c + 365 * e + yd ∧ 0 ≤ yd ∧
      yd < 365 + (if e = 3 ∧ (c ≠ 24 ∨ b = 3) then 1 else 0) := by
  refine ⟨d / 146097, _, _, _, _, ?_, ?_, ?_, rfl, ?_, ?_, ?_⟩
  · omega
  · omega
  · omega
  · omega
  · omega
  · split_ifs with h <;> omega

theorem year_parts (y : Int) :
    ∃ a b c e : Int, (0 ≤ b ∧ b ≤ 3) ∧ (0 ≤ c ∧ c ≤ 24) ∧ (0 ≤ e ∧ e ≤ 3) ∧
      y = 400 * a + 100 * b + 4 * c + e + 1 := by
  refine ⟨(y - 1) / 400, (y - 1) % 400 / 100, (y - 1) % 100 / 4, (y - 1) % 4, ?_, ?_, ?_, ?_⟩ <;>
    omega

theorem yearAndYday_spec (d : Int) :
    daysSinceEpoch (yearAndYday d).1 + (yearAndYday d).2 = d ∧
    0 ≤ (yearAndYday d).2 ∧
    (yearAndYday d).2 < 365 + (if isLeap (yearAndYday d).1 then 1 else 0) := by
  obtain ⟨a, b, c, e, yd, hb, hc, he, hy, hd, h0, h1⟩ := yearAndYday_parts d
  rw [hy]
  simp only
  rw [daysSinceEpoch_parts a b c e hb hc he]
  refine ⟨by omega, h0, ?_⟩
  have hl := isLeap_parts a b c e hb hc he
  by_cases h : e = 3 ∧ (c ≠ 24 ∨ b = 3)
  · rw [if_pos h] at h1
    rw [if_pos (hl.2 h)]
    exact h1
  · rw [if_neg h] at h1
    omega

theorem daysSinceEpoch_succ (y : Int) :
    daysSinceEpoch (y + 1) = daysSinceEpoch y + 365 + (if isLeap y then 1 else 0) := by
  obtain ⟨a, b, c, e, hb, hc, he, rfl⟩ := year_parts y
  have hl := isLeap_parts a b c e hb hc he
  rw [daysSinceEpoch_parts a b c e hb hc he]
  by_cases h3 : e = 3
  · subst h3
    by_cases h24 : c = 24
    · subst h24
      by_cases hb3 : b = 3
      · subst hb3
        have : (400 * a + 100 * 3 + 4 * 24 + 3 + 1 + 1 : Int)
            = 400 * (a + 1) + 100 * 0 + 4 * 0 + 0 + 1 := by ring
        rw [this, daysSinceEpoch_parts (a + 1) 0 0 0 (by omega) (by omega) (by omega)]
        rw [if_pos (hl.2 (by omega))]
        ring
      · have : (400 * a + 100 * b + 4 * 24 + 3 + 1 + 1 : Int)
            = 400 * a + 100 * (b + 1) + 4 * 0 + 0 + 1 := by ring
        rw [this, daysSinceEpoch_parts a (b + 1) 0 0 (by omega) (by omega) (by omega)]
        have hn : ¬ (isLeap (400 * a + 100 * b + 4 * 24 + 3 + 1) = true) := by
          rw [hl]; omega
        rw [if_neg hn]
        ring
    · have : (400 * a + 100 * b + 4 * c + 3 + 1 + 1 : Int)
          = 400 * a + 100 * b + 4 * (c + 1) + 0 + 1 := by ring
      rw [this, daysSinceEpoch_parts a b (c + 1) 0 hb (by omega) (by omega)]
      rw [if_pos (hl.2 (by omega))]
      ring
  · have : (400 * a + 100 * b + 4 * c + e + 1 + 1 : Int)
        = 400 * a + 100 * b + 4 * c + (e + 1) + 1 := by ring
    rw [this, daysSinceEpoch_parts a b c (e + 1) hb hc (by omega)]
    have hn : ¬ (isLeap (400 * a + 100 * b + 4 * c + e + 1) = true) := by
      rw [hl]; omega
    rw [if_neg hn]
    ring

theorem daysSinceEpoch_add (y : Int) (n : Nat) :
    daysSinceEpoch y + 365 * n ≤ daysSinceEpoch (y + n) := by
  induction n with
  | zero => simp
  | succ k ih =>
    have h := daysSinceEpoch_succ (y + k)
    have e : y + ((k + 1 : Nat) : Int) = y + k + 1 := by push_cast; ring
    rw [e, h]
    push_cast
    split_ifs <;> omega

theorem daysSinceEpoch_lt (y z : Int) (h : y < z) :
    daysSinceEpoch y + 365 + (if isLeap y then 1 else 0) ≤ daysSinceEpoch z := by
  have h1 := daysSinceEpoch_add (y + 1) (z - (y + 1)).toNat
  have e : y + 1 + ((z - (y + 1)).toNat : Int) = z := by omega
  rw [e, daysSinceEpoch_succ] at h1
  omega

theorem yearAndYday_unique (y k : Int) (h0 : 0 ≤ k)
    (h1 : k < 365 + (if isLeap y then 1 else 0)) :
    yearAndYday (daysSinceEpoch y + k) = (y, k) := by
  obtain ⟨hs, hlo, hhi⟩ := yearAndYday_spec (daysSinceEpoch y + k)
  generalize yearAndYday (daysSinceEpoch y + k) = r at hs hlo hhi
  obtain ⟨z, j⟩ := r
  simp only at hs hlo hhi
  have hz : z = y := by
    rcases lt_trichotomy z y with h | h | h
    · have := daysSinceEpoch_lt z y h
      omega
    · exact h
    · have := daysSinceEpoch_lt y z h
      omega
  subst hz
  have : j = k := by omega
  rw [this]

theorem monthEstimate (m day : Int) (hm : 1 ≤ m ∧ m ≤ 12)
    (h0 : daysBefore (m - 1) ≤ day) (h1 : day < daysBefore m) :
    (if day ≥ daysBefore (day / 31 + 1) then (day / 31 + 2, day - daysBefore (day / 31 + 1) + 1)
      else (day / 31 + 1, day - daysBefore (day / 31) + 1)) =
      (m, day - daysBefore (m - 1) + 1) := by
  obtain ⟨hm1, hm2⟩ := hm
  obtain ⟨q, hq⟩ : ∃ q, q = day / 31 := ⟨_, rfl⟩
  rw [← hq]
  interval_cases m <;> norm_num [daysBefore] at h0 h1 ⊢ <;>
    (have hq2 : 0 ≤ q ∧ q ≤ 11 := by omega
     obtain ⟨hq3, hq4⟩ := hq2
     interval_cases q <;> first | omega | (norm_num [daysBefore]; omega))

theorem daysBefore_of_ge (k : Int) (h : 12 ≤ k) : daysBefore k = 365 := by
  unfold daysBefore
  repeat rw [if_neg (by omega)]

theorem daysBefore_ge (m : Int) (h : 3 ≤ m) : 59 ≤ daysBefore (m - 1) := by
  by_cases h13 : m ≤ 12
  · interval_cases m <;> norm_num [daysBefore]
  · rw [daysBefore_of_ge (m - 1) (by omega)]
    omega

theorem monthAndDay_of_range (leap : Bool) (m yd : Int) (hm : 1 ≤ m ∧ m ≤ 12)
    (h0 : monthStart leap m ≤ yd) (h1 : yd < monthStart leap (m + 1)) :
    monthAndDay leap yd = (m, yd - monthStart leap m + 1) := by
  cases leap
  · simp only [monthStart, Bool.false_and, if_false, add_zero, Bool.false_eq_true,
      add_sub_cancel_right] at h0 h1 ⊢
    simp only [monthAndDay, Bool.false_and, if_false, Bool.false_eq_true]
    exact monthEstimate m yd hm h0 h1
  · simp only [monthStart, Bool.true_and, decide_eq_true_eq, add_sub_cancel_right] at h0 h1 ⊢
    by_cases h3 : 3 ≤ m
    · have h3b : m + 1 ≥ 3 := by omega
      have hge := daysBefore_ge m h3
      rw [if_pos h3] at h0 ⊢
      rw [if_pos h3b] at h1
      have hne : ¬ yd = 59 := by omega
      have hgt : yd > 59 := by omega
      simp only [monthAndDay, Bool.true_and, decide_eq_true_eq, if_neg hne, if_pos hgt]
      rw [monthEstimate m (yd - 1) hm (by omega) (by omega)]
      congr 1
      ring
    · have hm12 : m = 1 ∨ m = 2 := by omega
      rcases hm12 with rfl | rfl
      · norm_num [daysBefore] at h0 h1
        have hne : ¬ yd = 59 := by omega
        have hgt : ¬ yd > 59 := by omega
        simp only [monthAndDay, Bool.true_and, decide_eq_true_eq, if_neg hne, if_neg hgt]
        rw [monthEstimate 1 yd (by omega) (by norm_num [daysBefore]; omega)
          (by norm_num [daysBefore]; omega)]
        norm_num [daysBefore]
      · norm_num [daysBefore] at h0 h1
        by_cases hne : yd = 59
        · subst hne
          norm_num [monthAndDay, daysBefore]
        · have hgt : ¬ yd > 59 := by omega
          simp only [monthAndDay, Bool.true_and, decide_eq_true_eq, if_neg hne, if_neg hgt]
          rw [monthEstimate 2 yd (by omega) (by norm_num [daysBefore]; omega)
            (by norm_num [daysBefore]; omega)]
          norm_num [daysBefore]

theorem monthStart_cover (leap : Bool) (yd : Int) (h0 : 0 ≤ yd)
    (h1 : yd < 365 + (if leap then 1 else 0)) :
    ∃ m : Int, (1 ≤ m ∧ m ≤ 12) ∧ monthStart leap m ≤ yd ∧ yd < monthStart leap (m + 1) := by
  have key : ∀ k : Nat, k ≤ 12 → yd < monthStart leap (k + 1) →
      ∃ m : Int, (1 ≤ m ∧ m ≤ 12) ∧ monthStart leap m ≤ yd ∧ yd < monthStart leap (m + 1) := by
    intro k
    induction k with
    | zero =>
      intro _ h
      exfalso
      simp [monthStart, daysBefore] at h
      omega
    | succ j ih =>
      intro hj h
      by_cases hlt : yd < monthStart leap ((j : Int) + 1)
      · exact ih (by omega) hlt
      · refine ⟨(j : Int) + 1, by omega, by omega, ?_⟩
        push_cast at h
        exact h
  apply key 12 (by omega)
  cases leap <;> simp [monthStart, daysBefore] at h1 ⊢ <;> omega

/-! ## Time lemmas -/

theorem monthStart_nonneg (leap : Bool) (m : Int) (hm : 1 ≤ m ∧ m ≤ 13) :
    0 ≤ monthStart leap m := by
  obtain ⟨h1, h2⟩ := hm
  cases leap <;> interval_cases m <;> norm_num [monthStart, daysBefore]

theorem monthStart_le (leap : Bool) (m : Int) (hm : 1 ≤ m ∧ m ≤ 13) :
    monthStart leap m ≤ 365 + (if leap then 1 else 0) := by
  obtain ⟨h1, h2⟩ := hm
  cases leap <;> interval_cases m <;> norm_num [monthStart, daysBefore]

theorem monthStart_thirteen (leap : Bool) :
    monthStart leap 13 = 365 + (if leap then 1 else 0) := by
  cases leap <;> norm_num [monthStart, daysBefore]

/-- The calendar fields of `t` are a valid date, and they name the day of `t`. -/
theorem civil_spec (t : Int) :
    (1 ≤ month t ∧ month t ≤ 12) ∧ 1 ≤ day t ∧
      daysSinceEpoch (year t) + monthStart (isLeap (year t)) (month t) + (day t - 1) = absDay t ∧
      absDay t < daysSinceEpoch (year t) + monthStart (isLeap (year t)) (month t + 1) := by
  obtain ⟨hs, h0, h1⟩ := yearAndYday_spec (absDay t)
  obtain ⟨m, hm, hlo, hhi⟩ := monthStart_cover (isLeap (year t)) (yearAndYday (absDay t)).2 h0 h1
  have hmd := monthAndDay_of_range (isLeap (year t)) m _ hm hlo hhi
  have hmo : month t = m := by simp only [month, hmd]
  have hda : day t = (yearAndYday (absDay t)).2 - monthStart (isLeap (year t)) m + 1 := by
    simp only [day, hmd]
  have hy : year t = (yearAndYday (absDay t)).1 := rfl
  rw [hmo, hda]
  rw [← hy] at hs
  refine ⟨hm, by omega, by omega, by omega⟩

/-- Every minute whose day lies in month `m` of year `y` has month `m`. -/
theorem month_of_range (y m : Int) (u : Int) (hm : 1 ≤ m ∧ m ≤ 12)
    (hlo : daysSinceEpoch y + monthStart (isLeap y) m ≤ absDay u)
    (hhi : absDay u < daysSinceEpoch y + monthStart (isLeap y) (m + 1)) :
    year u = y ∧ month u = m := by
  have hn := monthStart_nonneg (isLeap y) m (by omega)
  have hl := monthStart_le (isLeap y) (m + 1) (by omega)
  have hk : absDay u = daysSinceEpoch y + (absDay u - daysSinceEpoch y) := by ring
  have hu := yearAndYday_unique y (absDay u - daysSinceEpoch y) (by omega) (by omega)
  rw [← hk] at hu
  have hy : year u = y := by simp only [year, hu]
  refine ⟨hy, ?_⟩
  have hmd := monthAndDay_of_range (isLeap y) m (absDay u - daysSinceEpoch y) hm
    (by omega) (by omega)
  simp only [month, hy, hu, hmd]

theorem date_eq (y mo d h mi : Int) (hmo : 1 ≤ mo ∧ mo ≤ 12) :
    dateWall y mo d h mi =
      (daysSinceEpoch y + monthStart (isLeap y) mo + (d - 1) - 719162) * 86400000000000 +
        h * 3600000000000 + mi * 60000000000 := by
  have h1 : (mo - 1) / 12 = 0 := by omega
  have h2 : (mo - 1) % 12 + 1 = mo := by omega
  simp only [dateWall, monthStart, h1, h2, add_zero]
  ring

theorem date_next_month (y m : Int) (hm : 1 ≤ m ∧ m ≤ 12) :
    dateWall y (m + 1) 1 0 0 =
      (daysSinceEpoch y + monthStart (isLeap y) (m + 1) - 719162) * 86400000000000 := by
  by_cases h12 : m = 12
  · subst h12
    have e : ((12 : Int) + 1) = 13 := by norm_num
    rw [e, monthStart_thirteen]
    simp only [dateWall]
    norm_num [daysBefore]
    rw [daysSinceEpoch_succ]
    ring
  · rw [date_eq y (m + 1) 1 0 0 (by omega)]
    ring

/-- The jump to the first day of the next month. -/
theorem step_month (t : Int) :
    t < dateWall (year t) (month t + 1) 1 0 0 ∧
      dateWall (year t) (month t + 1) 1 0 0 % 86400000000000 = 0 ∧
      ∀ u : Int, t ≤ u → u < dateWall (year t) (month t + 1) 1 0 0 → month u = month t := by
  obtain ⟨hm, hd, hs, hlt⟩ := civil_spec t
  rw [date_next_month (year t) (month t) hm]
  have ht : absDay t = t / 86400000000000 + 719162 := rfl
  refine ⟨by omega, by omega, ?_⟩
  intro u hu1 hu2
  have hu : absDay u = u / 86400000000000 + 719162 := rfl
  exact (month_of_range (year t) (month t) u hm (by omega) (by omega)).2

/-- The jump to the start of the next day. -/
theorem step_day (t : Int) :
    dateWall (year t) (month t) (day t + 1) 0 0 = (t / 86400000000000 + 1) * 86400000000000 := by
  obtain ⟨hm, hd, hs, hlt⟩ := civil_spec t
  rw [date_eq _ _ _ _ _ hm]
  have ht : absDay t = t / 86400000000000 + 719162 := rfl
  omega

/-- The jump to the start of the next hour. -/
theorem step_hour (t : Int) :
    dateWall (year t) (month t) (day t) (hour t + 1) 0 = (t / 3600000000000 + 1) * 3600000000000 := by
  obtain ⟨hm, hd, hs, hlt⟩ := civil_spec t
  rw [date_eq _ _ _ _ _ hm]
  have ht : absDay t = t / 86400000000000 + 719162 := rfl
  simp only [hour]
  omega

theorem day_le_of_feb (t : Int) (h : month t = 2) : day t ≤ 29 := by
  obtain ⟨hm, hd, hs, hlt⟩ := civil_spec t
  rw [h] at hs hlt
  have e : ((2 : Int) + 1) = 3 := by norm_num
  rw [e] at hlt
  cases hl : isLeap (year t) <;> rw [hl] at hs hlt <;>
    norm_num [monthStart, daysBefore] at hs hlt <;> omega

theorem same_day_fields (t u : Int) (h : u / 86400000000000 = t / 86400000000000) :
    month u = month t ∧ day u = day t ∧ weekday u = weekday t := by
  have ha : absDay u = absDay t := by simp only [absDay, h]
  simp only [month, day, weekday, year, ha, and_self]

theorem same_hour_fields (t u : Int) (h : u / 3600000000000 = t / 3600000000000) :
    month u = month t ∧ day u = day t ∧ weekday u = weekday t ∧ hour u = hour t := by
  have hd : u / 86400000000000 = t / 86400000000000 := by omega
  obtain ⟨h1, h2, h3⟩ := same_day_fields t u hd
  exact ⟨h1, h2, h3, by simp only [hour, h]⟩

/-! ## Locations -/

/-- In a location without transitions every lookup gives the one period. -/
theorem lookup_fixed (loc : Location) (h : loc.tx = []) (sec : Int) :
    loc.lookup sec = (loc.first, alphaSec, omegaSec) := by
  simp only [Location.lookup, h, lookupFrom]

theorem wall_fixed (loc : Location) (h : loc.tx = []) (t : Int) :
    wall loc t = t + loc.first * 1000000000 := by
  simp only [wall, lookup_fixed loc h]

theorem dateWall_second (y mo d h mi : Int) : dateWall y mo d h mi % 1000000000 = 0 := by
  simp only [dateWall]
  omega

/-- In a location without transitions `time.Date` is the wall-clock reading
moved back by the offset. -/
theorem date_fixed (loc : Location) (h : loc.tx = []) (y mo d hh mi : Int) :
    date loc y mo d hh mi = dateWall y mo d hh mi - loc.first * 1000000000 := by
  have hs := dateWall_second y mo d hh mi
  simp only [date, lookup_fixed loc h]
  split_ifs <;> omega

/-! ## The search loop of `nextCronTime` -/

theorem cronMatch_false_of_month (loc : Location) (s : CronSets) (m : Int)
    (h : month (wall loc m) ∉ s.monthSet) : cronMatch loc s m = false := by
  simp [cronMatch, h]

theorem cronMatch_false_of_day (loc : Location) (s : CronSets) (m : Int)
    (h : day (wall loc m) ∉ s.domSet ∨ weekday (wall loc m) ∉ s.dowSet) :
    cronMatch loc s m = false := by
  rcases h with h | h <;> simp [cronMatch, h]

theorem cronMatch_false_of_hour (loc : Location) (s : CronSets) (m : Int)
    (h : hour (wall loc m) ∉ s.hourSet) : cronMatch loc s m = false := by
  simp [cronMatch, h]

/-- One round of the search loop that does not return goes on with the next
candidate. -/
theorem cronLoop_step (loc : Location) (s : CronSets) (limit : Int) (fuel : Nat) (t : Int)
    (hlt : t < limit) (hf : cronMatch loc s t = false) :
    cronLoop loc s limit (fuel + 1) t = cronLoop loc s limit fuel (cronNext loc s t) := by
  simp only [cronLoop, if_pos hlt, hf, Bool.false_eq_true, if_false]

/-- In every location, what the search loop returns matches all five fields and
lies before the limit. -/
theorem cronLoop_match (loc : Location) (s : CronSets) (limit : Int) :
    ∀ (fuel : Nat) (t r : Int), cronLoop loc s limit fuel t = some (some r) →
      cronMatch loc s r = true ∧ r < limit := by
  intro fuel
  induction fuel with
  | zero =>
    intro t r h
    simp [cronLoop] at h
  | succ n ih =>
    intro t r h
    by_cases hlt : t < limit
    · cases hf : cronMatch loc s t
      · rw [cronLoop_step loc s limit n t hlt hf] at h
        exact ih _ r h
      · simp only [cronLoop, if_pos hlt, hf, if_true, Option.some.injEq] at h
        subst h
        exact ⟨hf, hlt⟩
    · simp [cronLoop, hlt] at h

/-- A candidate before the limit that does not match and whose next candidate
is the candidate itself: the search loop never ends, whatever the fuel. -/
theorem cronLoop_stuck (loc : Location) (s : CronSets) (limit t : Int)
    (hlt : t < limit) (hf : cronMatch loc s t = false) (hn : cronNext loc s t = t) :
    ∀ fuel : Nat, cronLoop loc s limit fuel t = none := by
  intro fuel
  induction fuel with
  | zero => rfl
  | succ n ih => rw [cronLoop_step loc s limit n t hlt hf, hn, ih]

/-- A search that reaches a stuck candidate in one round never ends. -/
theorem cronLoop_stuck_next (loc : Location) (s : CronSets) (limit t : Int)
    (hlt : t < limit) (hf : cronMatch loc s t = false)
    (hlt1 : cronNext loc s t < limit) (hf1 : cronMatch loc s (cronNext loc s t) = false)
    (hn : cronNext loc s (cronNext loc s t) = cronNext loc s t) :
    ∀ fuel : Nat, cronLoop loc s limit fuel t = none := by
  intro fuel
  cases fuel with
  | zero => rfl
  | succ n =>
    rw [cronLoop_step loc s limit n t hlt hf]
    exact cronLoop_stuck loc s limit _ hlt1 hf1 hn n

/-- One round of the search loop that does not return, in a location with a
fixed offset of whole minutes: the next candidate is a later whole minute, and
no whole minute from `t` up to it matches. -/
theorem cronLoop_succ (loc : Location) (hfix : loc.tx = []) (hoff : loc.first % 60 = 0)
    (s : CronSets) (limit : Int) (fuel : Nat) (t : Int)
    (ht : t % 60000000000 = 0) (hlt : t < limit) (hf : cronMatch loc s t = false) :
    ∃ t1 : Int, cronLoop loc s limit (fuel + 1) t = cronLoop loc s limit fuel t1 ∧
      t1 % 60000000000 = 0 ∧ t + 60000000000 ≤ t1 ∧
      ∀ m : Int, m % 60000000000 = 0 → t ≤ m → m < t1 → cronMatch loc s m = false := by
  refine ⟨cronNext loc s t, cronLoop_step loc s limit fuel t hlt hf, ?_⟩
  have hw : ∀ u, wall loc u = u + loc.first * 1000000000 := wall_fixed loc hfix
  by_cases hmo : month (wall loc t) ∈ s.monthSet
  · by_cases hd : day (wall loc t) ∉ s.domSet ∨ weekday (wall loc t) ∉ s.dowSet
    · have e : cronNext loc s t
          = (wall loc t / 86400000000000 + 1) * 86400000000000 - loc.first * 1000000000 := by
        simp only [cronNext, hmo, not_true_eq_false, if_false, if_pos hd, date_fixed loc hfix,
          step_day]
      rw [e, hw]
      refine ⟨by omega, by omega, ?_⟩
      intro m _ h1 h2
      have hq : wall loc m / 86400000000000 = wall loc t / 86400000000000 := by
        rw [hw, hw]
        omega
      obtain ⟨_, e2, e3⟩ := same_day_fields (wall loc t) (wall loc m) hq
      apply cronMatch_false_of_day
      rw [e2, e3]
      exact hd
    · by_cases hh : hour (wall loc t) ∈ s.hourSet
      · have e : cronNext loc s t = t + 60000000000 := by
          simp only [cronNext, hmo, not_true_eq_false, if_false, if_neg hd, hh]
        rw [e]
        refine ⟨by omega, by omega, ?_⟩
        intro m hm h1 h2
        have : m = t := by omega
        rw [this]
        exact hf
      · have e : cronNext loc s t
            = (wall loc t / 3600000000000 + 1) * 3600000000000 - loc.first * 1000000000 := by
          simp only [cronNext, hmo, not_true_eq_false, if_false, if_neg hd, hh,
            not_false_eq_true, if_true, date_fixed loc hfix, step_hour]
        rw [e, hw]
        refine ⟨by omega, by omega, ?_⟩
        intro m _ h1 h2
        have hq : wall loc m / 3600000000000 = wall loc t / 3600000000000 := by
          rw [hw, hw]
          omega
        obtain ⟨_, _, _, e4⟩ := same_hour_fields (wall loc t) (wall loc m) hq
        apply cronMatch_false_of_hour
        rw [e4]
        exact hh
  · have e : cronNext loc s t
        = dateWall (year (wall loc t)) (month (wall loc t) + 1) 1 0 0
          - loc.first * 1000000000 := by
      simp only [cronNext, hmo, not_false_eq_true, if_true, date_fixed loc hfix]
    obtain ⟨h1, h2, h3⟩ := step_month (wall loc t)
    have hwt := hw t
    rw [e]
    refine ⟨by omega, by omega, ?_⟩
    intro m _ hm1 hm2
    have hwm := hw m
    apply cronMatch_false_of_month
    rw [h3 (wall loc m) (by omega) (by omega)]
    exact hmo

/-- In a location with a fixed offset of whole minutes, what the search loop
returns is a matching whole minute before the limit, and the first such minute
from the start of the search. -/
theorem cronLoop_spec (loc : Location) (hfix : loc.tx = []) (hoff : loc.first % 60 = 0)
    (s : CronSets) (limit : Int) :
    ∀ (fuel : Nat) (t r : Int), t % 60000000000 = 0 →
      cronLoop loc s limit fuel t = some (some r) →
      r % 60000000000 = 0 ∧ t ≤ r ∧ r < limit ∧ cronMatch loc s r = true ∧
        ∀ m : Int, m % 60000000000 = 0 → t ≤ m → m < r → cronMatch loc s m = false := by
  intro fuel
  induction fuel with
  | zero =>
    intro t r _ h
    simp [cronLoop] at h
  | succ n ih =>
    intro t r ht h
    by_cases hlt : t < limit
    · cases hf : cronMatch loc s t
      · obtain ⟨t1, e, h1, h2, h3⟩ := cronLoop_succ loc hfix hoff s limit n t ht hlt hf
        rw [e] at h
        obtain ⟨a, b, c, d, f⟩ := ih t1 r h1 h
        refine ⟨a, by omega, c, d, ?_⟩
        intro m hm hm1 hm2
        by_cases hc : m < t1
        · exact h3 m hm hm1 hc
        · exact f m hm (by omega) hm2
      · simp only [cronLoop, if_pos hlt, hf, if_true, Option.some.injEq] at h
        subst h
        refine ⟨ht, le_refl _, hlt, hf, ?_⟩
        intro m _ h1 h2
        omega
    · simp [cronLoop, hlt] at h

/-- In a location with a fixed offset of whole minutes the search loop ends
within its fuel: every round moves at least one minute towards the limit. -/
theorem cronLoop_terminates (loc : Location) (hfix : loc.tx = []) (hoff : loc.first % 60 = 0)
    (s : CronSets) (limit : Int) :
    ∀ (fuel : Nat) (t : Int), t % 60000000000 = 0 →
      limit - t ≤ fuel * 60000000000 → ∃ r, cronLoop loc s limit (fuel + 1) t = some r := by
  intro fuel
  induction fuel with
  | zero =>
    intro t _ h
    have hlt : ¬ t < limit := by omega
    exact ⟨none, by simp [cronLoop, hlt]⟩
  | succ n ih =>
    intro t ht h
    by_cases hlt : t < limit
    · cases hf : cronMatch loc s t
      · obtain ⟨t1, e, h1, h2, _⟩ := cronLoop_succ loc hfix hoff s limit (n + 1) t ht hlt hf
        rw [e]
        apply ih t1 h1
        push_cast at h
        omega
      · exact ⟨some t, by simp [cronLoop, hlt, hf]⟩
    · exact ⟨none, by simp [cronLoop, hlt]⟩

theorem search_start (after : Int) :
    (truncateMinute after + 60000000000) % 60000000000 = 0 ∧
      after < truncateMinute after + 60000000000 ∧
      (after + 31622400000000000) - (truncateMinute after + 60000000000)
        ≤ (527040 : Nat) * 60000000000 ∧
      ∀ m : Int, m % 60000000000 = 0 → after < m → truncateMinute after + 60000000000 ≤ m := by
  simp only [truncateMinute]
  refine ⟨by omega, by omega, by omega, ?_⟩
  intro m h1 h2
  omega

/-- With valid fields `nextCronTime` is the search loop, and in a location with
a fixed offset of whole minutes the loop returns. -/
theorem nextCronTime_of_parse (loc : Location) (hfix : loc.tx = [])
    (hoff : loc.first % 60 = 0) (expr : List Char) (after : Int) (s : CronSets)
    (hp : parseCronExpr expr = some (some s)) :
    ∃ r, nextCronTime loc expr after = some r ∧
      cronLoop loc s (after + 31622400000000000) searchFuel
        (truncateMinute after + 60000000000) = some r := by
  obtain ⟨h1, _, h3, _⟩ := search_start after
  obtain ⟨r, hr⟩ :=
    cronLoop_terminates loc hfix hoff s (after + 31622400000000000) 527040 _ h1 h3
  refine ⟨r, ?_, hr⟩
  simp only [nextCronTime, hp]
  exact hr

theorem nextCronTime_some (loc : Location) (expr : List Char) (after t : Int)
    (h : nextCronTime loc expr after = some (some t)) :
    ∃ s, parseCronExpr expr = some (some s) ∧
      cronLoop loc s (after + 31622400000000000) searchFuel
        (truncateMinute after + 60000000000) = some (some t) := by
  unfold nextCronTime at h
  split at h
  · exact absurd h (by simp)
  · exact absurd h (by simp)
  · next s hs => exact ⟨s, hs, h⟩

/-! ## Parsing lemmas -/

theorem wrap64_range (x : Int) :
    -9223372036854775808 ≤ wrap64 x ∧ wrap64 x ≤ 9223372036854775807 := by
  simp only [wrap64]
  omega

theorem wrap64_id (x : Int) (h0 : -9223372036854775808 ≤ x) (h1 : x ≤ 9223372036854775807) :
    wrap64 x = x := by
  simp only [wrap64]
  omega

/-- A counting loop whose bound is the largest `int` never ends. -/
theorem countLoop_maxInt (step : Int) :
    ∀ (fuel : Nat) (i : Int), i ≤ 9223372036854775807 →
      countLoop 9223372036854775807 step fuel i = none := by
  intro fuel
  induction fuel with
  | zero => intro i _; rfl
  | succ n ih =>
    intro i hi
    simp only [countLoop, if_pos hi, ih _ (wrap64_range _).2, Option.map_none']

theorem cronMatch_iff (loc : Location) (s : CronSets) (t : Int) :
    cronMatch loc s t = true ↔
      (month (wall loc t) ∈ s.monthSet ∧ day (wall loc t) ∈ s.domSet ∧
        weekday (wall loc t) ∈ s.dowSet ∧ hour (wall loc t) ∈ s.hourSet ∧
        minute (wall loc t) ∈ s.minuteSet) := by
  simp only [cronMatch, Bool.and_eq_true, decide_eq_true_eq]
  tauto

/-- The parsing half of `nextCronTime` succeeds exactly when there are five
fields and each `parseCronField` call returns a set. -/
theorem parseCronExpr_some (expr : List Char) (s : CronSets) :
    parseCronExpr expr = some (some s) ↔
      ∃ f0 f1 f2 f3 f4, fields expr = [f0, f1, f2, f3, f4] ∧
        parseCronField f0 0 59 = some (some s.minuteSet) ∧
        parseCronField f1 0 23 = some (some s.hourSet) ∧
        parseCronField f2 1 31 = some (some s.domSet) ∧
        parseCronField f3 1 12 = some (some s.monthSet) ∧
        parseCronField f4 0 6 = some (some s.dowSet) := by
  constructor
  · intro h
    unfold parseCronExpr at h
    split at h
    · next f0 f1 f2 f3 f4 hf =>
      refine ⟨f0, f1, f2, f3, f4, hf, ?_⟩
      split at h
      · exact absurd h (by simp)
      · next mi h0 =>
        split at h
        · exact absurd h (by simp)
        · next ho h1 =>
          split at h
          · exact absurd h (by simp)
          · next dom h2 =>
            split at h
            · exact absurd h (by simp)
            · next mo h3 =>
              split at h
              · exact absurd h (by simp)
              · next dow h4 =>
                split at h
                · next a b c d e =>
                  simp only [Option.some.injEq] at h
                  subst h
                  exact ⟨h0, h1, h2, h3, h4⟩
                · exact absurd h (by simp)
    · exact absurd h (by simp)
  · rintro ⟨f0, f1, f2, f3, f4, hf, h0, h1, h2, h3, h4⟩
    simp only [parseCronExpr, hf, h0, h1, h2, h3, h4]

/-- Fewer or more than five fields: `nextCronTime` returns `nil`. -/
theorem nextCronTime_bad_count (loc : Location) (expr : List Char) (after : Int)
    (h : (fields expr).length ≠ 5) : nextCronTime loc expr after = some none := by
  have hp : parseCronExpr expr = some none := by
    unfold parseCronExpr
    split
    · next hf => rw [hf] at h; simp at h
    · rfl
  simp only [nextCronTime, hp]

/-- Five fields whose `parseCronField` calls all return, one of them with `nil`:
`nextCronTime` returns `nil`. -/
theorem nextCronTime_bad_field (loc : Location) (expr : List Char) (after : Int)
    (f0 f1 f2 f3 f4 : List Char) (r0 r1 r2 r3 r4 : Option (List Int))
    (hf : fields expr = [f0, f1, f2, f3, f4])
    (h0 : parseCronField f0 0 59 = some r0) (h1 : parseCronField f1 0 23 = some r1)
    (h2 : parseCronField f2 1 31 = some r2) (h3 : parseCronField f3 1 12 = some r3)
    (h4 : parseCronField f4 0 6 = some r4)
    (hbad : r0 = none ∨ r1 = none ∨ r2 = none ∨ r3 = none ∨ r4 = none) :
    nextCronTime loc expr after = some none := by
  have hp : parseCronExpr expr = some none := by
    simp only [parseCronExpr, hf, h0, h1, h2, h3, h4]
    cases r0 <;> cases r1 <;> cases r2 <;> cases r3 <;> cases r4 <;> simp at hbad ⊢
  simp only [nextCronTime, hp]

/-- A part that is a range `lo-hi` with `lo ≤ hi` runs the counting loop. -/
theorem parsePart_range (part : List Char) (min max lo hi : Int)
    (h1 : part.take 2 ≠ ['*', '/']) (h2 : part ≠ ['*']) (h3 : '-' ∈ part)
    (hlo : atoi (part.takeWhile (fun c => c != '-')) = some lo)
    (hhi : atoi ((part.dropWhile (fun c => c != '-')).drop 1) = some hi) (hle : lo ≤ hi) :
    parsePart part min max = (countLoop hi 1 loopFuel lo).map some := by
  unfold parsePart
  split
  · next rest => exact absurd rfl h1
  · rw [if_neg h2, if_pos h3, hlo, hhi]
    simp only [not_lt.mpr hle, if_false]

/-- A field without a comma and without outer spaces is its single part. -/
theorem parseCronField_single (field : List Char) (min max : Int)
    (h1 : splitComma field = [field]) (h2 : trimSpace field = field) :
    parseCronField field min max =
      (parsePart field min max).map
        (fun r => r.bind (fun vs => if vs.isEmpty then none else some vs)) := by
  unfold parseCronField
  rw [h1]
  simp only [parseParts, h2, List.nil_append]
  cases h : parsePart field min max with
  | none => rfl
  | some r =>
    cases r with
    | none => rfl
    | some vs => rfl

/-- The range whose upper bound is the largest `int`: `parseCronField` does not
return. -/
theorem parseCronField_hang :
    parseCronField "0-9223372036854775807".data 0 59 = none := by
  have h := parsePart_range "0-9223372036854775807".data 0 59 0 9223372036854775807
    (by decide) (by decide) (by decide) (by decide) (by decide) (by decide)
  rw [countLoop_maxInt 1 loopFuel 0 (by decide)] at h
  rw [parseCronField_single _ _ _ (by decide) (by decide), h]
  rfl

/-- When the first field's `parseCronField` call does not return, the parsing
half of `nextCronTime` does not return: the later fields are never looked at. -/
theorem parseCronExpr_first_hangs (expr f0 f1 f2 f3 f4 : List Char)
    (hf : fields expr = [f0, f1, f2, f3, f4]) (h0 : parseCronField f0 0 59 = none) :
    parseCronExpr expr = none := by
  simp only [parseCronExpr, hf, h0]

theorem nextCronTime_parse_hangs (loc : Location) (expr : List Char) (after : Int)
    (h : parseCronExpr expr = none) : nextCronTime loc expr after = none := by
  unfold nextCronTime
  rw [h]

/-- The location a schedule is evaluated in: the one its `tz` names when the
name resolves, `time.Local` otherwise. -/
theorem computeNextRun_cron (z : Zones) (s : CronSchedule) (nowMS : Int)
    (hk : s.kind = "cron") (he : s.expr ≠ "") :
    ∃ loc, (loc = z.localLoc ∨ ∃ name, z.load name = some loc) ∧
      computeNextRun z s nowMS =
        (nextCronTime loc s.expr.data (nowMS * 1000000)).map
          (Option.map (fun t => wrap64 (t / 1000000))) := by
  have h1 : ¬ s.kind = "at" := by rw [hk]; decide
  have h2 : ¬ s.kind = "every" := by rw [hk]; decide
  have key : ∀ loc : Location,
      (match nextCronTime loc s.expr.data (nowMS * 1000000) with
        | none => none
        | some none => some none
        | some (some t) => some (some (wrap64 (t / 1000000))))
      = (nextCronTime loc s.expr.data (nowMS * 1000000)).map
          (Option.map (fun t => wrap64 (t / 1000000))) := by
    intro loc
    cases nextCronTime loc s.expr.data (nowMS * 1000000) with
    | none => rfl
    | some r =>
      cases r with
      | none => rfl
      | some t => rfl
  unfold computeNextRun
  rw [if_neg h1, if_neg h2, if_pos ⟨hk, he⟩]
  by_cases htz : s.tz ≠ ""
  · cases hl : z.load s.tz with
    | none =>
      refine ⟨z.localLoc, Or.inl rfl, ?_⟩
      simp only [if_pos htz, hl]
      exact key _
    | some l =>
      refine ⟨l, Or.inr ⟨s.tz, hl⟩, ?_⟩
      simp only [if_pos htz, hl]
      exact key _
  · refine ⟨z.localLoc, Or.inl rfl, ?_⟩
    simp only [if_neg htz]
    exact key _

/-- A `cron` schedule whose `nextCronTime` call does not return. -/
theorem computeNextRun_cron_hang (z : Zones) (s : CronSchedule) (nowMS : Int)
    (hk : s.kind = "cron") (he : s.expr ≠ "")
    (hn : ∀ loc a, nextCronTime loc s.expr.data a = none) : computeNextRun z s nowMS = none := by
  obtain ⟨loc, _, e⟩ := computeNextRun_cron z s nowMS hk he
  rw [e, hn]
  rfl

/-- A `cron` schedule without an expression: `computeNextRun` returns `nil`. -/
theorem computeNextRun_cron_empty (z : Zones) (s : CronSchedule) (nowMS : Int)
    (hk : s.kind = "cron") (he : s.expr = "") : computeNextRun z s nowMS = some none := by
  have h1 : ¬ s.kind = "at" := by rw [hk]; decide
  have h2 : ¬ s.kind = "every" := by rw [hk]; decide
  have h3 : ¬ (s.kind = "cron" ∧ s.expr ≠ "") := fun h => h.2 he
  unfold computeNextRun
  rw [if_neg h1, if_neg h2, if_neg h3]

/-- A `cron` schedule whose `nextCronTime` call returns `nil`. -/
theorem computeNextRun_cron_nil (z : Zones) (s : CronSchedule) (nowMS : Int)
    (hk : s.kind = "cron")
    (hn : ∀ loc a, nextCronTime loc s.expr.data a = some none) :
    computeNextRun z s nowMS = some none := by
  by_cases he : s.expr = ""
  · exact computeNextRun_cron_empty z s nowMS hk he
  · obtain ⟨loc, _, e⟩ := computeNextRun_cron z s nowMS hk he
    rw [e, hn]
    rfl

/-- The `every` branch of `computeNextRun` with an interval present. -/
theorem computeNextRun_every (z : Zones) (s : CronSchedule) (T e : Int)
    (hk : s.kind = "every") (he : s.everyMS = some e) :
    computeNextRun z s T = if e ≤ 0 then some none else some (some (wrap64 (T + e))) := by
  have hne : ¬ s.kind = "at" := by rw [hk]; decide
  simp only [computeNextRun, if_neg hne, if_pos hk, he]

/-- The `every` branch of `computeNextRun` without an interval. -/
theorem computeNextRun_every_missing (z : Zones) (s : CronSchedule) (T : Int)
    (hk : s.kind = "every") (he : s.everyMS = none) : computeNextRun z s T = some none := by
  have hne : ¬ s.kind = "at" := by rw [hk]; decide
  simp only [computeNextRun, if_neg hne, if_pos hk, he]

/-! ## Store lemmas -/

theorem modifyAt_length {α : Type} (f : α → α) :
    ∀ (n : Nat) (l : List α), (modifyAt f n l).length = l.length
  | n, [] => by cases n <;> rfl
  | 0, _ :: _ => rfl
  | n + 1, _ :: l => by simp [modifyAt, modifyAt_length f n l]

theorem modifyAt_getElem? {α : Type} (f : α → α) :
    ∀ (n : Nat) (l : List α), (modifyAt f n l)[n]? = (l[n]?).map f
  | _, [] => by simp [modifyAt]
  | 0, _ :: _ => by simp [modifyAt]
  | n + 1, _ :: l => by simp [modifyAt, modifyAt_getElem? f n l]

theorem modifyAt_getElem?_ne {α : Type} (f : α → α) :
    ∀ (n k : Nat) (l : List α), n ≠ k → (modifyAt f n l)[k]? = l[k]?
  | _, _, [], _ => by simp [modifyAt]
  | 0, 0, _ :: _, h => absurd rfl h
  | 0, k + 1, _ :: _, _ => by simp [modifyAt]
  | n + 1, 0, _ :: _, _ => by simp [modifyAt]
  | n + 1, k + 1, _ :: l, h => by
    simp only [modifyAt, List.getElem?_cons_succ]
    exact modifyAt_getElem?_ne f n k l (by omega)

theorem heap_getD_modifyAt {α : Type} (g : List α → List α) (hg : g [] = []) (n : Nat)
    (heap : List (List α)) : (modifyAt g n heap).getD n [] = g (heap.getD n []) := by
  simp only [List.getD_eq_getElem?_getD, modifyAt_getElem?]
  cases heap[n]? with
  | none => simp [hg]
  | some a => simp

theorem heap_getD_modifyAt_ne {α : Type} (g : List α → List α) (n k : Nat) (h : n ≠ k)
    (heap : List (List α)) : (modifyAt g n heap).getD k [] = heap.getD k [] := by
  simp only [List.getD_eq_getElem?_getD, modifyAt_getElem?_ne g n k heap h]

theorem modifyAt_nil {α : Type} (f : α → α) (i : Nat) : modifyAt f i ([] : List α) = [] := by
  cases i <;> rfl

/-- Writing through a pointer into the current backing array changes
`store.Jobs` at that index. -/
theorem jobs_update (cs : CronService) (p : JobPtr) (f : CronJob → CronJob)
    (hp : p.arr = cs.cur) : (cs.update p f).jobs = modifyAt f p.idx cs.jobs := by
  simp only [CronService.jobs, CronService.update, hp]
  exact heap_getD_modifyAt _ (modifyAt_nil f p.idx) _ _

/-- Writing through a pointer into another backing array leaves `store.Jobs`
as it is. -/
theorem jobs_update_stale (cs : CronService) (p : JobPtr) (f : CronJob → CronJob)
    (hp : p.arr ≠ cs.cur) : (cs.update p f).jobs = cs.jobs := by
  simp only [CronService.jobs, CronService.update]
  exact heap_getD_modifyAt_ne _ _ _ hp _

theorem deref_update (cs : CronService) (p : JobPtr) (f : CronJob → CronJob) :
    (cs.update p f).deref p = (cs.deref p).map f := by
  simp only [CronService.deref, CronService.update]
  rw [heap_getD_modifyAt _ (modifyAt_nil f p.idx), modifyAt_getElem?]

theorem deref_cur (cs : CronService) (p : JobPtr) (hp : p.arr = cs.cur) :
    cs.deref p = cs.jobs[p.idx]? := by
  simp only [CronService.deref, CronService.jobs, hp]

theorem jobs_saveStore (cs : CronService) (w : Bool) : (saveStore cs w).1.jobs = cs.jobs := by
  cases w <;> rfl

theorem deref_saveStore (cs : CronService) (w : Bool) (p : JobPtr) :
    (saveStore cs w).1.deref p = cs.deref p := by
  cases w <;> rfl

/-- After `removeJobUnsafe`, `store.Jobs` holds the jobs with another id, in
their order. -/
theorem jobs_removeJobUnsafe (cs : CronService) (jobID : String) (w : Bool) :
    (removeJobUnsafe cs jobID w).1.jobs = cs.jobs.filter (fun job => job.id != jobID) := by
  have h : ({ cs with heap := cs.heap ++ [cs.jobs.filter (fun job => job.id != jobID)],
                      cur := cs.heap.length } : CronService).jobs
      = cs.jobs.filter (fun job => job.id != jobID) := by
    simp [CronService.jobs, List.getD_eq_getElem?_getD]
  unfold removeJobUnsafe
  simp only
  split
  · rw [jobs_saveStore, h]
  · exact h

/-- A pointer that could be read before `removeJobUnsafe` reads the same job
after it: the old backing array is not touched. -/
theorem deref_removeJobUnsafe (cs : CronService) (jobID : String) (w : Bool) (p : JobPtr)
    (job : CronJob) (h : cs.deref p = some job) :
    (removeJobUnsafe cs jobID w).1.deref p = some job := by
  have hlt : p.arr < cs.heap.length := by
    by_contra hc
    simp only [CronService.deref, List.getD_eq_getElem?_getD] at h
    have e : cs.heap[p.arr]? = none := List.getElem?_eq_none (by omega)
    rw [e] at h
    simp at h
  have h1 : ({ cs with heap := cs.heap ++ [cs.jobs.filter (fun job => job.id != jobID)],
                       cur := cs.heap.length } : CronService).deref p = some job := by
    simp only [CronService.deref, List.getD_eq_getElem?_getD] at h ⊢
    rw [List.getElem?_append_left hlt]
    exact h
  unfold removeJobUnsafe
  simp only
  split
  · rw [deref_saveStore, h1]
  · exact h1

/-! ## `executeJob`, branch by branch -/

theorem executeJob_at_delete (z : Zones) (onJob : Option (CronJob → Option String))
    (e : ExecEnv) (cs : CronService) (p : JobPtr) (job : CronJob)
    (hj : cs.deref p = some job) (hk : job.schedule.kind = "at")
    (hd : job.deleteAfterRun = true) :
    executeJob z onJob e cs p =
      some (removeJobUnsafe (cs.update p (recordRun e (handlerError onJob job))) job.id
        e.writeOk).1 := by
  unfold executeJob
  rw [hj]
  simp only [if_pos hk, hd, if_true]

theorem executeJob_at_keep (z : Zones) (onJob : Option (CronJob → Option String))
    (e : ExecEnv) (cs : CronService) (p : JobPtr) (job : CronJob)
    (hj : cs.deref p = some job) (hk : job.schedule.kind = "at")
    (hd : job.deleteAfterRun = false) :
    executeJob z onJob e cs p =
      some ((cs.update p (recordRun e (handlerError onJob job))).update p disableJob) := by
  unfold executeJob
  rw [hj]
  simp only [if_pos hk, hd, Bool.false_eq_true, if_false]

theorem executeJob_other (z : Zones) (onJob : Option (CronJob → Option String))
    (e : ExecEnv) (cs : CronService) (p : JobPtr) (job : CronJob)
    (hj : cs.deref p = some job) (hk : job.schedule.kind ≠ "at") :
    executeJob z onJob e cs p =
      (computeNextRun z job.schedule e.now).map (fun nextRun =>
        (cs.update p (recordRun e (handlerError onJob job))).update p (setNextRun nextRun)) := by
  unfold executeJob
  rw [hj]
  simp only [if_neg hk]
  cases computeNextRun z job.schedule e.now <;> rfl

/-- The part of a job that decides whether and when it runs again. -/
theorem jobs_update_twice (cs : CronService) (p : JobPtr) (f g : CronJob → CronJob)
    (hp : p.arr = cs.cur) :
    ((cs.update p f).update p g).jobs = modifyAt g p.idx (modifyAt f p.idx cs.jobs) := by
  rw [jobs_update _ _ _ (by simpa [CronService.update] using hp), jobs_update _ _ _ hp]

theorem deref_update_twice (cs : CronService) (p : JobPtr) (f g : CronJob → CronJob)
    (job : CronJob) (hj : cs.deref p = some job) :
    ((cs.update p f).update p g).deref p = some (g (f job)) := by
  rw [deref_update, deref_update, hj]
  rfl

theorem getElem?_update_twice (cs : CronService) (p : JobPtr) (f g : CronJob → CronJob)
    (job : CronJob) (hp : p.arr = cs.cur) (hj : cs.deref p = some job) :
    ((cs.update p f).update p g).jobs[p.idx]? = some (g (f job)) := by
  rw [jobs_update_twice _ _ _ _ hp, modifyAt_getElem?, modifyAt_getElem?, ← deref_cur cs p hp, hj]
  rfl

/-! ## The schedule view of the store -/

theorem modifyAt_modifyAt {α : Type} (f g : α → α) :
    ∀ (n : Nat) (l : List α), modifyAt g n (modifyAt f n l) = modifyAt (fun a => g (f a)) n l
  | n, [] => by cases n <;> rfl
  | 0, _ :: _ => rfl
  | n + 1, a :: l => by simp [modifyAt, modifyAt_modifyAt f g n l]

theorem update_update (cs : CronService) (p : JobPtr) (f g : CronJob → CronJob) :
    (cs.update p f).update p g = cs.update p (fun job => g (f job)) := by
  simp only [CronService.update, modifyAt_modifyAt]

theorem map_modifyAt_congr {α β : Type} (v : α → β) (f g : α → α)
    (h : ∀ a, v (f a) = v (g a)) :
    ∀ (n : Nat) (l : List α), (modifyAt f n l).map v = (modifyAt g n l).map v
  | n, [] => by cases n <;> rfl
  | 0, a :: l => by simp [modifyAt, h a]
  | n + 1, a :: l => by simp [modifyAt, map_modifyAt_congr v f g h n l]

/-- Two writes through the same pointer that agree on the schedule view leave
stores that agree on it. -/
theorem jobs_update_view (cs : CronService) (p : JobPtr) (f g : CronJob → CronJob)
    (h : ∀ job, scheduleView (f job) = scheduleView (g job)) :
    (cs.update p f).jobs.map scheduleView = (cs.update p g).jobs.map scheduleView := by
  by_cases hp : p.arr = cs.cur
  · rw [jobs_update _ _ _ hp, jobs_update _ _ _ hp]
    exact map_modifyAt_congr scheduleView f g h _ _
  · rw [jobs_update_stale _ _ _ hp, jobs_update_stale _ _ _ hp]

theorem filter_view (l : List CronJob) (x : String) :
    (l.filter (fun job => job.id != x)).map scheduleView
      = (l.map scheduleView).filter (fun v => v.1 != x) := by
  induction l with
  | nil => rfl
  | cons a l ih =>
    have hv : (scheduleView a).1 = a.id := rfl
    simp only [List.filter_cons, List.map_cons, hv]
    split
    · rw [List.map_cons, ih]
    · exact ih

theorem jobs_remove_view (c1 c2 : CronService) (x : String) (w : Bool)
    (h : c1.jobs.map scheduleView = c2.jobs.map scheduleView) :
    (removeJobUnsafe c1 x w).1.jobs.map scheduleView
      = (removeJobUnsafe c2 x w).1.jobs.map scheduleView := by
  rw [jobs_removeJobUnsafe, jobs_removeJobUnsafe, filter_view, filter_view, h]

/-! ## Ranges of the calendar fields -/

theorem monthStart_step (leap : Bool) (m : Int) (hm : 1 ≤ m ∧ m ≤ 12) :
    monthStart leap (m + 1) - monthStart leap m ≤ 31 := by
  obtain ⟨h1, h2⟩ := hm
  cases leap <;> interval_cases m <;> norm_num [monthStart, daysBefore]

/-- The calendar fields of every time lie within the bounds of their cron
field. -/
theorem fields_in_range (t : Int) :
    (0 ≤ minute t ∧ minute t ≤ 59) ∧ (0 ≤ hour t ∧ hour t ≤ 23) ∧
      (1 ≤ day t ∧ day t ≤ 31) ∧ (1 ≤ month t ∧ month t ≤ 12) ∧
      (0 ≤ weekday t ∧ weekday t ≤ 6) := by
  obtain ⟨hm, hd, hs, hlt⟩ := civil_spec t
  have hstep := monthStart_step (isLeap (year t)) (month t) hm
  refine ⟨?_, ?_, ⟨hd, by omega⟩, hm, ?_⟩
  · simp only [minute]; omega
  · simp only [hour]; omega
  · simp only [weekday]; omega

/-! ## `nextCronTime`: in every location, and in a location with a fixed offset -/

/-- In every location, a time that `nextCronTime` returns comes from five fields
that all parse, lies before the horizon and matches all five fields at once:
its month, its day of the month AND its weekday, its hour and its minute. -/
theorem nextCronTime_sound (loc : Location) (expr : List Char) (after t : Int)
    (h : nextCronTime loc expr after = some (some t)) :
    ∃ f0 f1 f2 f3 f4 mi ho dom mo dow,
      fields expr = [f0, f1, f2, f3, f4] ∧
      parseCronField f0 0 59 = some (some mi) ∧ parseCronField f1 0 23 = some (some ho) ∧
      parseCronField f2 1 31 = some (some dom) ∧ parseCronField f3 1 12 = some (some mo) ∧
      parseCronField f4 0 6 = some (some dow) ∧
      t < after + 31622400000000000 ∧
      month (wall loc t) ∈ mo ∧ day (wall loc t) ∈ dom ∧ weekday (wall loc t) ∈ dow ∧
      hour (wall loc t) ∈ ho ∧ minute (wall loc t) ∈ mi := by
  obtain ⟨s, hp, hl⟩ := nextCronTime_some loc expr after t h
  obtain ⟨d, c⟩ := cronLoop_match loc s _ _ _ t hl
  obtain ⟨m1, m2, m3, m4, m5⟩ := (cronMatch_iff loc s t).1 d
  obtain ⟨f0, f1, f2, f3, f4, hf, p0, p1, p2, p3, p4⟩ := (parseCronExpr_some expr s).1 hp
  exact ⟨f0, f1, f2, f3, f4, _, _, _, _, _, hf, p0, p1, p2, p3, p4, c, m1, m2, m3, m4, m5⟩

/-- In every location, every time returned for `0 0 13 * 5` is both a 13th and
a Friday. -/
theorem nextCronTime_friday_13 (loc : Location) (after t : Int)
    (h : nextCronTime loc "0 0 13 * 5".data after = some (some t)) :
    day (wall loc t) = 13 ∧ weekday (wall loc t) = 5 := by
  obtain ⟨s, hp, hl⟩ := nextCronTime_some loc _ after t h
  obtain ⟨d, _⟩ := cronLoop_match loc s _ _ _ t hl
  obtain ⟨_, m2, m3, _, _⟩ := (cronMatch_iff loc s t).1 d
  have hs : parseCronExpr "0 0 13 * 5".data
      = some (some ⟨[0], [0], [13], [1, 2, 3, 4, 5, 6, 7, 8, 9, 10, 11, 12], [5]⟩) := by
    decide
  rw [hs] at hp
  simp only [Option.some.injEq] at hp
  subst hp
  simp only [List.mem_singleton] at m2 m3
  exact ⟨m2, m3⟩

/-- In a location with a fixed offset of whole minutes, a time that
`nextCronTime` returns is a whole minute strictly later than `after`. -/
theorem nextCronTime_fixed_later (loc : Location) (hfix : loc.tx = [])
    (hoff : loc.first % 60 = 0) (expr : List Char) (after t : Int)
    (h : nextCronTime loc expr after = some (some t)) :
    t % 60000000000 = 0 ∧ after < t := by
  obtain ⟨s, hp, hl⟩ := nextCronTime_some loc expr after t h
  obtain ⟨h1, h2, _, _⟩ := search_start after
  obtain ⟨a, b, _, _, _⟩ := cronLoop_spec loc hfix hoff s _ _ _ t h1 hl
  exact ⟨a, by omega⟩

/-- In a location with a fixed offset of whole minutes, the time `nextCronTime`
returns is the earliest match: no whole minute strictly between `after` and the
result matches all five fields. -/
theorem nextCronTime_fixed_earliest (loc : Location) (hfix : loc.tx = [])
    (hoff : loc.first % 60 = 0) (expr : List Char) (after t : Int)
    (h : nextCronTime loc expr after = some (some t))
    (f0 f1 f2 f3 f4 : List Char) (mi ho dom mo dow : List Int)
    (hf : fields expr = [f0, f1, f2, f3, f4])
    (p0 : parseCronField f0 0 59 = some (some mi)) (p1 : parseCronField f1 0 23 = some (some ho))
    (p2 : parseCronField f2 1 31 = some (some dom)) (p3 : parseCronField f3 1 12 = some (some mo))
    (p4 : parseCronField f4 0 6 = some (some dow))
    (m : Int) (hm : m % 60000000000 = 0) (h1 : after < m) (h2 : m < t) :
    ¬ (month (wall loc m) ∈ mo ∧ day (wall loc m) ∈ dom ∧ weekday (wall loc m) ∈ dow ∧
        hour (wall loc m) ∈ ho ∧ minute (wall loc m) ∈ mi) := by
  intro hmatch
  obtain ⟨s, hp, hl⟩ := nextCronTime_some loc expr after t h
  have hp2 : parseCronExpr expr = some (some ⟨mi, ho, dom, mo, dow⟩) :=
    (parseCronExpr_some expr ⟨mi, ho, dom, mo, dow⟩).2 ⟨f0, f1, f2, f3, f4, hf, p0, p1, p2, p3, p4⟩
  rw [hp2] at hp
  simp only [Option.some.injEq] at hp
  subst hp
  obtain ⟨s1, _, _, s4⟩ := search_start after
  obtain ⟨_, _, _, _, hmin⟩ := cronLoop_spec loc hfix hoff _ _ _ _ t s1 hl
  have hfalse := hmin m hm (s4 m hm h1) h2
  have htrue := (cronMatch_iff loc ⟨mi, ho, dom, mo, dow⟩ m).2 hmatch
  rw [hfalse] at htrue
  exact absurd htrue (by simp)

/-- In a location with a fixed offset of whole minutes, with five fields that
all parse: if no whole minute strictly after `after` and before `after` + 366
days matches all five fields, `nextCronTime` returns `nil`. -/
theorem nextCronTime_fixed_horizon (loc : Location) (hfix : loc.tx = [])
    (hoff : loc.first % 60 = 0) (expr : List Char) (after : Int)
    (f0 f1 f2 f3 f4 : List Char) (mi ho dom mo dow : List Int)
    (hf : fields expr = [f0, f1, f2, f3, f4])
    (p0 : parseCronField f0 0 59 = some (some mi)) (p1 : parseCronField f1 0 23 = some (some ho))
    (p2 : parseCronField f2 1 31 = some (some dom)) (p3 : parseCronField f3 1 12 = some (some mo))
    (p4 : parseCronField f4 0 6 = some (some dow))
    (hno : ∀ m : Int, m % 60000000000 = 0 → after < m → m < after + 31622400000000000 →
      ¬ (month (wall loc m) ∈ mo ∧ day (wall loc m) ∈ dom ∧ weekday (wall loc m) ∈ dow ∧
          hour (wall loc m) ∈ ho ∧ minute (wall loc m) ∈ mi)) :
    nextCronTime loc expr after = some none := by
  have hp : parseCronExpr expr = some (some ⟨mi, ho, dom, mo, dow⟩) :=
    (parseCronExpr_some expr ⟨mi, ho, dom, mo, dow⟩).2 ⟨f0, f1, f2, f3, f4, hf, p0, p1, p2, p3, p4⟩
  obtain ⟨r, hr, hl⟩ := nextCronTime_of_parse loc hfix hoff expr after _ hp
  rw [hr]
  cases r with
  | none => rfl
  | some t =>
    exfalso
    obtain ⟨s1, s2, _, _⟩ := search_start after
    obtain ⟨a, b, c, d, _⟩ := cronLoop_spec loc hfix hoff _ _ _ _ t s1 hl
    exact hno t a (by omega) c ((cronMatch_iff loc _ t).1 d)

/-- In a location with a fixed offset of whole minutes, `0 0 30 2 *` (day 30 of
February) yields `nil` for every start time. -/
theorem nextCronTime_fixed_feb30 (loc : Location) (hfix : loc.tx = [])
    (hoff : loc.first % 60 = 0) (after : Int) :
    nextCronTime loc "0 0 30 2 *".data after = some none := by
  apply nextCronTime_fixed_horizon loc hfix hoff _ after
    "0".data "0".data "30".data "2".data "*".data [0] [0] [30] [2] [0, 1, 2, 3, 4, 5, 6]
    (by decide) (by decide) (by decide) (by decide) (by decide) (by decide)
  intro m _ _ _ hm
  simp only [List.mem_singleton] at hm
  have := day_le_of_feb (wall loc m) hm.1
  omega

/-- In UTC: `0 0 13 * 5` from Wednesday 2026-11-04 09:00 gives Friday 2026-11-13
00:00; `0 9 * * 1-5` from Monday 2026-11-02 08:00 gives that Monday 09:00, and
from there Tuesday 09:00. -/
theorem nextCronTime_utc_examples :
    nextCronTime utcLoc "0 0 13 * 5".data (date utcLoc 2026 11 4 9 0)
        = some (some (date utcLoc 2026 11 13 0 0)) ∧
      weekday (wall utcLoc (date utcLoc 2026 11 13 0 0)) = 5 ∧
      weekday (wall utcLoc (date utcLoc 2026 11 2 8 0)) = 1 ∧
      nextCronTime utcLoc "0 9 * * 1-5".data (date utcLoc 2026 11 2 8 0)
        = some (some (date utcLoc 2026 11 2 9 0)) ∧
      nextCronTime utcLoc "0 9 * * 1-5".data (date utcLoc 2026 11 2 9 0)
        = some (some (date utcLoc 2026 11 3 9 0)) := by
  exact ⟨by decide!, by decide!, by decide!, by decide!, by decide!⟩

/-- With five fields that parse, when no time at all matches them,
`nextCronTime` never returns a time, in any location. -/
theorem nextCronTime_never_of_no_match (loc : Location) (expr : List Char) (after t : Int)
    (s : CronSets) (hp : parseCronExpr expr = some (some s))
    (hno : ∀ m : Int, cronMatch loc s m = false) :
    nextCronTime loc expr after ≠ some (some t) := by
  intro h
  obtain ⟨s1, hp1, hl⟩ := nextCronTime_some loc expr after t h
  rw [hp] at hp1
  simp only [Option.some.injEq] at hp1
  subst hp1
  obtain ⟨d, _⟩ := cronLoop_match loc s _ _ _ t hl
  rw [hno t] at d
  exact absurd d (by simp)

/-- With five fields that parse, when no time at all matches them, in a location
with a fixed offset of whole minutes `nextCronTime` returns `nil`. -/
theorem nextCronTime_none_of_no_match (loc : Location) (hfix : loc.tx = [])
    (hoff : loc.first % 60 = 0) (expr : List Char) (after : Int) (s : CronSets)
    (hp : parseCronExpr expr = some (some s)) (hno : ∀ m : Int, cronMatch loc s m = false) :
    nextCronTime loc expr after = some none := by
  obtain ⟨r, hr, hl⟩ := nextCronTime_of_parse loc hfix hoff expr after s hp
  rw [hr]
  cases r with
  | none => rfl
  | some t =>
    obtain ⟨d, _⟩ := cronLoop_match loc s _ _ _ t hl
    rw [hno t] at d
    exact absurd d (by simp)

/-- A set that holds no value inside the bounds of its field is matched by no
time, in any location. -/
theorem cronMatch_out_of_bounds (loc : Location) (mi ho dom mo dow : List Int)
    (hout : (∀ v ∈ mi, v < 0 ∨ 59 < v) ∨ (∀ v ∈ ho, v < 0 ∨ 23 < v) ∨
      (∀ v ∈ dom, v < 1 ∨ 31 < v) ∨ (∀ v ∈ mo, v < 1 ∨ 12 < v) ∨
      (∀ v ∈ dow, v < 0 ∨ 6 < v)) (m : Int) :
    cronMatch loc ⟨mi, ho, dom, mo, dow⟩ m = false := by
  cases hc : cronMatch loc ⟨mi, ho, dom, mo, dow⟩ m with
  | false => rfl
  | true =>
    exfalso
    obtain ⟨m1, m2, m3, m4, m5⟩ := (cronMatch_iff loc _ m).1 hc
    obtain ⟨q1, q2, q3, q4, q5⟩ := fields_in_range (wall loc m)
    rcases hout with h | h | h | h | h
    · have := h _ m5; omega
    · have := h _ m4; omega
    · have := h _ m2; omega
    · have := h _ m1; omega
    · have := h _ m3; omega

/-- The search for `0 H * * *` from 2026-03-08 00:30 in `America/New_York`, for an
hour set `[H]` without the hours 0 and 1: the skip from 00:31 gives 01:00 EST,
and the skip from 01:00 EST asks for the 02:00 that the clock leaves out, for
which `time.Date` gives 01:00 EST again. The loop never ends. -/
theorem cronLoop_gap_stuck (H : Int) (h0 : H ≠ 0) (h1 : H ≠ 1) :
    ∀ fuel : Nat,
      cronLoop newYork
        ⟨[0], [H], (countLoop 31 1 loopFuel 1).getD [], [1, 2, 3, 4, 5, 6, 7, 8, 9, 10, 11, 12],
          [0, 1, 2, 3, 4, 5, 6]⟩
        (1772947800000000000 + 31622400000000000) fuel
        (truncateMinute 1772947800000000000 + 60000000000) = none := by
  have hd : (countLoop 31 1 loopFuel 1).getD [] =
      [1, 2, 3, 4, 5, 6, 7, 8, 9, 10, 11, 12, 13, 14, 15, 16, 17, 18, 19, 20, 21, 22, 23, 24, 25,
        26, 27, 28, 29, 30, 31] := by decide
  rw [hd]
  have e0 : truncateMinute 1772947800000000000 + 60000000000 = 1772947860000000000 := by
    decide!
  have w0 : month (wall newYork 1772947860000000000) = 3 ∧
      day (wall newYork 1772947860000000000) = 8 ∧
      weekday (wall newYork 1772947860000000000) = 0 ∧
      hour (wall newYork 1772947860000000000) = 0 ∧
      year (wall newYork 1772947860000000000) = 2026 := by decide!
  have w1 : month (wall newYork 1772949600000000000) = 3 ∧
      day (wall newYork 1772949600000000000) = 8 ∧
      weekday (wall newYork 1772949600000000000) = 0 ∧
      hour (wall newYork 1772949600000000000) = 1 ∧
      year (wall newYork 1772949600000000000) = 2026 := by decide!
  have d1 : date newYork 2026 3 8 (0 + 1) 0 = 1772949600000000000 := by decide!
  have d2 : date newYork 2026 3 8 (1 + 1) 0 = 1772949600000000000 := by decide!
  obtain ⟨a1, a2, a3, a4, a5⟩ := w0
  obtain ⟨b1, b2, b3, b4, b5⟩ := w1
  have n0 : cronNext newYork
      ⟨[0], [H], [1, 2, 3, 4, 5, 6, 7, 8, 9, 10, 11, 12, 13, 14, 15, 16, 17, 18, 19, 20, 21, 22,
        23, 24, 25, 26, 27, 28, 29, 30, 31], [1, 2, 3, 4, 5, 6, 7, 8, 9, 10, 11, 12],
        [0, 1, 2, 3, 4, 5, 6]⟩ 1772947860000000000 = 1772949600000000000 := by
    simp only [cronNext, a1, a2, a3, a4, a5, List.mem_singleton]
    rw [if_neg (by decide), if_neg (by decide), if_pos (fun h => h0 h.symm)]
    exact d1
  have n1 : cronNext newYork
      ⟨[0], [H], [1, 2, 3, 4, 5, 6, 7, 8, 9, 10, 11, 12, 13, 14, 15, 16, 17, 18, 19, 20, 21, 22,
        23, 24, 25, 26, 27, 28, 29, 30, 31], [1, 2, 3, 4, 5, 6, 7, 8, 9, 10, 11, 12],
        [0, 1, 2, 3, 4, 5, 6]⟩ 1772949600000000000 = 1772949600000000000 := by
    simp only [cronNext, b1, b2, b3, b4, b5, List.mem_singleton]
    rw [if_neg (by decide), if_neg (by decide), if_pos (fun h => h1 h.symm)]
    exact d2
  have m0 : cronMatch newYork
      ⟨[0], [H], [1, 2, 3, 4, 5, 6, 7, 8, 9, 10, 11, 12, 13, 14, 15, 16, 17, 18, 19, 20, 21, 22,
        23, 24, 25, 26, 27, 28, 29, 30, 31], [1, 2, 3, 4, 5, 6, 7, 8, 9, 10, 11, 12],
        [0, 1, 2, 3, 4, 5, 6]⟩ 1772947860000000000 = false :=
    cronMatch_false_of_hour _ _ _ (by
      rw [a4]
      simp only [List.mem_singleton]
      exact fun h => h0 h.symm)
  have m1 : cronMatch newYork
      ⟨[0], [H], [1, 2, 3, 4, 5, 6, 7, 8, 9, 10, 11, 12, 13, 14, 15, 16, 17, 18, 19, 20, 21, 22,
        23, 24, 25, 26, 27, 28, 29, 30, 31], [1, 2, 3, 4, 5, 6, 7, 8, 9, 10, 11, 12],
        [0, 1, 2, 3, 4, 5, 6]⟩ 1772949600000000000 = false :=
    cronMatch_false_of_hour _ _ _ (by
      rw [b4]
      simp only [List.mem_singleton]
      exact fun h => h1 h.symm)
  rw [e0]
  apply cronLoop_stuck_next
  · decide
  · exact m0
  · rw [n0]; decide
  · rw [n0]; exact m1
  · rw [n0]; exact n1

/-! ## The claims -/

/-- C1 fails on the code in a location with a transition: in `Pacific/Apia`, for
`0 0 * * *` (five fields that parse) and the start time 2011-12-29 12:00 local
time, the hour skips reach `time.Date(2011, 12, 29, 24, 0, ...)`, a reading of
the day the clock leaves out, for which `time.Date` gives 2011-12-29 00:00
local time; that time matches and is returned. So `nextCronTime` returns a
time twelve hours earlier than `after`, not strictly later. -/
theorem C1_result_before_after :
    (∃ s, parseCronExpr "0 0 * * *".data = some (some s)) ∧
      (year (wall apia 1325196000000000000), month (wall apia 1325196000000000000),
        day (wall apia 1325196000000000000), hour (wall apia 1325196000000000000),
        minute (wall apia 1325196000000000000)) = (2011, 12, 29, 12, 0) ∧
      nextCronTime apia "0 0 * * *".data 1325196000000000000
        = some (some 1325152800000000000) ∧
      (year (wall apia 1325152800000000000), month (wall apia 1325152800000000000),
        day (wall apia 1325152800000000000), hour (wall apia 1325152800000000000),
        minute (wall apia 1325152800000000000)) = (2011, 12, 29, 0, 0) ∧
      (1325152800000000000 : Int) < 1325196000000000000 := by
  exact ⟨⟨⟨[0], [0], (countLoop 31 1 loopFuel 1).getD [],
      [1, 2, 3, 4, 5, 6, 7, 8, 9, 10, 11, 12], [0, 1, 2, 3, 4, 5, 6]⟩, by decide⟩,
    by decide!, by decide!, by decide!, by decide⟩

/-- C2 fails on the code in a location with a repeated hour: in `Europe/Berlin`,
for `30 2 * * *` and the start time 2026-10-25 01:10 CEST, the hour skip asks
for 02:00 and `time.Date` gives the second 02:00 (CET), so `nextCronTime`
returns 02:30 CET, one hour after 02:30 CEST. The whole minute 02:30 CEST lies
strictly between `after` and the result and matches all five fields. -/
theorem C2_skips_a_match :
    (year (wall berlin 1792883400000000000), month (wall berlin 1792883400000000000),
        day (wall berlin 1792883400000000000), hour (wall berlin 1792883400000000000),
        minute (wall berlin 1792883400000000000)) = (2026, 10, 25, 1, 10) ∧
      nextCronTime berlin "30 2 * * *".data 1792883400000000000
        = some (some 1792891800000000000) ∧
      (1792883400000000000 : Int) < 1792888200000000000 ∧
      (1792888200000000000 : Int) < 1792891800000000000 ∧
      (1792888200000000000 : Int) % 60000000000 = 0 ∧
      (year (wall berlin 1792888200000000000), month (wall berlin 1792888200000000000),
        day (wall berlin 1792888200000000000), hour (wall berlin 1792888200000000000),
        minute (wall berlin 1792888200000000000)) = (2026, 10, 25, 2, 30) ∧
      ∃ s, parseCronExpr "30 2 * * *".data = some (some s) ∧
        cronMatch berlin s 1792888200000000000 = true := by
  exact ⟨by decide!, by decide!, by decide, by decide, by decide, by decide!,
    ⟨⟨[30], [2], (countLoop 31 1 loopFuel 1).getD [],
      [1, 2, 3, 4, 5, 6, 7, 8, 9, 10, 11, 12], [0, 1, 2, 3, 4, 5, 6]⟩, by decide, by decide!⟩⟩

/-- C3: for a job of kind `at` that is in the store, after `executeJob` (whatever
the handler returns): with `deleteAfterRun` the store holds no job with that
id; without it the job is still in the store, at its place, with
`enabled = false` and no `nextRunAt`. -/
theorem C3_executeJob_at (z : Zones) (onJob : Option (CronJob → Option String))
    (e : ExecEnv) (cs : CronService) (p : JobPtr) (job : CronJob)
    (hp : p.arr = cs.cur) (hj : cs.deref p = some job) (hk : job.schedule.kind = "at") :
    ∃ cs1, executeJob z onJob e cs p = some cs1 ∧
      (job.deleteAfterRun = true → ∀ j ∈ cs1.jobs, j.id ≠ job.id) ∧
      (job.deleteAfterRun = false →
        cs1.jobs.length = cs.jobs.length ∧
        ∃ j, cs1.jobs[p.idx]? = some j ∧ j.id = job.id ∧ j.enabled = false ∧
          j.state.nextRunAtMS = none) := by
  cases hd : job.deleteAfterRun with
  | true =>
    refine ⟨_, executeJob_at_delete z onJob e cs p job hj hk hd, ?_, ?_⟩
    · intro _ j hjm
      rw [jobs_removeJobUnsafe] at hjm
      have := (List.mem_filter.1 hjm).2
      simpa using this
    · intro h
      exact absurd h (by simp)
  | false =>
    refine ⟨_, executeJob_at_keep z onJob e cs p job hj hk hd, ?_, ?_⟩
    · intro h
      exact absurd h (by simp)
    · intro _
      refine ⟨?_, _, getElem?_update_twice cs p _ _ job hp hj, rfl, rfl, rfl⟩
      rw [jobs_update_twice _ _ _ _ hp, modifyAt_length, modifyAt_length]

/-- C3 at a concrete input: job `B` of `twoAtJobs` is kept and disabled. -/
theorem C3_witness :
    ∃ cs1, executeJob utc none ⟨10, 11, 12, true⟩ twoAtJobs ⟨0, 1⟩ = some cs1 ∧
      ((atJob "B" false).deleteAfterRun = true → ∀ j ∈ cs1.jobs, j.id ≠ (atJob "B" false).id) ∧
      ((atJob "B" false).deleteAfterRun = false →
        cs1.jobs.length = twoAtJobs.jobs.length ∧
        ∃ j, cs1.jobs[(⟨0, 1⟩ : JobPtr).idx]? = some j ∧ j.id = (atJob "B" false).id ∧
          j.enabled = false ∧ j.state.nextRunAtMS = none) :=
  C3_executeJob_at utc none ⟨10, 11, 12, true⟩ twoAtJobs ⟨0, 1⟩ (atJob "B" false) rfl rfl rfl

/-- C4 fails on the code: in `twoAtJobs` both `at` jobs are due at time 10 and
both are executed in that tick; running `A` replaces the backing array of the
store, so the writes of running `B` go to the old array. After the tick `B` is
in the store unchanged, enabled and with its `nextRunAt`, and a later tick
collects it as due again. -/
theorem C4_at_job_fires_again :
    dueJobs twoAtJobs 10 = [⟨0, 0⟩, ⟨0, 1⟩] ∧
      (checkJobs utc none quietTick twoAtJobs).map (fun cs => cs.jobs)
        = some [atJob "B" false] ∧
      (atJob "B" false).enabled = true ∧ (atJob "B" false).state.nextRunAtMS = some 0 ∧
      (checkJobs utc none quietTick twoAtJobs).map (fun cs => dueJobs cs 1010)
        = some [⟨1, 0⟩] := by
  decide

/-- C5, as stated, fails: with `everyMs` = 2^63 - 1 at T = 1700000000000 the sum
leaves the `int64` range and the code returns the wrapped, negative value. -/
theorem C5_counterexample :
    computeNextRun utc ⟨"every", none, some 9223372036854775807, "", ""⟩ 1700000000000
        = some (some (-9223370336854775809)) ∧
      computeNextRun utc ⟨"every", none, some 9223372036854775807, "", ""⟩ 1700000000000
        ≠ some (some (1700000000000 + 9223372036854775807)) := by
  decide

/-- C5, amended: for a schedule of kind `every` and a 64-bit current time `T`,
`computeNextRun` returns exactly `T + everyMs` when `everyMs > 0` and the sum is
at most 2^63 - 1; it returns `nil` when `everyMs` is missing or `everyMs ≤ 0`. -/
theorem C5_computeNextRun_every (z : Zones) (s : CronSchedule) (T : Int)
    (hk : s.kind = "every") :
    (∀ e : Int, s.everyMS = some e → 0 < e → -9223372036854775808 ≤ T →
        T + e ≤ 9223372036854775807 → computeNextRun z s T = some (some (T + e))) ∧
      (s.everyMS = none → computeNextRun z s T = some none) ∧
      (∀ e : Int, s.everyMS = some e → e ≤ 0 → computeNextRun z s T = some none) := by
  refine ⟨?_, computeNextRun_every_missing z s T hk, ?_⟩
  · intro e he hpos hT hsum
    rw [computeNextRun_every z s T e hk he, if_neg (not_le.mpr hpos),
      wrap64_id _ (by omega) hsum]
  · intro e he hle
    rw [computeNextRun_every z s T e hk he, if_pos hle]

/-- C5 at a concrete input: `everyMs` = 60000 at T = 1700000000000. -/
theorem C5_witness :
    computeNextRun utc ⟨"every", none, some 60000, "", ""⟩ 1700000000000
      = some (some (1700000000000 + 60000)) :=
  (C5_computeNextRun_every utc ⟨"every", none, some 60000, "", ""⟩ 1700000000000 rfl).1
    60000 rfl (by decide) (by decide) (by decide)

/-- C6: for a schedule of kind `at`, `computeNextRun` returns `atMs` exactly when
`atMs` is present and strictly greater than `T`; when `atMs` is missing or
`atMs ≤ T` it returns `nil`. So `atMs = T - 1` gives `nil` and `atMs = T + 1`
gives `T + 1`. -/
theorem C6_computeNextRun_at (z : Zones) (s : CronSchedule) (T : Int) (hk : s.kind = "at") :
    (∀ a : Int, computeNextRun z s T = some (some a) ↔ (s.atMS = some a ∧ a > T)) ∧
      (s.atMS = none → computeNextRun z s T = some none) ∧
      (∀ a : Int, s.atMS = some a → a ≤ T → computeNextRun z s T = some none) ∧
      (s.atMS = some (T - 1) → computeNextRun z s T = some none) ∧
      (s.atMS = some (T + 1) → computeNextRun z s T = some (some (T + 1))) := by
  have hnone : s.atMS = none → computeNextRun z s T = some none := by
    intro h
    simp only [computeNextRun, if_pos hk, h]
  have hle : ∀ a : Int, s.atMS = some a → a ≤ T → computeNextRun z s T = some none := by
    intro a h hl
    simp only [computeNextRun, if_pos hk, h, if_neg (not_lt.mpr hl)]
  have hgt : ∀ a : Int, s.atMS = some a → a > T → computeNextRun z s T = some (some a) := by
    intro a h hg
    simp only [computeNextRun, if_pos hk, h, if_pos hg]
  refine ⟨?_, hnone, hle, fun h => hle _ h (by omega), fun h => hgt _ h (by omega)⟩
  intro a
  constructor
  · intro h
    cases hs : s.atMS with
    | none => rw [hnone hs] at h; exact absurd h (by simp)
    | some b =>
      by_cases hb : b > T
      · rw [hgt b hs hb] at h
        simp only [Option.some.injEq] at h
        subst h
        exact ⟨rfl, hb⟩
      · rw [hle b hs (by omega)] at h
        exact absurd h (by simp)
  · rintro ⟨h1, h2⟩
    exact hgt a h1 h2

/-- C6 at a concrete input: `atMs` = 1001 and 999 at T = 1000. -/
theorem C6_witness :
    computeNextRun utc ⟨"at", some 1001, none, "", ""⟩ 1000 = some (some 1001) ∧
      computeNextRun utc ⟨"at", some 999, none, "", ""⟩ 1000 = some none :=
  ⟨((C6_computeNextRun_at utc ⟨"at", some 1001, none, "", ""⟩ 1000 rfl).1 1001).2
      ⟨rfl, by decide⟩,
    (C6_computeNextRun_at utc ⟨"at", some 999, none, "", ""⟩ 1000 rfl).2.2.1 999 rfl
      (by decide)⟩

/-- C7 fails on the code at the expression `0-9223372036854775807 x * * *`: it
has five fields and its second field `x` is invalid, but the range loop of the
first field never ends, so neither `nextCronTime` nor `computeNextRun` returns. -/
theorem C7_invalid_field_not_reached (z : Zones) (loc : Location) (after nowMS : Int)
    (tz : String) :
    (fields "0-9223372036854775807 x * * *".data).length = 5 ∧
      parseCronField "x".data 0 23 = some none ∧
      nextCronTime loc "0-9223372036854775807 x * * *".data after = none ∧
      computeNextRun z ⟨"cron", none, none, "0-9223372036854775807 x * * *", tz⟩ nowMS
        = none := by
  have hf : fields "0-9223372036854775807 x * * *".data
      = ["0-9223372036854775807".data, "x".data, "*".data, "*".data, "*".data] := by decide
  have hn : ∀ l a, nextCronTime l "0-9223372036854775807 x * * *".data a = none := fun l a =>
    nextCronTime_parse_hangs l _ a (parseCronExpr_first_hangs _ _ _ _ _ _ hf parseCronField_hang)
  have he : ("0-9223372036854775807 x * * *" : String) ≠ "" := by decide
  exact ⟨by decide, by decide, hn loc after,
    computeNextRun_cron_hang z ⟨"cron", none, none, "0-9223372036854775807 x * * *", tz⟩ nowMS
      rfl he hn⟩

/-- C8 fails on the code in a location with a gap: in `America/New_York`, for
`0 25 * * *` (five fields that parse; no time has hour 25, so no minute
matches) and the start time 2026-03-08 00:30 EST, the hour skip from 01:00 EST
asks for the 02:00 that the clock leaves out and `time.Date` gives 01:00 EST
again. The search loop never reaches the horizon: it returns for no amount of
fuel, and `nextCronTime` does not return `nil`. -/
theorem C8_search_never_ends :
    (year (wall newYork 1772947800000000000), month (wall newYork 1772947800000000000),
        day (wall newYork 1772947800000000000), hour (wall newYork 1772947800000000000),
        minute (wall newYork 1772947800000000000)) = (2026, 3, 8, 0, 30) ∧
      (∃ s, parseCronExpr "0 25 * * *".data = some (some s) ∧
        (∀ m : Int, cronMatch newYork s m = false) ∧
        ∀ fuel : Nat,
          cronLoop newYork s (1772947800000000000 + 31622400000000000) fuel
            (truncateMinute 1772947800000000000 + 60000000000) = none) ∧
      nextCronTime newYork "0 25 * * *".data 1772947800000000000 = none := by
  have hp : parseCronExpr "0 25 * * *".data
      = some (some ⟨[0], [25], (countLoop 31 1 loopFuel 1).getD [],
          [1, 2, 3, 4, 5, 6, 7, 8, 9, 10, 11, 12], [0, 1, 2, 3, 4, 5, 6]⟩) := by
    decide
  have hstuck := cronLoop_gap_stuck 25 (by decide) (by decide)
  refine ⟨by decide!, ⟨_, hp, ?_, hstuck⟩, ?_⟩
  · intro m
    apply cronMatch_out_of_bounds
    right
    left
    intro v hv
    simp only [List.mem_singleton] at hv
    omega
  · unfold nextCronTime
    rw [hp]
    exact hstuck searchFuel

/-- C9, as stated, fails: an `every` job with `everyMs` = 2^63 - 1 run at clock
reading 1700000000000 gets the wrapped, negative `nextRunAt`, which is not
`t + everyMs` and is earlier than the recorded `lastRunAt`. -/
theorem C9_counterexample :
    (executeJob utc none ⟨1700000000000, 1700000000000, 1700000000000, true⟩
        (oneJob (everyJob "E" 9223372036854775807)) ⟨0, 0⟩).map
        (fun cs => cs.jobs.map (fun j => (j.state.lastRunAtMS, j.state.nextRunAtMS)))
      = some [(some 1700000000000, some (-9223370336854775809))] ∧
    (-9223370336854775809 : Int) ≠ 1700000000000 + 9223372036854775807 ∧
    ¬ ((1700000000000 : Int) < -9223370336854775809) := by
  decide

/-- C9, amended: for a job of kind `every` or `cron` that is in the store, when
`computeNextRun(schedule, t)` returns for the clock reading `t` taken after the
handler, `executeJob` leaves the job in the store with its enabled flag
unchanged and `nextRunAt` equal to that result; for `every` with `everyMs > 0`
and `t + everyMs` at most 2^63 - 1 the new `nextRunAt` is `t + everyMs`,
strictly later than `lastRunAt` when `t` is not before it; for `everyMs ≤ 0` the
new `nextRunAt` is absent. -/
theorem C9_executeJob_reschedules (z : Zones) (onJob : Option (CronJob → Option String))
    (e : ExecEnv) (cs : CronService) (p : JobPtr) (job : CronJob) (r : Option Int)
    (hp : p.arr = cs.cur) (hj : cs.deref p = some job)
    (hk : job.schedule.kind = "every" ∨ job.schedule.kind = "cron")
    (hr : computeNextRun z job.schedule e.now = some r) :
    ∃ cs1 j, executeJob z onJob e cs p = some cs1 ∧
      cs1.jobs.length = cs.jobs.length ∧ cs1.jobs[p.idx]? = some j ∧
      j.id = job.id ∧ j.enabled = job.enabled ∧ j.state.nextRunAtMS = r ∧
      j.state.lastRunAtMS = some e.start ∧
      (job.schedule.kind = "every" → ∀ ms : Int, job.schedule.everyMS = some ms →
        (0 < ms → -9223372036854775808 ≤ e.now → e.now + ms ≤ 9223372036854775807 →
          e.start ≤ e.now → r = some (e.now + ms) ∧ e.start < e.now + ms) ∧
        (ms ≤ 0 → r = none)) := by
  have hne : job.schedule.kind ≠ "at" := by
    rcases hk with h | h <;> rw [h] <;> decide
  refine ⟨(cs.update p (recordRun e (handlerError onJob job))).update p (setNextRun r),
    setNextRun r (recordRun e (handlerError onJob job) job), ?_, ?_,
    getElem?_update_twice cs p _ _ job hp hj, rfl, rfl, rfl, rfl, ?_⟩
  · rw [executeJob_other z onJob e cs p job hj hne, hr]
    rfl
  · rw [jobs_update_twice _ _ _ _ hp, modifyAt_length, modifyAt_length]
  · intro hev ms hms
    rw [computeNextRun_every z job.schedule e.now ms hev hms] at hr
    constructor
    · intro hpos hlo hhi hst
      rw [if_neg (not_le.mpr hpos), wrap64_id _ (by omega) hhi] at hr
      simp only [Option.some.injEq] at hr
      exact ⟨hr.symm, by omega⟩
    · intro hle
      rw [if_pos hle] at hr
      simp only [Option.some.injEq] at hr
      exact hr.symm

/-- C9 at a concrete input: an `every` job with `everyMs` = 60000, run with the
clock readings 10, 11 and 12, stays enabled and is due again at 60012. -/
theorem C9_witness :
    ∃ cs1 j, executeJob utc none ⟨10, 11, 12, true⟩ (oneJob (everyJob "E" 60000)) ⟨0, 0⟩
        = some cs1 ∧
      cs1.jobs[0]? = some j ∧ j.id = "E" ∧ j.enabled = true ∧
      j.state.nextRunAtMS = some 60012 ∧ j.state.lastRunAtMS = some 10 := by
  obtain ⟨cs1, j, h1, _, h3, h4, h5, h6, h7, _⟩ :=
    C9_executeJob_reschedules utc none ⟨10, 11, 12, true⟩ (oneJob (everyJob "E" 60000)) ⟨0, 0⟩
      (everyJob "E" 60000) (some 60012) rfl rfl (Or.inl rfl) (by decide)
  exact ⟨cs1, j, h1, h3, h4, h5, h6, h7⟩

/-- C10: when the handler fails with message `m`, `executeJob` records
`lastStatus = "error"` and `lastError = m` in the job, and the failure changes
nothing else: ids, enabled flags and `nextRunAt` of the jobs in the store are
those the run gets when the handler succeeds (which records `"ok"` and an empty
`lastError`). So a failing `every` or `cron` job in the store keeps its enabled
flag and gets the recomputed `nextRunAt`. -/
theorem C10_handler_failure (z : Zones) (fails succeeds : CronJob → Option String)
    (e : ExecEnv) (cs : CronService) (p : JobPtr) (job : CronJob) (m : String)
    (hj : cs.deref p = some job) (hf : fails job = some m) (hs : succeeds job = none) :
    (executeJob z (some fails) e cs p).map (fun c => c.jobs.map scheduleView)
        = (executeJob z (some succeeds) e cs p).map (fun c => c.jobs.map scheduleView) ∧
      (∀ c, executeJob z (some fails) e cs p = some c →
        ∃ j, c.deref p = some j ∧ j.state.lastStatus = "error" ∧ j.state.lastError = m) ∧
      (∀ c, executeJob z (some succeeds) e cs p = some c →
        ∃ j, c.deref p = some j ∧ j.state.lastStatus = "ok" ∧ j.state.lastError = "") ∧
      (p.arr = cs.cur → job.schedule.kind = "every" ∨ job.schedule.kind = "cron" →
        ∀ r, computeNextRun z job.schedule e.now = some r →
          ∃ c j, executeJob z (some fails) e cs p = some c ∧ c.jobs[p.idx]? = some j ∧
            j.id = job.id ∧ j.enabled = job.enabled ∧ j.state.nextRunAtMS = r ∧
            j.state.lastStatus = "error" ∧ j.state.lastError = m) := by
  have e1 : handlerError (some fails) job = some m := hf
  have e2 : handlerError (some succeeds) job = none := hs
  have hrec : ∀ j, scheduleView (recordRun e (some m) j) = scheduleView (recordRun e none j) :=
    fun _ => rfl
  by_cases hk : job.schedule.kind = "at"
  · cases hd : job.deleteAfterRun with
    | true =>
      rw [executeJob_at_delete z _ e cs p job hj hk hd,
        executeJob_at_delete z _ e cs p job hj hk hd, e1, e2]
      refine ⟨?_, ?_, ?_, ?_⟩
      · simp only [Option.map_some']
        rw [jobs_remove_view _ _ _ _ (jobs_update_view cs p _ _ hrec)]
      · intro c hc
        simp only [Option.some.injEq] at hc
        subst hc
        exact ⟨_, deref_removeJobUnsafe _ _ _ p _ (by rw [deref_update, hj]; rfl), rfl, rfl⟩
      · intro c hc
        simp only [Option.some.injEq] at hc
        subst hc
        exact ⟨_, deref_removeJobUnsafe _ _ _ p _ (by rw [deref_update, hj]; rfl), rfl, rfl⟩
      · intro _ hev
        exfalso
        rcases hev with h | h <;> rw [h] at hk <;> exact absurd hk (by decide)
    | false =>
      rw [executeJob_at_keep z _ e cs p job hj hk hd,
        executeJob_at_keep z _ e cs p job hj hk hd, e1, e2]
      refine ⟨?_, ?_, ?_, ?_⟩
      · simp only [Option.map_some', update_update]
        exact congrArg some (jobs_update_view cs p _ _ (fun _ => rfl))
      · intro c hc
        simp only [Option.some.injEq] at hc
        subst hc
        exact ⟨_, deref_update_twice cs p _ _ job hj, rfl, rfl⟩
      · intro c hc
        simp only [Option.some.injEq] at hc
        subst hc
        exact ⟨_, deref_update_twice cs p _ _ job hj, rfl, rfl⟩
      · intro _ hev
        exfalso
        rcases hev with h | h <;> rw [h] at hk <;> exact absurd hk (by decide)
  · rw [executeJob_other z _ e cs p job hj hk, executeJob_other z _ e cs p job hj hk, e1, e2]
    refine ⟨?_, ?_, ?_, ?_⟩
    · cases computeNextRun z job.schedule e.now with
      | none => rfl
      | some r =>
        simp only [Option.map_some', update_update]
        exact congrArg some (jobs_update_view cs p _ _ (fun _ => rfl))
    · intro c hc
      cases hr : computeNextRun z job.schedule e.now with
      | none => rw [hr] at hc; exact absurd hc (by simp)
      | some r =>
        rw [hr] at hc
        simp only [Option.map_some', Option.some.injEq] at hc
        subst hc
        exact ⟨_, deref_update_twice cs p _ _ job hj, rfl, rfl⟩
    · intro c hc
      cases hr : computeNextRun z job.schedule e.now with
      | none => rw [hr] at hc; exact absurd hc (by simp)
      | some r =>
        rw [hr] at hc
        simp only [Option.map_some', Option.some.injEq] at hc
        subst hc
        exact ⟨_, deref_update_twice cs p _ _ job hj, rfl, rfl⟩
    · intro hp _ r hr
      rw [hr]
      exact ⟨_, _, rfl, getElem?_update_twice cs p _ _ job hp hj, rfl, rfl, rfl, rfl, rfl⟩

/-- C10 at a concrete input: an `every` job whose handler fails with `boom`. -/
theorem C10_witness :
    ∃ c j, executeJob utc (some (fun _ => some "boom")) ⟨10, 11, 12, true⟩
        (oneJob (everyJob "E" 60000)) ⟨0, 0⟩ = some c ∧
      c.jobs[0]? = some j ∧ j.id = "E" ∧ j.enabled = true ∧
      j.state.nextRunAtMS = some 60012 ∧
      j.state.lastStatus = "error" ∧ j.state.lastError = "boom" :=
  (C10_handler_failure utc (fun _ => some "boom") (fun _ => none) ⟨10, 11, 12, true⟩
    (oneJob (everyJob "E" 60000)) ⟨0, 0⟩ (everyJob "E" 60000) "boom" rfl rfl rfl).2.2.2
    rfl (Or.inl rfl) (some 60012) (by decide)

/-! ## Lemmas about the administrative operations -/

theorem filter_length_lt_iff {α : Type} (p : α → Bool) (l : List α) :
    (l.filter p).length < l.length ↔ ∃ x ∈ l, p x = false := by
  induction l with
  | nil => simp
  | cons a l ih =>
    have hle := List.length_filter_le p l
    cases h : p a
    · simp only [List.filter_cons, h, Bool.false_eq_true, if_false, List.length_cons,
        List.mem_cons, exists_eq_or_imp, true_or, iff_true]
      omega
    · simp only [List.filter_cons, h, if_true, List.length_cons, List.mem_cons,
        exists_eq_or_imp, Bool.true_eq_false, false_or]
      rw [← ih]
      omega

theorem removeJobUnsafe_flag (cs : CronService) (jobID : String) (w : Bool) :
    (removeJobUnsafe cs jobID w).2 = true ↔ ∃ j ∈ cs.jobs, j.id = jobID := by
  have hj : ({ cs with heap := cs.heap ++ [cs.jobs.filter (fun job => job.id != jobID)],
                       cur := cs.heap.length } : CronService).jobs
      = cs.jobs.filter (fun job => job.id != jobID) := by
    simp [CronService.jobs, List.getD_eq_getElem?_getD]
  have hiff : (cs.jobs.filter (fun job => job.id != jobID)).length < cs.jobs.length
      ↔ ∃ j ∈ cs.jobs, j.id = jobID := by
    rw [filter_length_lt_iff]
    simp
  unfold removeJobUnsafe
  simp only [hj]
  split
  · next h =>
    simp only [h, true_iff]
    exact hiff.1 (by simpa using h)
  · next h =>
    simp only [decide_eq_true_eq] at h
    simp only [decide_eq_true_eq]
    exact ⟨fun h2 => absurd h2 h, fun h2 => absurd (hiff.2 h2) h⟩

theorem wakeStep_skip (init : Option Int) (a : CronJob)
    (h : a.enabled = false ∨ a.state.nextRunAtMS = none) : wakeStep init a = init := by
  rcases h with h | h
  · simp [wakeStep, h]
  · cases he : a.enabled <;> simp [wakeStep, he, h]

theorem wakeStep_take (init : Option Int) (a : CronJob) (n : Int)
    (he : a.enabled = true) (hn : a.state.nextRunAtMS = some n) :
    ∃ w, wakeStep init a = some w ∧ w ≤ n ∧ (∀ i, init = some i → w ≤ i) ∧
      (w = n ∨ init = some w) := by
  cases init with
  | none => exact ⟨n, by simp [wakeStep, he, hn], le_refl _, by simp, Or.inl rfl⟩
  | some i0 =>
    by_cases hlt : n < i0
    · refine ⟨n, by simp [wakeStep, he, hn, hlt], le_refl _, ?_, Or.inl rfl⟩
      intro i hi
      simp only [Option.some.injEq] at hi
      omega
    · refine ⟨i0, by simp [wakeStep, he, hn, hlt], by omega, ?_, Or.inr rfl⟩
      intro i hi
      simp only [Option.some.injEq] at hi
      omega

/-- The fold of `getNextWakeMS` from any start value: the result is the start
value or the `nextRunAt` of an enabled job, and it is at most each of them. -/
theorem foldl_wakeStep (l : List CronJob) :
    ∀ init : Option Int,
      (l.foldl wakeStep init = none ↔
        init = none ∧ ∀ job ∈ l, job.enabled = true → job.state.nextRunAtMS = none) ∧
      (∀ w, l.foldl wakeStep init = some w →
        (init = some w ∨ ∃ job ∈ l, job.enabled = true ∧ job.state.nextRunAtMS = some w) ∧
        (∀ i, init = some i → w ≤ i) ∧
        ∀ job ∈ l, job.enabled = true → ∀ n, job.state.nextRunAtMS = some n → w ≤ n) := by
  induction l with
  | nil =>
    intro init
    refine ⟨by simp, ?_⟩
    intro w hw
    simp only [List.foldl_nil] at hw
    refine ⟨Or.inl hw, ?_, by simp⟩
    intro i hi
    rw [hw] at hi
    simp only [Option.some.injEq] at hi
    omega
  | cons a l ih =>
    intro init
    rw [List.foldl_cons]
    obtain ⟨ih1, ih2⟩ := ih (wakeStep init a)
    by_cases hskip : a.enabled = false ∨ a.state.nextRunAtMS = none
    · have hs := wakeStep_skip init a hskip
      rw [hs] at ih1 ih2 ⊢
      have ha : a.enabled = true → a.state.nextRunAtMS = none := by
        intro he
        rcases hskip with h | h
        · rw [h] at he; exact absurd he (by simp)
        · exact h
      constructor
      · rw [ih1]
        constructor
        · rintro ⟨h1, h2⟩
          refine ⟨h1, ?_⟩
          intro job hjob
          rcases List.mem_cons.1 hjob with rfl | h
          · exact ha
          · exact h2 job h
        · rintro ⟨h1, h2⟩
          exact ⟨h1, fun job hjob => h2 job (List.mem_cons_of_mem _ hjob)⟩
      · intro w hw
        obtain ⟨h1, h2, h3⟩ := ih2 w hw
        refine ⟨?_, h2, ?_⟩
        · rcases h1 with h1 | ⟨job, hjob, hj⟩
          · exact Or.inl h1
          · exact Or.inr ⟨job, List.mem_cons_of_mem _ hjob, hj⟩
        · intro job hjob he n hn
          rcases List.mem_cons.1 hjob with rfl | h
          · rw [ha he] at hn; exact absurd hn (by simp)
          · exact h3 job h he n hn
    · have he : a.enabled = true := by
        cases h : a.enabled
        · exact absurd (Or.inl h) hskip
        · rfl
      obtain ⟨n, hn⟩ : ∃ n, a.state.nextRunAtMS = some n := by
        cases h : a.state.nextRunAtMS
        · exact absurd (Or.inr h) hskip
        · exact ⟨_, rfl⟩
      obtain ⟨v, hv, hvn, hvi, hvor⟩ := wakeStep_take init a n he hn
      rw [hv] at ih1 ih2 ⊢
      constructor
      · constructor
        · intro h
          rw [ih1] at h
          exact absurd h.1 (by simp)
        · rintro ⟨_, h2⟩
          have := h2 a (List.mem_cons_self _ _) he
          rw [hn] at this
          exact absurd this (by simp)
      · intro w hw
        obtain ⟨h1, h2, h3⟩ := ih2 w hw
        have hwv : w ≤ v := h2 v rfl
        refine ⟨?_, ?_, ?_⟩
        · rcases h1 with h1 | ⟨job, hjob, hj⟩
          · simp only [Option.some.injEq] at h1
            subst h1
            rcases hvor with h | h
            · exact Or.inr ⟨a, List.mem_cons_self _ _, he, by rw [hn, h]⟩
            · exact Or.inl h
          · exact Or.inr ⟨job, List.mem_cons_of_mem _ hjob, hj⟩
        · intro i hi
          have := hvi i hi
          omega
        · intro job hjob hej m hm
          rcases List.mem_cons.1 hjob with rfl | h
          · rw [hn] at hm
            simp only [Option.some.injEq] at hm
            omega
          · exact h3 job h hej m hm

/-! ## `EnableJob`, `AddJob` and the store invariant -/

theorem enableLoop_not_found (z : Zones) (upd now : Int) (jobID : String) (enabled : Bool)
    (l : List CronJob) (h : ∀ j ∈ l, j.id ≠ jobID) :
    enableLoop z upd now jobID enabled l = some none := by
  induction l with
  | nil => rfl
  | cons a l ih =>
    have ha : ¬ a.id = jobID := h a (List.mem_cons_self _ _)
    simp only [enableLoop, if_neg ha, ih (fun j hj => h j (List.mem_cons_of_mem _ hj)),
      Option.map_some', Option.map_none']

theorem enableLoop_found (z : Zones) (upd now : Int) (jobID : String) (enabled : Bool)
    (pre post : List CronJob) (job : CronJob) (next : Option Int)
    (hpre : ∀ j ∈ pre, j.id ≠ jobID) (hid : job.id = jobID)
    (hn : (if enabled then computeNextRun z job.schedule now else some none) = some next) :
    enableLoop z upd now jobID enabled (pre ++ job :: post) =
      some (some (pre ++ setEnabled enabled upd next job :: post,
        setEnabled enabled upd next job)) := by
  induction pre with
  | nil => simp only [List.nil_append, enableLoop, if_pos hid, hn, Option.map_some']
  | cons a l ih =>
    have ha : ¬ a.id = jobID := hpre a (List.mem_cons_self _ _)
    have e := ih (fun j hj => hpre j (List.mem_cons_of_mem _ hj))
    show enableLoop z upd now jobID enabled (a :: (l ++ job :: post)) = _
    rw [enableLoop, if_neg ha, e]
    rfl

/-- What the loop of `EnableJob` returns, read backwards. -/
theorem enableLoop_cases (z : Zones) (upd now : Int) (jobID : String) (enabled : Bool)
    (l : List CronJob) (r : Option (List CronJob × CronJob))
    (h : enableLoop z upd now jobID enabled l = some r) :
    (r = none ∧ ∀ j ∈ l, j.id ≠ jobID) ∨
    (∃ pre job post next, l = pre ++ job :: post ∧ (∀ j ∈ pre, j.id ≠ jobID) ∧
      job.id = jobID ∧
      (if enabled then computeNextRun z job.schedule now else some none) = some next ∧
      r = some (pre ++ setEnabled enabled upd next job :: post,
        setEnabled enabled upd next job)) := by
  induction l generalizing r with
  | nil =>
    simp only [enableLoop, Option.some.injEq] at h
    exact Or.inl ⟨h.symm, by simp⟩
  | cons a l ih =>
    by_cases ha : a.id = jobID
    · right
      simp only [enableLoop, if_pos ha] at h
      cases hc : (if enabled then computeNextRun z a.schedule now else some none) with
      | none => rw [hc] at h; exact absurd h (by simp)
      | some next =>
        rw [hc] at h
        simp only [Option.map_some', Option.some.injEq] at h
        exact ⟨[], a, l, next, rfl, by simp, ha, hc, h.symm⟩
    · simp only [enableLoop, if_neg ha] at h
      cases hc : enableLoop z upd now jobID enabled l with
      | none => rw [hc] at h; exact absurd h (by simp)
      | some r0 =>
        rw [hc] at h
        simp only [Option.map_some', Option.some.injEq] at h
        rcases ih r0 hc with ⟨h1, h2⟩ | ⟨pre, job, post, next, e1, e2, e3, e4, e5⟩
        · left
          subst h1
          refine ⟨h.symm, ?_⟩
          intro j hj
          rcases List.mem_cons.1 hj with rfl | hj2
          · exact ha
          · exact h2 j hj2
        · right
          refine ⟨a :: pre, job, post, next, by rw [e1]; rfl, ?_, e3, e4, ?_⟩
          · intro j hj
            rcases List.mem_cons.1 hj with rfl | hj2
            · exact ha
            · exact e2 j hj2
          · rw [e5] at h
            exact h.symm

/-- Replacing the current backing array of a store that holds a job. -/
theorem jobs_replace (cs : CronService) (v : List CronJob) (h : cs.jobs ≠ []) :
    ({ cs with heap := modifyAt (fun _ => v) cs.cur cs.heap } : CronService).jobs = v := by
  simp only [CronService.jobs, List.getD_eq_getElem?_getD, modifyAt_getElem?] at h ⊢
  cases hc : cs.heap[cs.cur]? with
  | none => rw [hc] at h; simp at h
  | some a => simp

theorem jobs_replace_or (cs : CronService) (v : List CronJob) :
    ({ cs with heap := modifyAt (fun _ => v) cs.cur cs.heap } : CronService).jobs = v ∨
    ({ cs with heap := modifyAt (fun _ => v) cs.cur cs.heap } : CronService).jobs = [] := by
  simp only [CronService.jobs, List.getD_eq_getElem?_getD, modifyAt_getElem?]
  cases hc : cs.heap[cs.cur]? with
  | none => right; simp
  | some a => left; simp

theorem inv_iff (l : List CronJob) :
    disabledHaveNoNextRun l = true ↔
      ∀ j ∈ l, j.enabled = false → j.state.nextRunAtMS = none := by
  simp only [disabledHaveNoNextRun, List.all_eq_true, Bool.or_eq_true, Option.isNone_iff_eq_none]
  constructor
  · intro h j hj he
    rcases h j hj with h1 | h1
    · rw [he] at h1; exact absurd h1 (by simp)
    · exact h1
  · intro h j hj
    cases he : j.enabled
    · exact Or.inr (h j hj he)
    · exact Or.inl rfl

theorem mem_modifyAt {α : Type} (f : α → α) :
    ∀ (n : Nat) (l : List α) (x : α), x ∈ modifyAt f n l →
      x ∈ l ∨ ∃ a, l[n]? = some a ∧ x = f a
  | n, [], x, h => by cases n <;> simp [modifyAt] at h
  | 0, a :: l, x, h => by
    simp only [modifyAt, List.mem_cons] at h
    rcases h with h | h
    · exact Or.inr ⟨a, by simp, h⟩
    · exact Or.inl (List.mem_cons_of_mem _ h)
  | n + 1, a :: l, x, h => by
    simp only [modifyAt, List.mem_cons] at h
    rcases h with h | h
    · exact Or.inl (by rw [h]; exact List.mem_cons_self _ _)
    · rcases mem_modifyAt f n l x h with h2 | ⟨b, hb, hx⟩
      · exact Or.inl (List.mem_cons_of_mem _ h2)
      · exact Or.inr ⟨b, by simpa using hb, hx⟩

theorem inv_modifyAt (l : List CronJob) (i : Nat) (f : CronJob → CronJob)
    (h : disabledHaveNoNextRun l = true)
    (hf : ∀ j, l[i]? = some j → (f j).enabled = false → (f j).state.nextRunAtMS = none) :
    disabledHaveNoNextRun (modifyAt f i l) = true := by
  rw [inv_iff] at h ⊢
  intro x hx he
  rcases mem_modifyAt f i l x hx with h1 | ⟨a, ha, rfl⟩
  · exact h x h1 he
  · exact hf a ha he

theorem inv_filter (l : List CronJob) (p : CronJob → Bool)
    (h : disabledHaveNoNextRun l = true) : disabledHaveNoNextRun (l.filter p) = true := by
  rw [inv_iff] at h ⊢
  intro x hx he
  exact h x (List.mem_filter.1 hx).1 he

theorem recomputeJobs_inv (z : Zones) (now : Int) (l l1 : List CronJob)
    (h : disabledHaveNoNextRun l = true) (hr : recomputeJobs z now l = some l1) :
    disabledHaveNoNextRun l1 = true := by
  induction l generalizing l1 with
  | nil =>
    simp only [recomputeJobs, Option.some.injEq] at hr
    subst hr
    rfl
  | cons a l ih =>
    rw [inv_iff] at h
    have hl : disabledHaveNoNextRun l = true :=
      (inv_iff l).2 (fun j hj => h j (List.mem_cons_of_mem _ hj))
    cases he : a.enabled with
    | true =>
      simp only [recomputeJobs, he, if_true] at hr
      cases hc : computeNextRun z a.schedule now with
      | none => rw [hc] at hr; exact absurd hr (by simp)
      | some r =>
        rw [hc] at hr
        cases hrest : recomputeJobs z now l with
        | none => rw [hrest] at hr; exact absurd hr (by simp)
        | some l2 =>
          rw [hrest] at hr
          simp only [Option.map_some', Option.some.injEq] at hr
          subst hr
          have := (inv_iff l2).1 (ih l2 hl hrest)
          rw [inv_iff]
          intro x hx hxe
          rcases List.mem_cons.1 hx with rfl | hx2
          · have : (setNextRun r a).enabled = a.enabled := rfl
            rw [this, he] at hxe
            exact absurd hxe (by simp)
          · exact this x hx2 hxe
    | false =>
      simp only [recomputeJobs, he, Bool.false_eq_true, if_false] at hr
      cases hrest : recomputeJobs z now l with
      | none => rw [hrest] at hr; exact absurd hr (by simp)
      | some l2 =>
        rw [hrest] at hr
        simp only [Option.map_some', Option.some.injEq] at hr
        subst hr
        have := (inv_iff l2).1 (ih l2 hl hrest)
        rw [inv_iff]
        intro x hx hxe
        rcases List.mem_cons.1 hx with rfl | hx2
        · exact h x (List.mem_cons_self _ _) hxe
        · exact this x hx2 hxe

theorem jobs_loadStore (cs : CronService) (loaded : List CronJob) :
    (loadStore cs loaded).jobs = loaded := by
  simp [loadStore, CronService.jobs, List.getD_eq_getElem?_getD]

/-- What `AddJob` returns when it returns: the new job is appended, enabled and
scheduled by `computeNextRun`; a job is returned exactly when the write
succeeds. -/
theorem AddJob_spec (z : Zones) (now : Int) (id : String) (w : Bool) (cs : CronService)
    (name : String) (schedule : CronSchedule) (message : String) (deliver : Bool)
    (channel to_ : String) (r : CronService × Option CronJob)
    (h : AddJob z now id w cs name schedule message deliver channel to_ = some r) :
    ∃ job next, computeNextRun z schedule now = some next ∧
      r.1.jobs = cs.jobs ++ [job] ∧ job.id = id ∧ job.enabled = true ∧
      job.schedule = schedule ∧ job.state.nextRunAtMS = next ∧
      r.2 = (if w then some job else none) ∧
      r.1.disk = (if w then cs.jobs ++ [job] else cs.disk) := by
  unfold AddJob at h
  cases hc : computeNextRun z schedule now with
  | none => rw [hc] at h; exact absurd h (by simp)
  | some next =>
    rw [hc] at h
    simp only [Option.some.injEq] at h
    subst h
    refine ⟨CronJob.mk id name true schedule ⟨"agent_turn", message, deliver, channel, to_⟩
      ⟨next, none, "", ""⟩ now now false, next, rfl, ?_, rfl, rfl, rfl, rfl, ?_, ?_⟩
    · rw [jobs_saveStore]
      simp [CronService.jobs, List.getD_eq_getElem?_getD]
    · cases w <;> rfl
    · cases w
      · rfl
      · simp [saveStore, CronService.jobs, List.getD_eq_getElem?_getD]

theorem inv_update (cs : CronService) (p : JobPtr) (f : CronJob → CronJob)
    (h : disabledHaveNoNextRun cs.jobs = true)
    (hf : ∀ j, cs.deref p = some j → (f j).enabled = false → (f j).state.nextRunAtMS = none) :
    disabledHaveNoNextRun (cs.update p f).jobs = true := by
  by_cases hp : p.arr = cs.cur
  · rw [jobs_update _ _ _ hp]
    apply inv_modifyAt _ _ _ h
    intro j hj
    exact hf j (by rw [deref_cur cs p hp]; exact hj)
  · rw [jobs_update_stale _ _ _ hp]
    exact h

/-- Running an enabled job keeps the store invariant. -/
theorem executeJob_inv (z : Zones) (onJob : Option (CronJob → Option String)) (e : ExecEnv)
    (cs cs1 : CronService) (p : JobPtr) (job : CronJob)
    (h : disabledHaveNoNextRun cs.jobs = true) (hj : cs.deref p = some job)
    (hen : job.enabled = true) (hx : executeJob z onJob e cs p = some cs1) :
    disabledHaveNoNextRun cs1.jobs = true := by
  by_cases hk : job.schedule.kind = "at"
  · cases hd : job.deleteAfterRun with
    | true =>
      rw [executeJob_at_delete z onJob e cs p job hj hk hd] at hx
      simp only [Option.some.injEq] at hx
      subst hx
      rw [jobs_removeJobUnsafe]
      apply inv_filter
      apply inv_update _ _ _ h
      intro j hjj he
      rw [hj] at hjj
      simp only [Option.some.injEq] at hjj
      subst hjj
      have : (recordRun e (handlerError onJob job) job).enabled = job.enabled := rfl
      rw [this, hen] at he
      exact absurd he (by simp)
    | false =>
      rw [executeJob_at_keep z onJob e cs p job hj hk hd, update_update] at hx
      simp only [Option.some.injEq] at hx
      subst hx
      apply inv_update _ _ _ h
      intro j _ _
      rfl
  · rw [executeJob_other z onJob e cs p job hj hk] at hx
    cases hc : computeNextRun z job.schedule e.now with
    | none => rw [hc] at hx; exact absurd hx (by simp)
    | some r =>
      rw [hc, Option.map_some', update_update] at hx
      simp only [Option.some.injEq] at hx
      subst hx
      apply inv_update _ _ _ h
      intro j hjj he
      rw [hj] at hjj
      simp only [Option.some.injEq] at hjj
      subst hjj
      have : (setNextRun r (recordRun e (handlerError onJob job) job)).enabled = job.enabled :=
        rfl
      rw [this, hen] at he
      exact absurd he (by simp)

/-- Outside the `at` branch that deletes the job, `executeJob` never writes the
backing file. -/
theorem executeJob_disk_unchanged (z : Zones) (onJob : Option (CronJob → Option String))
    (e : ExecEnv) (cs cs1 : CronService) (p : JobPtr) (job : CronJob)
    (hj : cs.deref p = some job)
    (hb : job.schedule.kind ≠ "at" ∨ job.deleteAfterRun = false)
    (hx : executeJob z onJob e cs p = some cs1) : cs1.disk = cs.disk := by
  by_cases hk : job.schedule.kind = "at"
  · have hd : job.deleteAfterRun = false := by
      rcases hb with h | h
      · exact absurd hk h
      · exact h
    rw [executeJob_at_keep z onJob e cs p job hj hk hd] at hx
    simp only [Option.some.injEq] at hx
    subst hx
    rfl
  · rw [executeJob_other z onJob e cs p job hj hk] at hx
    cases hc : computeNextRun z job.schedule e.now with
    | none => rw [hc] at hx; exact absurd hx (by simp)
    | some r =>
      rw [hc, Option.map_some'] at hx
      simp only [Option.some.injEq] at hx
      subst hx
      rfl

/-- What `EnableJob` returns when it returns, read backwards. -/
theorem EnableJob_cases (z : Zones) (upd now : Int) (w : Bool) (cs : CronService)
    (jobID : String) (enabled : Bool) (r : CronService × Option CronJob)
    (h : EnableJob z upd now w cs jobID enabled = some r) :
    (r = (cs, none) ∧ ∀ j ∈ cs.jobs, j.id ≠ jobID) ∨
    (∃ pre job post next, cs.jobs = pre ++ job :: post ∧ (∀ j ∈ pre, j.id ≠ jobID) ∧
      job.id = jobID ∧
      (if enabled then computeNextRun z job.schedule now else some none) = some next ∧
      r.1.jobs = pre ++ setEnabled enabled upd next job :: post ∧
      r.2 = some (setEnabled enabled upd next job)) := by
  unfold EnableJob at h
  cases hc : enableLoop z upd now jobID enabled cs.jobs with
  | none => rw [hc] at h; exact absurd h (by simp)
  | some r0 =>
    rw [hc] at h
    simp only [Option.map_some', Option.some.injEq] at h
    rcases enableLoop_cases z upd now jobID enabled cs.jobs r0 hc with
      ⟨h1, h2⟩ | ⟨pre, job, post, next, e1, e2, e3, e4, e5⟩
    · left
      subst h1
      exact ⟨h.symm, h2⟩
    · right
      subst e5
      subst h
      refine ⟨pre, job, post, next, e1, e2, e3, e4, ?_, rfl⟩
      rw [jobs_saveStore]
      exact jobs_replace cs _ (by rw [e1]; simp)

/-! ## Digit strings, splitting and trimming -/

theorem parseDigits_digits :
    ∀ (ds : List Char) (acc n : Nat), parseDigits ds acc = some n →
      ∀ c ∈ ds, 48 ≤ c.toNat ∧ c.toNat ≤ 57
  | [], _, _, _ => by simp
  | d :: ds, acc, n, h => by
    intro c hc
    by_cases hd : 48 ≤ d.toNat ∧ d.toNat ≤ 57
    · simp only [parseDigits, if_pos hd] at h
      rcases List.mem_cons.1 hc with rfl | hc2
      · exact hd
      · exact parseDigits_digits ds _ n h c hc2
    · simp only [parseDigits, if_neg hd] at h
      exact absurd h (by simp)

theorem digit_not_space (c : Char) (h : 48 ≤ c.toNat ∧ c.toNat ≤ 57) : isSpace c = false := by
  simp only [isSpace, Bool.or_eq_false_iff, Bool.and_eq_false_iff, decide_eq_false_iff_not,
    beq_eq_false_iff_ne, ne_eq]
  omega

theorem digit_ne (c d : Char) (h : 48 ≤ c.toNat ∧ c.toNat ≤ 57)
    (hd : d.toNat < 48 ∨ 57 < d.toNat) : c ≠ d := by
  intro e
  rw [e] at h
  omega

/-- The function `strconv.Atoi` on a string of decimal digits. -/
theorem atoi_digits (ds : List Char) (n : Nat) (hne : ds ≠ [])
    (h : parseDigits ds 0 = some n) :
    atoi ds = if n < 9223372036854775808 then some (n : Int) else none := by
  cases ds with
  | nil => exact absurd rfl hne
  | cons c rest =>
    have hc := parseDigits_digits _ _ _ h c (List.mem_cons_self _ _)
    have h1 : c ≠ '-' := digit_ne c '-' hc (by decide)
    have h2 : c ≠ '+' := digit_ne c '+' hc (by decide)
    simp only [atoi, h1, h2, or_self, if_false, decide_False, List.isEmpty_cons,
      Bool.false_eq_true, h]

/-- The function `strconv.Atoi` on a minus sign followed by decimal digits. -/
theorem atoi_neg_digits (ds : List Char) (n : Nat) (hne : ds ≠ [])
    (h : parseDigits ds 0 = some n) :
    atoi ('-' :: ds) = if n ≤ 9223372036854775808 then some (-(n : Int)) else none := by
  cases ds with
  | nil => exact absurd rfl hne
  | cons c rest =>
    simp only [atoi, true_or, if_true, decide_True, List.isEmpty_cons, Bool.false_eq_true,
      if_false, h]

theorem splitCommaGo_no_comma :
    ∀ (s cur : List Char), ',' ∉ s → splitCommaGo cur s = [cur ++ s]
  | [], cur, _ => by simp [splitCommaGo]
  | c :: cs, cur, h => by
    have hc : c ≠ ',' := fun e => h (by rw [e]; exact List.mem_cons_self _ _)
    have hcs : ',' ∉ cs := fun e => h (List.mem_cons_of_mem _ e)
    simp only [splitCommaGo, if_neg hc, splitCommaGo_no_comma cs _ hcs, List.append_assoc,
      List.singleton_append]

theorem splitComma_no_comma (s : List Char) (h : ',' ∉ s) : splitComma s = [s] := by
  simp only [splitComma, splitCommaGo_no_comma s [] h, List.nil_append]

theorem splitCommaGo_append :
    ∀ (a b cur : List Char),
      splitCommaGo cur (a ++ ',' :: b) = splitCommaGo cur a ++ splitCommaGo [] b
  | [], b, cur => by simp [splitCommaGo]
  | c :: cs, b, cur => by
    have e1 := splitCommaGo_append cs b []
    have e2 := splitCommaGo_append cs b (cur ++ [c])
    show splitCommaGo cur (c :: (cs ++ ',' :: b)) = _
    by_cases hc : c = ','
    · rw [splitCommaGo, if_pos hc, e1, splitCommaGo, if_pos hc]
      rfl
    · rw [splitCommaGo, if_neg hc, e2, splitCommaGo, if_neg hc]

/-- Splitting `a,b` at the commas gives the parts of `a` followed by those of `b`. -/
theorem splitComma_append (a b : List Char) :
    splitComma (a ++ ',' :: b) = splitComma a ++ splitComma b :=
  splitCommaGo_append a b []

theorem splitCommaGo_ne_nil : ∀ (s cur : List Char), splitCommaGo cur s ≠ []
  | [], _ => by simp [splitCommaGo]
  | c :: cs, cur => by
    by_cases hc : c = ','
    · simp [splitCommaGo, hc]
    · simp only [splitCommaGo, if_neg hc]
      exact splitCommaGo_ne_nil cs _

theorem dropWhile_none {α : Type} (p : α → Bool) :
    ∀ l : List α, (∀ c ∈ l, p c = false) → l.dropWhile p = l
  | [], _ => rfl
  | c :: cs, h => by
    simp [List.dropWhile, h c (List.mem_cons_self _ _)]

theorem trimSpace_none (s : List Char) (h : ∀ c ∈ s, isSpace c = false) : trimSpace s = s := by
  simp only [trimSpace]
  rw [dropWhile_none isSpace s h,
    dropWhile_none isSpace s.reverse (fun c hc => h c (List.mem_reverse.1 hc)),
    List.reverse_reverse]

/-! ## The counting loop -/

/-- A counting loop that cannot overflow returns the arithmetic progression
from `i` in steps of `step` up to `b`. -/
theorem countLoop_progression (b step : Int) (hs : 0 < step)
    (hb : b + step ≤ 9223372036854775807) :
    ∀ (n fuel : Nat) (i : Int), -9223372036854775808 ≤ i → b - i < n * step → n < fuel →
      ∃ l, countLoop b step fuel i = some l ∧
        ∀ v, v ∈ l ↔ ∃ k : Nat, v = i + k * step ∧ v ≤ b := by
  intro n
  induction n with
  | zero =>
    intro fuel i _ h hf
    obtain ⟨f, rfl⟩ : ∃ f, fuel = f + 1 := ⟨fuel - 1, by omega⟩
    have hi : ¬ i ≤ b := by push_cast at h; omega
    refine ⟨[], by simp only [countLoop, if_neg hi], ?_⟩
    intro v
    simp only [List.not_mem_nil, false_iff, not_exists, not_and]
    intro k hk
    have : 0 ≤ (k : Int) * step := by positivity
    omega
  | succ m ih =>
    intro fuel i hlo h hf
    obtain ⟨f, rfl⟩ : ∃ f, fuel = f + 1 := ⟨fuel - 1, by omega⟩
    by_cases hi : i ≤ b
    · have hw : wrap64 (i + step) = i + step := wrap64_id _ (by omega) (by omega)
      have hlt : b - (i + step) < m * step := by
        push_cast at h
        have : ((m : Int) + 1) * step = m * step + step := by ring
        omega
      obtain ⟨l, hl, hmem⟩ := ih f (i + step) (by omega) hlt (by omega)
      refine ⟨i :: l, by simp only [countLoop, if_pos hi, hw, hl, Option.map_some'], ?_⟩
      intro v
      simp only [List.mem_cons, hmem]
      constructor
      · rintro (rfl | ⟨k, hk, hvb⟩)
        · exact ⟨0, by simp, hi⟩
        · exact ⟨k + 1, by rw [hk]; push_cast; ring, hvb⟩
      · rintro ⟨k, hk, hvb⟩
        cases k with
        | zero => left; simpa using hk
        | succ j => right; exact ⟨j, by rw [hk]; push_cast; ring, hvb⟩
    · refine ⟨[], by simp only [countLoop, if_neg hi], ?_⟩
      intro v
      simp only [List.not_mem_nil, false_iff, not_exists, not_and]
      intro k hk
      have : 0 ≤ (k : Int) * step := by positivity
      omega

/-- The counting loop with the fuel of the model, when nothing overflows. -/
theorem countLoop_loopFuel (b step i : Int) (hs : 0 < step)
    (hb : b + step ≤ 9223372036854775807) (hi : -9223372036854775808 ≤ i) :
    ∃ l, countLoop b step loopFuel i = some l ∧
      ∀ v, v ∈ l ↔ ∃ k : Nat, v = i + k * step ∧ v ≤ b := by
  apply countLoop_progression b step hs hb (b - i + 1).toNat loopFuel i hi
  · by_cases h : b < i
    · have : 0 ≤ (((b - i + 1).toNat : Nat) : Int) * step := by positivity
      omega
    · have e : (((b - i + 1).toNat : Nat) : Int) = b - i + 1 := by omega
      rw [e]
      nlinarith
  · simp only [loopFuel]
    omega

theorem countLoop_head (b step : Int) (fuel : Nat) (i : Int) (l : List Int)
    (hi : i ≤ b) (h : countLoop b step fuel i = some l) : l ≠ [] := by
  cases fuel with
  | zero => simp [countLoop] at h
  | succ f =>
    simp only [countLoop, if_pos hi] at h
    cases hc : countLoop b step f (wrap64 (i + step)) with
    | none => rw [hc] at h; exact absurd h (by simp)
    | some r =>
      rw [hc] at h
      simp only [Option.map_some', Option.some.injEq] at h
      rw [← h]
      simp

/-! ## The parts of a cron field -/

theorem parsePart_step (rest : List Char) (min max : Int) :
    parsePart ('*' :: '/' :: rest) min max =
      match atoi rest with
      | none => some none
      | some step =>
        if step ≤ 0 then some none else (countLoop max step loopFuel min).map some := by
  cases h : atoi rest <;> simp only [parsePart, h]

theorem parsePart_range_bad (part : List Char) (min max : Int)
    (h1 : part.take 2 ≠ ['*', '/']) (h2 : part ≠ ['*']) (h3 : '-' ∈ part)
    (hbad : atoi (part.takeWhile (fun c => c != '-')) = none ∨
      atoi ((part.dropWhile (fun c => c != '-')).drop 1) = none ∨
      ∃ lo hi, atoi (part.takeWhile (fun c => c != '-')) = some lo ∧
        atoi ((part.dropWhile (fun c => c != '-')).drop 1) = some hi ∧ lo > hi) :
    parsePart part min max = some none := by
  unfold parsePart
  split
  · next rest => exact absurd rfl h1
  · rw [if_neg h2, if_pos h3]
    rcases hbad with h | h | ⟨lo, hi, hlo, hhi, hgt⟩
    · rw [h]
    · rw [h]
      cases atoi (part.takeWhile (fun c => c != '-')) <;> rfl
    · rw [hlo, hhi]
      simp only [if_pos hgt]

theorem parsePart_single (part : List Char) (min max : Int)
    (h1 : part.take 2 ≠ ['*', '/']) (h2 : part ≠ ['*']) (h3 : '-' ∉ part) :
    parsePart part min max =
      match atoi part with
      | none => some none
      | some val => some (some [val]) := by
  unfold parsePart
  split
  · next rest => exact absurd rfl h1
  · rw [if_neg h2, if_neg h3]

/-- With `min ≤ max` a part that parses adds at least one value. -/
theorem parsePart_nonempty (part : List Char) (min max : Int) (vs : List Int)
    (hmm : min ≤ max) (h : parsePart part min max = some (some vs)) : vs ≠ [] := by
  unfold parsePart at h
  split at h
  · next rest =>
    split at h
    · exact absurd h (by simp)
    · next step hstep =>
      split at h
      · exact absurd h (by simp)
      · cases hc : countLoop max step loopFuel min with
        | none => rw [hc] at h; exact absurd h (by simp)
        | some l =>
          rw [hc] at h
          simp only [Option.map_some', Option.some.injEq] at h
          rw [← h]
          exact countLoop_head max step loopFuel min l hmm hc
  · split at h
    · cases hc : countLoop max 1 loopFuel min with
      | none => rw [hc] at h; exact absurd h (by simp)
      | some l =>
        rw [hc] at h
        simp only [Option.map_some', Option.some.injEq] at h
        rw [← h]
        exact countLoop_head max 1 loopFuel min l hmm hc
    · split at h
      · split at h
        · next lo hi hlo hhi =>
          split at h
          · exact absurd h (by simp)
          · next hle =>
            cases hc : countLoop hi 1 loopFuel lo with
            | none => rw [hc] at h; exact absurd h (by simp)
            | some l =>
              rw [hc] at h
              simp only [Option.map_some', Option.some.injEq] at h
              rw [← h]
              exact countLoop_head hi 1 loopFuel lo l (by omega) hc
        · exact absurd h (by simp)
      · split at h
        · exact absurd h (by simp)
        · simp only [Option.some.injEq] at h
          rw [← h]
          simp

/-! ## The loop over the parts -/

theorem parseParts_collect (min max : Int) :
    ∀ (ps : List (List Char)) (acc : List Int),
      parseParts min max ps acc =
        (collectParts min max ps acc).map
          (fun r => r.bind (fun s => if s.isEmpty then none else some s))
  | [], acc => by
    simp only [parseParts, collectParts, Option.map_some', Option.some_bind]
  | p :: ps, acc => by
    simp only [parseParts, collectParts]
    cases h : parsePart (trimSpace p) min max with
    | none => rfl
    | some r =>
      cases r with
      | none => rfl
      | some vs => exact parseParts_collect min max ps (acc ++ vs)

theorem collectParts_append (min max : Int) :
    ∀ (ps qs : List (List Char)) (acc : List Int),
      collectParts min max (ps ++ qs) acc =
        match collectParts min max ps acc with
        | none => none
        | some none => some none
        | some (some r) => collectParts min max qs r
  | [], qs, acc => by simp only [List.nil_append, collectParts]
  | p :: ps, qs, acc => by
    simp only [List.cons_append, collectParts]
    cases h : parsePart (trimSpace p) min max with
    | none => rfl
    | some r =>
      cases r with
      | none => rfl
      | some vs => exact collectParts_append min max ps qs (acc ++ vs)

theorem collectParts_acc (min max : Int) :
    ∀ (ps : List (List Char)) (acc : List Int),
      collectParts min max ps acc =
        (collectParts min max ps []).map (fun r => r.map (fun d => acc ++ d))
  | [], acc => by simp [collectParts]
  | p :: ps, acc => by
    simp only [collectParts, List.nil_append]
    cases h : parsePart (trimSpace p) min max with
    | none => rfl
    | some r =>
      cases r with
      | none => rfl
      | some vs =>
        simp only
        rw [collectParts_acc min max ps (acc ++ vs), collectParts_acc min max ps vs]
        cases collectParts min max ps [] with
        | none => rfl
        | some r2 =>
          cases r2 with
          | none => rfl
          | some d => simp

theorem collectParts_nonempty (min max : Int) (hmm : min ≤ max) :
    ∀ (ps : List (List Char)) (acc d : List Int), ps ≠ [] →
      collectParts min max ps acc = some (some d) → d ≠ []
  | [], _, _, h, _ => absurd rfl h
  | p :: ps, acc, d, _, h => by
    simp only [collectParts] at h
    cases hp : parsePart (trimSpace p) min max with
    | none => rw [hp] at h; exact absurd h (by simp)
    | some r =>
      cases r with
      | none => rw [hp] at h; exact absurd h (by simp)
      | some vs =>
        rw [hp] at h
        simp only at h
        have hvs := parsePart_nonempty _ min max vs hmm hp
        rw [collectParts_acc] at h
        cases hc : collectParts min max ps [] with
        | none => rw [hc] at h; exact absurd h (by simp)
        | some r2 =>
          cases r2 with
          | none => rw [hc] at h; exact absurd h (by simp)
          | some d2 =>
            rw [hc] at h
            simp only [Option.map_some', Option.some.injEq] at h
            rw [← h]
            simp [hvs]

/-- With `min ≤ max`, what `parseCronField` returns in terms of the parts
collected: a set is the collected keys, and `nil` means a part was invalid. -/
theorem parseCronField_collect (field : List Char) (min max : Int) (hmm : min ≤ max) :
    (∀ s, parseCronField field min max = some (some s) ↔
      collectParts min max (splitComma field) [] = some (some s)) ∧
    (parseCronField field min max = some none ↔
      collectParts min max (splitComma field) [] = some none) := by
  unfold parseCronField
  rw [parseParts_collect]
  have hne : splitComma field ≠ [] := splitCommaGo_ne_nil field []
  cases hc : collectParts min max (splitComma field) [] with
  | none => simp
  | some r =>
    cases r with
    | none => simp
    | some d =>
      have hd := collectParts_nonempty min max hmm _ _ d hne hc
      have he : d.isEmpty = false := by
        cases d with
        | nil => exact absurd rfl hd
        | cons _ _ => rfl
      simp [he, hd]

/-! ## Fields of one part -/

theorem takeWhile_append_stop {α : Type} (p : α → Bool) (x : α) (r : List α) (hx : p x = false) :
    ∀ l : List α, (∀ c ∈ l, p c = true) →
      (l ++ x :: r).takeWhile p = l ∧ (l ++ x :: r).dropWhile p = x :: r
  | [], _ => by simp [List.takeWhile, List.dropWhile, hx]
  | c :: cs, h => by
    have hc := h c (List.mem_cons_self _ _)
    obtain ⟨h1, h2⟩ := takeWhile_append_stop p x r hx cs
      (fun d hd => h d (List.mem_cons_of_mem _ hd))
    simp [List.takeWhile, List.dropWhile, hc, h1, h2]

/-- A field that is one part: no comma and no space in it. -/
theorem parseCronField_one_part (field : List Char) (min max : Int)
    (h1 : ',' ∉ field) (h2 : ∀ c ∈ field, isSpace c = false) :
    parseCronField field min max =
      (parsePart field min max).map
        (fun r => r.bind (fun vs => if vs.isEmpty then none else some vs)) :=
  parseCronField_single field min max (splitComma_no_comma field h1) (trimSpace_none field h2)

theorem digits_no_comma (ds : List Char) (h : ∀ c ∈ ds, 48 ≤ c.toNat ∧ c.toNat ≤ 57) :
    ',' ∉ ds := fun hm => by
  have := h ',' hm
  revert this
  decide

theorem digits_no_minus (ds : List Char) (h : ∀ c ∈ ds, 48 ≤ c.toNat ∧ c.toNat ≤ 57) :
    '-' ∉ ds := fun hm => by
  have := h '-' hm
  revert this
  decide

theorem digits_head (ds : List Char) (h : ∀ c ∈ ds, 48 ≤ c.toNat ∧ c.toNat ≤ 57)
    (hne : ds ≠ []) (tail : List Char) :
    (ds ++ tail).take 2 ≠ ['*', '/'] ∧ ds ++ tail ≠ ['*'] := by
  cases ds with
  | nil => exact absurd rfl hne
  | cons c cs =>
    have hc := h c (List.mem_cons_self _ _)
    have hne : c ≠ '*' := digit_ne c '*' hc (by decide)
    constructor
    · intro e
      cases hl : cs ++ tail with
      | nil => simp [hl] at e
      | cons d l =>
        simp only [List.cons_append, hl, List.take_succ_cons, List.cons.injEq] at e
        exact hne e.1
    · intro e
      simp only [List.cons_append, List.cons.injEq] at e
      exact hne e.1

/-- A field that is one non-negative decimal number: the one-element set of
its value when the value fits an `int`, `nil` otherwise. No bound is looked at. -/
theorem parseCronField_number (ds : List Char) (n : Nat) (min max : Int) (hne : ds ≠ [])
    (h : parseDigits ds 0 = some n) :
    parseCronField ds min max =
      if n < 9223372036854775808 then some (some [(n : Int)]) else some none := by
  have hd := parseDigits_digits ds 0 n h
  have hh := digits_head ds hd hne []
  rw [List.append_nil] at hh
  rw [parseCronField_one_part ds min max (digits_no_comma ds hd)
      (fun c hc => digit_not_space c (hd c hc)),
    parsePart_single ds min max hh.1 hh.2 (digits_no_minus ds hd), atoi_digits ds n hne h]
  by_cases hn : n < 9223372036854775808
  · simp only [if_pos hn]
    rfl
  · simp only [if_neg hn]
    rfl

/-- A field that starts with a minus sign is read as a range without a lower
end: `nil`. -/
theorem parseCronField_negative (ds : List Char) (min max : Int)
    (h : ∀ c ∈ ds, 48 ≤ c.toNat ∧ c.toNat ≤ 57) :
    parseCronField ('-' :: ds) min max = some none := by
  have hcomma : ',' ∉ '-' :: ds := by
    intro hm
    rcases List.mem_cons.1 hm with e | e
    · exact absurd e (by decide)
    · exact digits_no_comma ds h e
  have hspace : ∀ c ∈ '-' :: ds, isSpace c = false := by
    intro c hc
    rcases List.mem_cons.1 hc with rfl | e
    · decide
    · exact digit_not_space c (h c e)
  rw [parseCronField_one_part _ min max hcomma hspace,
    parsePart_range_bad ('-' :: ds) min max (by simp) (by simp) (List.mem_cons_self _ _)
      (Or.inl (by simp [List.takeWhile, atoi]))]
  rfl

theorem AddJob_returns (z : Zones) (now : Int) (id : String) (w : Bool) (cs : CronService)
    (name : String) (schedule : CronSchedule) (message : String) (deliver : Bool)
    (channel to_ : String) (next : Option Int)
    (h : computeNextRun z schedule now = some next) :
    ∃ r, AddJob z now id w cs name schedule message deliver channel to_ = some r := by
  unfold AddJob
  rw [h]
  exact ⟨_, rfl⟩

/-- A field `*/rest` without comma and space: one part, read as a step. -/
theorem parseCronField_step (rest : List Char) (min max : Int)
    (h1 : ',' ∉ rest) (h2 : ∀ c ∈ rest, isSpace c = false) :
    parseCronField ('*' :: '/' :: rest) min max =
      Option.map
        (fun (r : Option (List Int)) => r.bind (fun vs => if vs.isEmpty then none else some vs))
        (match atoi rest with
          | none => some none
          | some step =>
            if step ≤ 0 then some none else (countLoop max step loopFuel min).map some) := by
  have hcomma : ',' ∉ '*' :: '/' :: rest := by
    intro hm
    rcases List.mem_cons.1 hm with e | e
    · exact absurd e (by decide)
    · rcases List.mem_cons.1 e with e2 | e2
      · exact absurd e2 (by decide)
      · exact h1 e2
  have hspace : ∀ c ∈ '*' :: '/' :: rest, isSpace c = false := by
    intro c hc
    rcases List.mem_cons.1 hc with rfl | e
    · decide
    · rcases List.mem_cons.1 e with rfl | e2
      · decide
      · exact h2 c e2
  rw [parseCronField_one_part _ min max hcomma hspace, parsePart_step]

/-- The range of C7 does not return as a part either, for any bounds. -/
theorem parsePart_hang (min max : Int) :
    parsePart "0-9223372036854775807".data min max = none := by
  have h := parsePart_range "0-9223372036854775807".data min max 0 9223372036854775807
    (by decide) (by decide) (by decide) (by decide) (by decide) (by decide)
  rw [countLoop_maxInt 1 loopFuel 0 (by decide)] at h
  exact h

theorem parseParts_first_hangs (min max : Int) (p : List Char) (ps : List (List Char))
    (acc : List Int) (h : parsePart (trimSpace p) min max = none) :
    parseParts min max (p :: ps) acc = none := by
  simp only [parseParts, h]

/-- A comma-separated list `a,b` with `min ≤ max`: the keys of both when both
are sets; `nil` when `a` is `nil`, and when `a` is a set and `b` is `nil`. -/
theorem parseCronField_comma (a b : List Char) (min max : Int) (hmm : min ≤ max) :
    (∀ sa sb, parseCronField a min max = some (some sa) →
      parseCronField b min max = some (some sb) →
      parseCronField (a ++ ',' :: b) min max = some (some (sa ++ sb))) ∧
    (parseCronField a min max = some none →
      parseCronField (a ++ ',' :: b) min max = some none) ∧
    (∀ sa, parseCronField a min max = some (some sa) →
      parseCronField b min max = some none →
      parseCronField (a ++ ',' :: b) min max = some none) := by
  obtain ⟨a1, a2⟩ := parseCronField_collect a min max hmm
  obtain ⟨b1, b2⟩ := parseCronField_collect b min max hmm
  obtain ⟨c1, c2⟩ := parseCronField_collect (a ++ ',' :: b) min max hmm
  rw [splitComma_append] at c1 c2
  refine ⟨?_, ?_, ?_⟩
  · intro sa sb ha hb
    apply (c1 _).2
    rw [collectParts_append, (a1 sa).1 ha]
    simp only []
    rw [collectParts_acc, (b1 sb).1 hb]
    rfl
  · intro ha
    apply c2.2
    rw [collectParts_append, a2.1 ha]
  · intro sa ha hb
    apply c2.2
    rw [collectParts_append, (a1 sa).1 ha]
    simp only []
    rw [collectParts_acc, b2.1 hb]
    rfl

/-- Five fields whose `parseCronField` calls all return, one of them with a set
that holds no value inside the bounds of the field: in no location does
`nextCronTime` return a time. -/
theorem nextCronTime_out_of_bounds_never (loc : Location) (expr : List Char) (after t : Int)
    (f0 f1 f2 f3 f4 : List Char) (r0 r1 r2 r3 r4 : Option (List Int))
    (hf : fields expr = [f0, f1, f2, f3, f4])
    (p0 : parseCronField f0 0 59 = some r0) (p1 : parseCronField f1 0 23 = some r1)
    (p2 : parseCronField f2 1 31 = some r2) (p3 : parseCronField f3 1 12 = some r3)
    (p4 : parseCronField f4 0 6 = some r4)
    (hout : (∃ mi, r0 = some mi ∧ ∀ v ∈ mi, v < 0 ∨ 59 < v) ∨
      (∃ ho, r1 = some ho ∧ ∀ v ∈ ho, v < 0 ∨ 23 < v) ∨
      (∃ dom, r2 = some dom ∧ ∀ v ∈ dom, v < 1 ∨ 31 < v) ∨
      (∃ mo, r3 = some mo ∧ ∀ v ∈ mo, v < 1 ∨ 12 < v) ∨
      (∃ dow, r4 = some dow ∧ ∀ v ∈ dow, v < 0 ∨ 6 < v)) :
    nextCronTime loc expr after ≠ some (some t) := by
  by_cases hb : r0 = none ∨ r1 = none ∨ r2 = none ∨ r3 = none ∨ r4 = none
  · rw [nextCronTime_bad_field loc expr after f0 f1 f2 f3 f4 r0 r1 r2 r3 r4 hf p0 p1 p2 p3 p4 hb]
    simp
  · simp only [not_or] at hb
    obtain ⟨b0, b1, b2, b3, b4⟩ := hb
    obtain ⟨mi, rfl⟩ := Option.ne_none_iff_exists'.1 b0
    obtain ⟨ho, rfl⟩ := Option.ne_none_iff_exists'.1 b1
    obtain ⟨dom, rfl⟩ := Option.ne_none_iff_exists'.1 b2
    obtain ⟨mo, rfl⟩ := Option.ne_none_iff_exists'.1 b3
    obtain ⟨dow, rfl⟩ := Option.ne_none_iff_exists'.1 b4
    have hp : parseCronExpr expr = some (some ⟨mi, ho, dom, mo, dow⟩) :=
      (parseCronExpr_some _ ⟨mi, ho, dom, mo, dow⟩).2
        ⟨f0, f1, f2, f3, f4, hf, p0, p1, p2, p3, p4⟩
    apply nextCronTime_never_of_no_match loc expr after t _ hp
    apply cronMatch_out_of_bounds
    simpa only [Option.some.injEq, exists_eq_left'] using hout

/-- Five fields whose `parseCronField` calls all return, one of them with a set
that holds no value inside the bounds of the field: in a location with a fixed
offset of whole minutes `nextCronTime` returns `nil` for every start time. -/
theorem nextCronTime_out_of_bounds (loc : Location) (hfix : loc.tx = [])
    (hoff : loc.first % 60 = 0) (expr : List Char) (after : Int)
    (f0 f1 f2 f3 f4 : List Char) (r0 r1 r2 r3 r4 : Option (List Int))
    (hf : fields expr = [f0, f1, f2, f3, f4])
    (p0 : parseCronField f0 0 59 = some r0) (p1 : parseCronField f1 0 23 = some r1)
    (p2 : parseCronField f2 1 31 = some r2) (p3 : parseCronField f3 1 12 = some r3)
    (p4 : parseCronField f4 0 6 = some r4)
    (hout : (∃ mi, r0 = some mi ∧ ∀ v ∈ mi, v < 0 ∨ 59 < v) ∨
      (∃ ho, r1 = some ho ∧ ∀ v ∈ ho, v < 0 ∨ 23 < v) ∨
      (∃ dom, r2 = some dom ∧ ∀ v ∈ dom, v < 1 ∨ 31 < v) ∨
      (∃ mo, r3 = some mo ∧ ∀ v ∈ mo, v < 1 ∨ 12 < v) ∨
      (∃ dow, r4 = some dow ∧ ∀ v ∈ dow, v < 0 ∨ 6 < v)) :
    nextCronTime loc expr after = some none := by
  by_cases hb : r0 = none ∨ r1 = none ∨ r2 = none ∨ r3 = none ∨ r4 = none
  · exact nextCronTime_bad_field loc expr after f0 f1 f2 f3 f4 r0 r1 r2 r3 r4 hf p0 p1 p2 p3 p4 hb
  · simp only [not_or] at hb
    obtain ⟨b0, b1, b2, b3, b4⟩ := hb
    obtain ⟨mi, rfl⟩ := Option.ne_none_iff_exists'.1 b0
    obtain ⟨ho, rfl⟩ := Option.ne_none_iff_exists'.1 b1
    obtain ⟨dom, rfl⟩ := Option.ne_none_iff_exists'.1 b2
    obtain ⟨mo, rfl⟩ := Option.ne_none_iff_exists'.1 b3
    obtain ⟨dow, rfl⟩ := Option.ne_none_iff_exists'.1 b4
    have hp : parseCronExpr expr = some (some ⟨mi, ho, dom, mo, dow⟩) :=
      (parseCronExpr_some _ ⟨mi, ho, dom, mo, dow⟩).2
        ⟨f0, f1, f2, f3, f4, hf, p0, p1, p2, p3, p4⟩
    apply nextCronTime_none_of_no_match loc hfix hoff expr after _ hp
    apply cronMatch_out_of_bounds
    simpa only [Option.some.injEq, exists_eq_left'] using hout

/-- A `cron` schedule whose `tz` resolves is evaluated in the location it
names. -/
theorem computeNextRun_cron_tz (z : Zones) (s : CronSchedule) (nowMS : Int) (l : Location)
    (hk : s.kind = "cron") (he : s.expr ≠ "") (htz : s.tz ≠ "")
    (hl : z.load s.tz = some l) :
    computeNextRun z s nowMS =
      (nextCronTime l s.expr.data (nowMS * 1000000)).map
        (Option.map (fun t => wrap64 (t / 1000000))) := by
  have h1 : ¬ s.kind = "at" := by rw [hk]; decide
  have h2 : ¬ s.kind = "every" := by rw [hk]; decide
  unfold computeNextRun
  rw [if_neg h1, if_neg h2, if_pos ⟨hk, he⟩]
  simp only [if_pos htz, hl]
  cases nextCronTime l s.expr.data (nowMS * 1000000) with
  | none => rfl
  | some r =>
    cases r with
    | none => rfl
    | some t => rfl

/-- A `cron` schedule with `tz` = `America/New_York` and the expression
`0 24 * * *`, whose hour is outside the bounds, at 2026-03-08 00:30 EST: the
search loop is stuck at the gap, so `computeNextRun` does not return. -/
theorem computeNextRun_gap_hangs :
    computeNextRun withNewYork ⟨"cron", none, none, "0 24 * * *", "America/New_York"⟩
      1772947800000 = none := by
  have hp : parseCronExpr "0 24 * * *".data
      = some (some ⟨[0], [24], (countLoop 31 1 loopFuel 1).getD [],
          [1, 2, 3, 4, 5, 6, 7, 8, 9, 10, 11, 12], [0, 1, 2, 3, 4, 5, 6]⟩) := by
    decide
  have hstuck := cronLoop_gap_stuck 24 (by decide) (by decide) searchFuel
  have hn : nextCronTime newYork "0 24 * * *".data 1772947800000000000 = none := by
    unfold nextCronTime
    rw [hp]
    exact hstuck
  have e : (1772947800000 : Int) * 1000000 = 1772947800000000000 := by decide
  have key := computeNextRun_cron_tz withNewYork
    ⟨"cron", none, none, "0 24 * * *", "America/New_York"⟩ 1772947800000 newYork rfl
    (by decide) (by decide) (by decide)
  rw [e] at key
  rw [key]
  exact congrArg (Option.map (Option.map (fun t => wrap64 (t / 1000000)))) hn

/-- C11, as stated, fails: loading a backing file that holds a disabled job with
a `nextRunAt` puts that job into the store, and `recomputeNextRuns`, which only
looks at enabled jobs, leaves it as it is. -/
theorem C11_counterexample :
    (recomputeNextRuns utc 7 (loadStore (oneJob (atJob "A" true)) [staleDisabledJob])).map
        (fun cs => cs.jobs.map scheduleView) = some [("D", false, some 5)] ∧
    (recomputeNextRuns utc 7 (loadStore (oneJob (atJob "A" true)) [staleDisabledJob])).map
        (fun cs => disabledHaveNoNextRun cs.jobs) = some false := by
  decide

/-- C11, amended: from a store in which every disabled job has no `nextRunAt`,
each of `recomputeNextRuns`, `AddJob`, `RemoveJob`, `EnableJob` and the run of an
enabled job leads to such a store again; loading installs the jobs of the
backing file as they are, so it leads to such a store when the file's jobs
have the property. -/
theorem C11_invariant_preserved (z : Zones) (cs : CronService)
    (h : disabledHaveNoNextRun cs.jobs = true) :
    (∀ loaded, (loadStore cs loaded).jobs = loaded) ∧
    (∀ now cs1, recomputeNextRuns z now cs = some cs1 →
      disabledHaveNoNextRun cs1.jobs = true) ∧
    (∀ now id w name schedule message deliver channel to_ r,
      AddJob z now id w cs name schedule message deliver channel to_ = some r →
      disabledHaveNoNextRun r.1.jobs = true) ∧
    (∀ jobID w, disabledHaveNoNextRun (RemoveJob cs jobID w).1.jobs = true) ∧
    (∀ upd now w jobID enabled r, EnableJob z upd now w cs jobID enabled = some r →
      disabledHaveNoNextRun r.1.jobs = true) ∧
    (∀ onJob e p job cs1, cs.deref p = some job → job.enabled = true →
      executeJob z onJob e cs p = some cs1 → disabledHaveNoNextRun cs1.jobs = true) := by
  refine ⟨jobs_loadStore cs, ?_, ?_, ?_, ?_, ?_⟩
  · intro now cs1 hr
    unfold recomputeNextRuns at hr
    cases hc : recomputeJobs z now cs.jobs with
    | none => rw [hc] at hr; exact absurd hr (by simp)
    | some l1 =>
      rw [hc] at hr
      simp only [Option.map_some', Option.some.injEq] at hr
      subst hr
      rcases jobs_replace_or cs l1 with e | e
      · rw [e]; exact recomputeJobs_inv z now _ _ h hc
      · rw [e]; rfl
  · intro now id w name schedule message deliver channel to_ r hr
    obtain ⟨job, next, _, hjobs, _, hen, _⟩ :=
      AddJob_spec z now id w cs name schedule message deliver channel to_ r hr
    rw [hjobs, inv_iff]
    intro j hj he
    rcases List.mem_append.1 hj with h1 | h1
    · exact (inv_iff _).1 h j h1 he
    · simp only [List.mem_singleton] at h1
      subst h1
      rw [hen] at he
      exact absurd he (by simp)
  · intro jobID w
    unfold RemoveJob
    rw [jobs_removeJobUnsafe]
    exact inv_filter _ _ h
  · intro upd now w jobID enabled r hr
    rcases EnableJob_cases z upd now w cs jobID enabled r hr with
      ⟨h1, _⟩ | ⟨pre, job, post, next, e1, _, _, e4, e5, _⟩
    · rw [h1]; exact h
    · rw [e5, inv_iff]
      rw [e1, inv_iff] at h
      intro j hj he
      rcases List.mem_append.1 hj with h1 | h1
      · exact h j (List.mem_append_left _ h1) he
      · rcases List.mem_cons.1 h1 with h2 | h2
        · subst h2
          cases enabled with
          | false =>
            simp only [Bool.false_eq_true, if_false, Option.some.injEq] at e4
            subst e4
            rfl
          | true => exact absurd he (by simp [setEnabled])
        · exact h j (List.mem_append_right _ (List.mem_cons_of_mem _ h2)) he
  · intro onJob e p job cs1 hj hen hx
    exact executeJob_inv z onJob e cs cs1 p job h hj hen hx

/-- C11 at a concrete input: disabling job `E` leaves a store with the property. -/
theorem C11_witness :
    ∃ r, EnableJob utc 1 2 true (oneJob (everyJob "E" 60000)) "E" false = some r ∧
      disabledHaveNoNextRun r.1.jobs = true := by
  cases h : EnableJob utc 1 2 true (oneJob (everyJob "E" 60000)) "E" false with
  | none => exact absurd h (by decide)
  | some r =>
    exact ⟨r, rfl,
      (C11_invariant_preserved utc (oneJob (everyJob "E" 60000)) (by decide)).2.2.2.2.1
        1 2 true "E" false r h⟩

/-- C12 fails on the code: the store and the backing file agree, then an `every`
job (and likewise an `at` job that is kept) is run with writes that succeed.
The store gets the new `lastRunAt`, status, `updatedAt`, enabled flag and
`nextRunAt`; the backing file still holds the old job, because these branches
of `executeJob` never call `saveStore`. -/
theorem C12_run_not_persisted :
    (syncedJob (everyJob "E" 60000)).disk = (syncedJob (everyJob "E" 60000)).jobs ∧
    (executeJob utc none ⟨10, 11, 12, true⟩ (syncedJob (everyJob "E" 60000)) ⟨0, 0⟩).map
        (fun cs => cs.jobs.map runView) = some [⟨some 10, "ok", 11, true, some 60012⟩] ∧
    (executeJob utc none ⟨10, 11, 12, true⟩ (syncedJob (everyJob "E" 60000)) ⟨0, 0⟩).map
        (fun cs => cs.disk.map runView) = some [⟨none, "", 0, true, some 0⟩] ∧
    (executeJob utc none ⟨10, 11, 12, true⟩ (syncedJob (atJob "B" false)) ⟨0, 0⟩).map
        (fun cs => cs.jobs.map runView) = some [⟨some 10, "ok", 11, false, none⟩] ∧
    (executeJob utc none ⟨10, 11, 12, true⟩ (syncedJob (atJob "B" false)) ⟨0, 0⟩).map
        (fun cs => cs.disk.map runView) = some [⟨none, "", 0, true, some 0⟩] :=
  ⟨by decide, by decide, by decide, by decide, by decide⟩

/-- C13, as stated, fails: with a failing write `RemoveJob` still returns `true`
and `EnableJob` still returns the updated job. -/
theorem C13_counterexample :
    (RemoveJob (oneJob (everyJob "E" 60000)) "E" false).2 = true ∧
    (EnableJob utc 1 2 false (oneJob (everyJob "E" 60000)) "E" false).map
        (fun r => r.2.map scheduleView) = some (some ("E", false, none)) := by
  decide

/-- C13, amended: when writing the backing file fails, `AddJob` returns no job
(it returns the error of `saveStore`); `RemoveJob` and `EnableJob` drop the
result of `saveStore`: they return what they return when the write succeeds and
leave the same jobs in the store. -/
theorem C13_persist_failure (z : Zones) (cs : CronService) :
    (∀ now id name schedule message deliver channel to_ r,
      AddJob z now id false cs name schedule message deliver channel to_ = some r →
      r.2 = none) ∧
    (∀ jobID, (RemoveJob cs jobID false).2 = (RemoveJob cs jobID true).2 ∧
      (RemoveJob cs jobID false).1.jobs = (RemoveJob cs jobID true).1.jobs) ∧
    (∀ upd now jobID enabled,
      (EnableJob z upd now false cs jobID enabled).map (fun r => (r.1.jobs, r.2))
        = (EnableJob z upd now true cs jobID enabled).map (fun r => (r.1.jobs, r.2))) := by
  refine ⟨?_, ?_, ?_⟩
  · intro now id name schedule message deliver channel to_ r hr
    obtain ⟨job, next, _, _, _, _, _, _, h7, _⟩ :=
      AddJob_spec z now id false cs name schedule message deliver channel to_ r hr
    simpa using h7
  · intro jobID
    constructor
    · exact Bool.eq_iff_iff.2
        ((removeJobUnsafe_flag cs jobID false).trans (removeJobUnsafe_flag cs jobID true).symm)
    · unfold RemoveJob
      rw [jobs_removeJobUnsafe, jobs_removeJobUnsafe]
  · intro upd now jobID enabled
    unfold EnableJob
    cases hc : enableLoop z upd now jobID enabled cs.jobs with
    | none => rfl
    | some r0 =>
      cases r0 with
      | none => rfl
      | some x =>
        simp only [Option.map_some', jobs_saveStore]

/-- C13 at a concrete input: `AddJob` with a failing write returns no job. -/
theorem C13_witness :
    ∃ r, AddJob utc 100 "X" false (oneJob (everyJob "E" 60000)) "n"
        ⟨"every", none, some 5, "", ""⟩ "m" false "" "" = some r ∧ r.2 = none := by
  cases h : AddJob utc 100 "X" false (oneJob (everyJob "E" 60000)) "n"
      ⟨"every", none, some 5, "", ""⟩ "m" false "" "" with
  | none => exact absurd h (by decide)
  | some r =>
    exact ⟨r, rfl, (C13_persist_failure utc (oneJob (everyJob "E" 60000))).1 100 "X" "n"
      ⟨"every", none, some 5, "", ""⟩ "m" false "" "" r h⟩

/-- C17: the next-wake time reported by `Status` is `getNextWakeMS`, the minimum
`nextRunAt` over the jobs that are enabled and have one: it is the `nextRunAt`
of such a job and at most the `nextRunAt` of every such job; it is absent
exactly when no enabled job has a `nextRunAt`. -/
theorem C17_next_wake_is_minimum (cs : CronService) :
    (Status cs).nextWakeAtMS = getNextWakeMS cs ∧
    (getNextWakeMS cs = none ↔
      ∀ job ∈ cs.jobs, job.enabled = true → job.state.nextRunAtMS = none) ∧
    (∀ w, getNextWakeMS cs = some w →
      (∃ job ∈ cs.jobs, job.enabled = true ∧ job.state.nextRunAtMS = some w) ∧
      ∀ job ∈ cs.jobs, job.enabled = true → ∀ n, job.state.nextRunAtMS = some n → w ≤ n) := by
  obtain ⟨h1, h2⟩ := foldl_wakeStep cs.jobs none
  refine ⟨rfl, ?_, ?_⟩
  · unfold getNextWakeMS
    rw [h1]
    simp
  · intro w hw
    obtain ⟨a, _, c⟩ := h2 w hw
    refine ⟨?_, c⟩
    rcases a with a | a
    · exact absurd a (by simp)
    · exact a

/-- C17 at a concrete input: both jobs of `twoAtJobs` are due at 0. -/
theorem C17_witness :
    getNextWakeMS twoAtJobs = some 0 ∧
      ∃ job ∈ twoAtJobs.jobs, job.enabled = true ∧ job.state.nextRunAtMS = some 0 :=
  ⟨by decide, ((C17_next_wake_is_minimum twoAtJobs).2.2 0 (by decide)).1⟩

/-- C18: `EnableJob(id, flag)` returns `nil` and leaves the store unchanged
exactly when no job has the id. Otherwise it returns the first job with the id,
with `enabled = flag` and `nextRunAt` equal to the result of
`computeNextRun(schedule, now)` when the flag is true and absent when it is
false; the other jobs and the order of the jobs are unchanged. -/
theorem C18_EnableJob (z : Zones) (upd now : Int) (w : Bool) (cs : CronService)
    (jobID : String) (enabled : Bool) :
    ((∀ j ∈ cs.jobs, j.id ≠ jobID) →
      EnableJob z upd now w cs jobID enabled = some (cs, none)) ∧
    (∀ r, EnableJob z upd now w cs jobID enabled = some r → r.2 = none →
      r.1 = cs ∧ ∀ j ∈ cs.jobs, j.id ≠ jobID) ∧
    (∀ pre job post, cs.jobs = pre ++ job :: post → (∀ j ∈ pre, j.id ≠ jobID) →
      job.id = jobID →
      ∀ next, (if enabled then computeNextRun z job.schedule now else some none) = some next →
        ∃ cs1 job1, EnableJob z upd now w cs jobID enabled = some (cs1, some job1) ∧
          cs1.jobs = pre ++ job1 :: post ∧
          job1.id = jobID ∧ job1.enabled = enabled ∧ job1.state.nextRunAtMS = next ∧
          (enabled = false → next = none) ∧
          job1.schedule = job.schedule ∧ job1.name = job.name ∧ job1.payload = job.payload) := by
  refine ⟨?_, ?_, ?_⟩
  · intro h
    unfold EnableJob
    rw [enableLoop_not_found z upd now jobID enabled cs.jobs h]
    rfl
  · intro r hr hnone
    rcases EnableJob_cases z upd now w cs jobID enabled r hr with
      ⟨h1, h2⟩ | ⟨_, _, _, _, _, _, _, _, _, e6⟩
    · rw [h1]; exact ⟨rfl, h2⟩
    · rw [hnone] at e6; exact absurd e6 (by simp)
  · intro pre job post hjobs hpre hid next hn
    have hl := enableLoop_found z upd now jobID enabled pre post job next hpre hid hn
    obtain ⟨l1, hl1⟩ : ∃ l1, l1 = pre ++ setEnabled enabled upd next job :: post := ⟨_, rfl⟩
    rw [← hl1] at hl
    refine ⟨(saveStore { cs with heap := modifyAt (fun _ => l1) cs.cur cs.heap } w).1,
      setEnabled enabled upd next job, ?_, ?_, hid, rfl, rfl, ?_, rfl, rfl, rfl⟩
    · unfold EnableJob
      rw [hjobs, hl]
      rfl
    · rw [jobs_saveStore, ← hl1]
      exact jobs_replace cs _ (by rw [hjobs]; simp)
    · intro hf
      rw [hf] at hn
      simp only [Bool.false_eq_true, if_false, Option.some.injEq] at hn
      exact hn.symm

/-- C18 at a concrete input: enabling job `B` of `twoAtJobs` at time 2; its
`at` time 0 is past, so `computeNextRun` gives no `nextRunAt`. -/
theorem C18_witness :
    ∃ cs1 job1, EnableJob utc 1 2 true twoAtJobs "B" true = some (cs1, some job1) ∧
      cs1.jobs = [atJob "A" true] ++ job1 :: [] ∧
      job1.id = "B" ∧ job1.enabled = true ∧ job1.state.nextRunAtMS = none := by
  obtain ⟨cs1, job1, h1, h2, h3, h4, h5, _⟩ :=
    (C18_EnableJob utc 1 2 true twoAtJobs "B" true).2.2 [atJob "A" true] (atJob "B" false) []
      rfl (by decide) rfl none (by decide)
  exact ⟨cs1, job1, h1, h2, h3, h4, h5⟩

/-- C19: `RemoveJob(id)` returns `true` exactly when the store held a job with
the id; afterwards no job in the store has the id, and the store holds the jobs
with another id, unchanged and in their order. -/
theorem C19_RemoveJob (cs : CronService) (jobID : String) (w : Bool) :
    ((RemoveJob cs jobID w).2 = true ↔ ∃ j ∈ cs.jobs, j.id = jobID) ∧
    (∀ j ∈ (RemoveJob cs jobID w).1.jobs, j.id ≠ jobID) ∧
    (RemoveJob cs jobID w).1.jobs = cs.jobs.filter (fun job => job.id != jobID) ∧
    (∀ j ∈ cs.jobs, j.id ≠ jobID → j ∈ (RemoveJob cs jobID w).1.jobs) := by
  have hj : (RemoveJob cs jobID w).1.jobs = cs.jobs.filter (fun job => job.id != jobID) :=
    jobs_removeJobUnsafe cs jobID w
  refine ⟨removeJobUnsafe_flag cs jobID w, ?_, hj, ?_⟩
  · intro j hjm
    rw [hj] at hjm
    simpa using (List.mem_filter.1 hjm).2
  · intro j hjm hne
    rw [hj]
    exact List.mem_filter.2 ⟨hjm, by simpa using hne⟩

/-- C19 at a concrete input: removing `A` from `twoAtJobs`. -/
theorem C19_witness :
    (RemoveJob twoAtJobs "A" true).2 = true ∧
      (RemoveJob twoAtJobs "A" true).1.jobs = [atJob "B" false] :=
  ⟨(C19_RemoveJob twoAtJobs "A" true).1.2 ⟨atJob "A" true, by decide, rfl⟩,
    ((C19_RemoveJob twoAtJobs "A" true).2.2.1).trans (by decide)⟩

/-- C14, as stated, fails: with N = 2^63 - 1 over 1..31 the counter overflows and
the result also holds -2^63 and -1, which are below the lower bound; with
N = 2^63 the field is invalid, although the stated set is {0}. -/
theorem C14_counterexample :
    parseCronField "*/9223372036854775807".data 1 31
        = some (some [1, -9223372036854775808, -1]) ∧
      (-1 : Int) < 1 ∧
      parseCronField "*/9223372036854775808".data 0 59 = some none := by
  decide

/-- C14, amended: for a step written in decimal digits with value N, with
0 < N ≤ 2^63 - 1 and 64-bit bounds min ≤ max such that max + N ≤ 2^63 - 1,
`parseCronField("*/N", min, max)` is exactly the set of the min + k·N ≤ max
with k ≥ 0 (so `*/15` over 0..59 is {0, 15, 30, 45}); for N = 0, for a negative
N, for N > 2^63 - 1 and for a step that `Atoi` rejects the field is invalid. -/
theorem C14_step_field (ds : List Char) (N : Nat) (min max : Int) (hne : ds ≠ [])
    (hN : parseDigits ds 0 = some N) :
    (0 < N → (N : Int) ≤ 9223372036854775807 → -9223372036854775808 ≤ min → min ≤ max →
      max + N ≤ 9223372036854775807 →
      ∃ s, parseCronField ('*' :: '/' :: ds) min max = some (some s) ∧
        ∀ v, v ∈ s ↔ ∃ k : Nat, v = min + k * N ∧ v ≤ max) ∧
    (N = 0 → parseCronField ('*' :: '/' :: ds) min max = some none) ∧
    (9223372036854775807 < N → parseCronField ('*' :: '/' :: ds) min max = some none) ∧
    parseCronField ('*' :: '/' :: '-' :: ds) min max = some none ∧
    (∀ rest, ',' ∉ rest → (∀ c ∈ rest, isSpace c = false) → atoi rest = none →
      parseCronField ('*' :: '/' :: rest) min max = some none) ∧
    parseCronField "*/15".data 0 59 = some (some [0, 15, 30, 45]) := by
  have hd := parseDigits_digits ds 0 N hN
  have hstep := parseCronField_step ds min max (digits_no_comma ds hd)
    (fun c hc => digit_not_space c (hd c hc))
  rw [atoi_digits ds N hne hN] at hstep
  refine ⟨?_, ?_, ?_, ?_, ?_, by decide⟩
  · intro hpos hmaxN hmin hmm hsum
    obtain ⟨l, hl, hmem⟩ := countLoop_loopFuel max (N : Int) min (by omega) hsum hmin
    have hlne := countLoop_head max (N : Int) loopFuel min l hmm hl
    refine ⟨l, ?_, hmem⟩
    rw [hstep, if_pos (by omega)]
    simp only [if_neg (not_le.mpr (show (0 : Int) < N by omega)), hl, Option.map_some',
      Option.some_bind]
    cases l with
    | nil => exact absurd rfl hlne
    | cons _ _ => rfl
  · intro h0
    subst h0
    rw [hstep]
    rfl
  · intro hbig
    rw [hstep, if_neg (by omega)]
    rfl
  · have hcomma : ',' ∉ '-' :: ds := by
      intro hm
      rcases List.mem_cons.1 hm with e | e
      · exact absurd e (by decide)
      · exact digits_no_comma ds hd e
    have hspace : ∀ c ∈ '-' :: ds, isSpace c = false := by
      intro c hc
      rcases List.mem_cons.1 hc with rfl | e
      · decide
      · exact digit_not_space c (hd c e)
    rw [parseCronField_step ('-' :: ds) min max hcomma hspace, atoi_neg_digits ds N hne hN]
    by_cases hle : N ≤ 9223372036854775808
    · simp only [if_pos hle]
      rw [if_pos (by omega)]
      rfl
    · simp only [if_neg hle]
      rfl
  · intro rest h1 h2 h3
    rw [parseCronField_step rest min max h1 h2, h3]
    rfl

/-- C14 at a concrete input: `*/20` over 0..59. -/
theorem C14_witness :
    ∃ s, parseCronField "*/20".data 0 59 = some (some s) ∧
      ∀ v, v ∈ s ↔ ∃ k : Nat, v = 0 + k * ((20 : Nat) : Int) ∧ v ≤ 59 :=
  (C14_step_field "20".data 20 0 59 (by decide) (by decide)).1
    (by decide) (by decide) (by decide) (by decide) (by decide)

/-- C15, as stated, fails: for lo = 0 and hi = 2^63 the field is invalid, although
lo ≤ hi; for hi = 2^63 - 1 the call does not return. -/
theorem C15_counterexample :
    parseCronField "0-9223372036854775808".data 0 59 = some none ∧
      parseCronField "0-9223372036854775807".data 0 59 = none :=
  ⟨by decide, parseCronField_hang⟩

/-- C15, amended: for bounds written in decimal digits with values lo and hi,
`parseCronField("lo-hi", min, max)` is exactly the inclusive set {lo, ..., hi}
when lo ≤ hi ≤ 2^63 - 2 (so `10-12` over 0..23 is {10, 11, 12}) and is
invalid when lo > hi. -/
theorem C15_range_field (dlo dhi : List Char) (lo hi : Nat) (min max : Int)
    (hnlo : dlo ≠ []) (hnhi : dhi ≠ [])
    (hlo : parseDigits dlo 0 = some lo) (hhi : parseDigits dhi 0 = some hi) :
    (lo ≤ hi → hi ≤ 9223372036854775806 →
      ∃ s, parseCronField (dlo ++ '-' :: dhi) min max = some (some s) ∧
        ∀ v : Int, v ∈ s ↔ (lo : Int) ≤ v ∧ v ≤ hi) ∧
    (hi < lo → parseCronField (dlo ++ '-' :: dhi) min max = some none) ∧
    parseCronField "10-12".data 0 23 = some (some [10, 11, 12]) := by
  have hdl := parseDigits_digits dlo 0 lo hlo
  have hdh := parseDigits_digits dhi 0 hi hhi
  have hcomma : ',' ∉ dlo ++ '-' :: dhi := by
    intro hm
    rcases List.mem_append.1 hm with e | e
    · exact digits_no_comma dlo hdl e
    · rcases List.mem_cons.1 e with e2 | e2
      · exact absurd e2 (by decide)
      · exact digits_no_comma dhi hdh e2
  have hspace : ∀ c ∈ dlo ++ '-' :: dhi, isSpace c = false := by
    intro c hc
    rcases List.mem_append.1 hc with e | e
    · exact digit_not_space c (hdl c e)
    · rcases List.mem_cons.1 e with rfl | e2
      · decide
      · exact digit_not_space c (hdh c e2)
  obtain ⟨ht, hdr⟩ := takeWhile_append_stop (fun c => c != '-') '-' dhi (by decide) dlo
    (fun c hc => by
      have := digit_ne c '-' (hdl c hc) (by decide)
      simpa using this)
  have hdrop : ((dlo ++ '-' :: dhi).dropWhile (fun c => c != '-')).drop 1 = dhi := by
    rw [hdr]
    rfl
  obtain ⟨hh1, hh2⟩ := digits_head dlo hdl hnlo ('-' :: dhi)
  have hmem : '-' ∈ dlo ++ '-' :: dhi :=
    List.mem_append_right _ (List.mem_cons_self _ _)
  have halo := atoi_digits dlo lo hnlo hlo
  have hahi := atoi_digits dhi hi hnhi hhi
  refine ⟨?_, ?_, by decide⟩
  · intro hle hmax
    rw [if_pos (by omega)] at halo hahi
    obtain ⟨l, hl, hmemb⟩ :=
      countLoop_loopFuel (hi : Int) 1 (lo : Int) (by omega) (by omega) (by omega)
    have hlne := countLoop_head (hi : Int) 1 loopFuel (lo : Int) l (by omega) hl
    refine ⟨l, ?_, ?_⟩
    · rw [parseCronField_one_part _ min max hcomma hspace,
        parsePart_range _ min max (lo : Int) (hi : Int) hh1 hh2 hmem (by rw [ht]; exact halo)
          (by rw [hdrop]; exact hahi) (by omega), hl]
      cases l with
      | nil => exact absurd rfl hlne
      | cons _ _ => rfl
    · intro v
      rw [hmemb]
      constructor
      · rintro ⟨k, hk, hvb⟩
        refine ⟨?_, hvb⟩
        have : (0 : Int) ≤ k := by positivity
        omega
      · rintro ⟨h1, h2⟩
        exact ⟨(v - lo).toNat, by omega, h2⟩
  · intro hlt
    have hbad : atoi ((dlo ++ '-' :: dhi).takeWhile (fun c => c != '-')) = none ∨
        atoi (((dlo ++ '-' :: dhi).dropWhile (fun c => c != '-')).drop 1) = none ∨
        ∃ a b, atoi ((dlo ++ '-' :: dhi).takeWhile (fun c => c != '-')) = some a ∧
          atoi (((dlo ++ '-' :: dhi).dropWhile (fun c => c != '-')).drop 1) = some b ∧
          a > b := by
      rw [ht, hdrop, halo, hahi]
      by_cases h1 : lo < 9223372036854775808
      · right
        right
        rw [if_pos h1, if_pos (by omega)]
        exact ⟨lo, hi, rfl, rfl, by omega⟩
      · left
        rw [if_neg h1]
    rw [parseCronField_one_part _ min max hcomma hspace,
      parsePart_range_bad _ min max hh1 hh2 hmem hbad]
    rfl

/-- C15 at a concrete input: `1-5` over 0..6. -/
theorem C15_witness :
    ∃ s, parseCronField ("1".data ++ '-' :: "5".data) 0 6 = some (some s) ∧
      ∀ v : Int, v ∈ s ↔ ((1 : Nat) : Int) ≤ v ∧ v ≤ ((5 : Nat) : Int) :=
  (C15_range_field "1".data "5".data 1 5 0 6 (by decide) (by decide) (by decide)
    (by decide)).1 (by decide) (by decide)

/-- C16 fails on the code at the list `0-9223372036854775807,abc` over 0..59: the
part `abc` is invalid, so the claim asks for an invalid list, but the range loop
of the first part never ends and `parseCronField` does not return. -/
theorem C16_invalid_part_not_reached :
    parseCronField "abc".data 0 59 = some none ∧
      parseCronField "".data 0 59 = some none ∧
      "0-9223372036854775807".data ++ ',' :: "abc".data = "0-9223372036854775807,abc".data ∧
      parseCronField "0-9223372036854775807,abc".data 0 59 = none := by
  refine ⟨by decide, by decide, by decide, ?_⟩
  have e : splitComma "0-9223372036854775807,abc".data
      = ["0-9223372036854775807".data, "abc".data] := by decide
  have ht : trimSpace "0-9223372036854775807".data = "0-9223372036854775807".data := by decide
  unfold parseCronField
  rw [e]
  exact parseParts_first_hangs 0 59 _ _ _ (by rw [ht]; exact parsePart_hang 0 59)

/-- C20, as stated, fails: the integer -1 is outside the minute bounds, but
`parseCronField` reads `-1` as a range without a lower end and returns `nil`,
not the set {-1}. -/
theorem C20_counterexample :
    parseCronField "-1".data 0 59 = some none ∧
      parseCronField "-1".data 0 59 ≠ some (some [-1]) := by
  decide

/-- C20, amended: for every value v with 0 ≤ v ≤ 2^63 - 1 written in decimal
digits, inside the bounds or not, `parseCronField` returns the one-element set
{v} (so `60`, `24` and `13` parse), while a negative v gives `nil`; for every
`cron` schedule with five fields whose `parseCronField` calls all return and in
which one field's set holds no value inside that field's bounds,
`computeNextRun` returns a run time for no current time, in any location; and
when `time.Local` and every location that `time.LoadLocation` resolves have a
fixed offset of whole minutes, `computeNextRun` returns `nil` for every current
time, and `AddJob` with a succeeding write returns the job, enabled and in the
store, with `nextRunAt` absent. -/
theorem C20_out_of_range_never_fires (z : Zones) :
    (∀ (ds : List Char) (v : Nat) (min max : Int), ds ≠ [] → parseDigits ds 0 = some v →
      v ≤ 9223372036854775807 → parseCronField ds min max = some (some [(v : Int)])) ∧
    (parseCronField "60".data 0 59 = some (some [60]) ∧
      parseCronField "24".data 0 23 = some (some [24]) ∧
      parseCronField "13".data 1 12 = some (some [13])) ∧
    (∀ (ds : List Char) (min max : Int), (∀ c ∈ ds, 48 ≤ c.toNat ∧ c.toNat ≤ 57) →
      parseCronField ('-' :: ds) min max = some none) ∧
    (∀ (s : CronSchedule) (f0 f1 f2 f3 f4 : List Char) (r0 r1 r2 r3 r4 : Option (List Int)),
      s.kind = "cron" → fields s.expr.data = [f0, f1, f2, f3, f4] →
      parseCronField f0 0 59 = some r0 → parseCronField f1 0 23 = some r1 →
      parseCronField f2 1 31 = some r2 → parseCronField f3 1 12 = some r3 →
      parseCronField f4 0 6 = some r4 →
      ((∃ mi, r0 = some mi ∧ ∀ v ∈ mi, v < 0 ∨ 59 < v) ∨
        (∃ ho, r1 = some ho ∧ ∀ v ∈ ho, v < 0 ∨ 23 < v) ∨
        (∃ dom, r2 = some dom ∧ ∀ v ∈ dom, v < 1 ∨ 31 < v) ∨
        (∃ mo, r3 = some mo ∧ ∀ v ∈ mo, v < 1 ∨ 12 < v) ∨
        (∃ dow, r4 = some dow ∧ ∀ v ∈ dow, v < 0 ∨ 6 < v)) →
      ∀ now : Int,
        (∀ t : Int, computeNextRun z s now ≠ some (some t)) ∧
        ((z.localLoc.tx = [] ∧ z.localLoc.first % 60 = 0) →
          (∀ (name : String) (l : Location), z.load name = some l →
            l.tx = [] ∧ l.first % 60 = 0) →
          computeNextRun z s now = some none ∧
          ∀ (cs : CronService) (id name message channel to_ : String) (deliver : Bool),
            ∃ cs1 job, AddJob z now id true cs name s message deliver channel to_
                = some (cs1, some job) ∧
              job ∈ cs1.jobs ∧ job.id = id ∧ job.enabled = true ∧
              job.state.nextRunAtMS = none)) := by
  refine ⟨?_, ⟨by decide, by decide, by decide⟩, ?_, ?_⟩
  · intro ds v min max hne hv hle
    rw [parseCronField_number ds v min max hne hv, if_pos (by omega)]
  · intro ds min max hd
    exact parseCronField_negative ds min max hd
  · intro s f0 f1 f2 f3 f4 r0 r1 r2 r3 r4 hk hf p0 p1 p2 p3 p4 hout now
    have hcases : s.expr = "" ∨ s.expr ≠ "" := by
      by_cases he : s.expr = ""
      · exact Or.inl he
      · exact Or.inr he
    constructor
    · intro t
      rcases hcases with he | he
      · rw [computeNextRun_cron_empty z s now hk he]
        simp
      · obtain ⟨loc, _, e⟩ := computeNextRun_cron z s now hk he
        rw [e]
        intro h
        cases hr : nextCronTime loc s.expr.data (now * 1000000) with
        | none =>
          rw [hr] at h
          exact absurd h (by simp)
        | some r =>
          cases r with
          | none =>
            rw [hr] at h
            exact absurd h (by simp)
          | some u =>
            exact nextCronTime_out_of_bounds_never loc _ (now * 1000000) u f0 f1 f2 f3 f4
              r0 r1 r2 r3 r4 hf p0 p1 p2 p3 p4 hout hr
    · intro hloc hload
      have hnil : computeNextRun z s now = some none := by
        rcases hcases with he | he
        · exact computeNextRun_cron_empty z s now hk he
        · obtain ⟨loc, hl, e⟩ := computeNextRun_cron z s now hk he
          have hfixed : loc.tx = [] ∧ loc.first % 60 = 0 := by
            rcases hl with rfl | ⟨name, hn⟩
            · exact hloc
            · exact hload name loc hn
          rw [e, nextCronTime_out_of_bounds loc hfixed.1 hfixed.2 _ (now * 1000000)
            f0 f1 f2 f3 f4 r0 r1 r2 r3 r4 hf p0 p1 p2 p3 p4 hout]
          rfl
      refine ⟨hnil, ?_⟩
      intro cs id name message channel to_ deliver
      obtain ⟨r, hr⟩ :=
        AddJob_returns z now id true cs name s message deliver channel to_ none hnil
      obtain ⟨job, next, hnext, hjobs, hid, hen, _, hst, hret, _⟩ :=
        AddJob_spec z now id true cs name s message deliver channel to_ r hr
      rw [hnil] at hnext
      simp only [Option.some.injEq] at hnext
      refine ⟨r.1, job, ?_, ?_, hid, hen, ?_⟩
      · rw [hr]
        simp only [if_true] at hret
        rw [← hret]
      · rw [hjobs]
        simp
      · rw [hst, ← hnext]

/-- C20 at a concrete input: the schedule `60 * * * *` at time 100 in UTC. -/
theorem C20_witness :
    computeNextRun utc ⟨"cron", none, none, "60 * * * *", ""⟩ 100 = some none :=
  (((C20_out_of_range_never_fires utc).2.2.2 ⟨"cron", none, none, "60 * * * *", ""⟩
    "60".data "*".data "*".data "*".data "*".data (some [60])
    (parseCronField "*".data 0 23).join (parseCronField "*".data 1 31).join
    (parseCronField "*".data 1 12).join (parseCronField "*".data 0 6).join
    rfl (by decide) (by decide) (by decide) (by decide) (by decide) (by decide)
    (Or.inl ⟨[60], rfl, by decide⟩) 100).2 ⟨rfl, by decide⟩
    (fun _ _ h => absurd h (by simp [utc]))).1

end Cron
